import Mathlib

/- Shallow embedding of the humaniser repository (src/humaniser.js, called
   version 1 below, and the unnamed revision src/unnamed/part_000, called
   version 2 below) together with proofs settling the frozen claims.

   Modelling conventions:
   * JavaScript strings are lists of characters (`Str`).
   * JavaScript numbers used for probabilities and strengths are rationals;
     the 32-bit xorshift generator state is a natural number below 2^32,
     threaded explicitly through every function that draws from it.
   * The regular expressions of the source are hand-compiled to scanners
     over `Str` that follow the leftmost-match / greedy / lazy semantics of
     the concrete patterns appearing in the source.
   * Case mapping (`toLowerCase` / `toUpperCase`) is modelled on the
     ASCII and Latin-1 letters, the only ranges the program's data and the
     claims exercise. -/

namespace Humaniser

/-- Strings of the JavaScript program, modelled as lists of characters. -/
abbrev Str := List Char

/-- Whitespace class of JavaScript regular expressions (`\s`) and of
`String.prototype.trim`. -/
def jsIsSpace (c : Char) : Bool :=
  c.toNat == 32 || c.toNat == 9 || c.toNat == 10 || c.toNat == 11 ||
  c.toNat == 12 || c.toNat == 13 || c.toNat == 0xa0 || c.toNat == 0x1680 ||
  (0x2000 ≤ c.toNat && c.toNat ≤ 0x200a) || c.toNat == 0x2028 ||
  c.toNat == 0x2029 || c.toNat == 0x202f || c.toNat == 0x205f ||
  c.toNat == 0x3000 || c.toNat == 0xfeff

/-- Word-character class of JavaScript regular expressions (`\w`), used by
the `\b` word-boundary assertion. -/
def isWordChar (c : Char) : Bool :=
  (97 ≤ c.toNat && c.toNat ≤ 122) || (65 ≤ c.toNat && c.toNat ≤ 90) ||
  (48 ≤ c.toNat && c.toNat ≤ 57) || c.toNat == 95

/-- Decimal digit class (`\d`). -/
def isDigitChar (c : Char) : Bool :=
  48 ≤ c.toNat && c.toNat ≤ 57

/-- Lower-casing of one character (`toLowerCase`), on the ASCII and Latin-1
letters exercised by the program. -/
def lowerChar (c : Char) : Char :=
  if 65 ≤ c.toNat ∧ c.toNat ≤ 90 then Char.ofNat (c.toNat + 32)
  else if 0xc0 ≤ c.toNat ∧ c.toNat ≤ 0xde ∧ c.toNat ≠ 0xd7 then Char.ofNat (c.toNat + 32)
  else c

/-- Upper-casing of one character (`toUpperCase`), on the ASCII and Latin-1
letters exercised by the program. -/
def upperChar (c : Char) : Char :=
  if 97 ≤ c.toNat ∧ c.toNat ≤ 122 then Char.ofNat (c.toNat - 32)
  else if 0xe0 ≤ c.toNat ∧ c.toNat ≤ 0xfe ∧ c.toNat ≠ 0xf7 then Char.ofNat (c.toNat - 32)
  else c

/-- whole-string `toLowerCase`. -/
def lowerStr (s : Str) : Str := s.map lowerChar

/-- whole-string `toUpperCase`. -/
def upperStr (s : Str) : Str := s.map upperChar

/-- Case-insensitive character comparison, as performed by the `i` flag. -/
def ciCharEq (a b : Char) : Bool := lowerChar a == lowerChar b

/-- Case-insensitive string comparison. -/
def ciStrEq (a b : Str) : Bool := lowerStr a == lowerStr b

/-- Leading whitespace of a string: the match of `/^\s*/`. -/
def leadingWS (s : Str) : Str := s.takeWhile jsIsSpace

/-- Trailing whitespace of a string: the match of `/\s*$/`. -/
def trailingWS (s : Str) : Str := (s.reverse.takeWhile jsIsSpace).reverse

/-- JavaScript `String.prototype.trim`. -/
def trimJS (s : Str) : Str :=
  ((s.dropWhile jsIsSpace).reverse.dropWhile jsIsSpace).reverse

/-- Splitting a text into lines: `text.split(/\r\n|\n/)`.  A `\r`
immediately followed by `\n` is consumed together with it. -/
def splitLinesJS : Str → List Str
  | [] => [[]]
  | '\r' :: '\n' :: t => [] :: splitLinesJS t
  | c :: t =>
    if c = '\n' then [] :: splitLinesJS t
    else
      match splitLinesJS t with
      | [] => [[c]]
      | l :: ls => (c :: l) :: ls

/-- Rejoining processed lines: `outLines.join('\n')`. -/
def joinLines : List Str → Str
  | [] => []
  | [l] => l
  | l :: ls => l ++ '\n' :: joinLines ls

/-- Splitting on a single literal character
(`String.prototype.split(sep)`). -/
def splitOnChar (sep : Char) : Str → List Str
  | [] => [[]]
  | c :: t =>
    if c = sep then [] :: splitOnChar sep t
    else
      match splitOnChar sep t with
      | [] => [[c]]
      | l :: ls => (c :: l) :: ls

/-- Case-insensitive test that `pat` is a prefix of `s`. -/
def ciIsPrefix (pat s : Str) : Bool :=
  match pat, s with
  | [], _ => true
  | _ :: _, [] => false
  | p :: ps, c :: cs => ciCharEq p c && ciIsPrefix ps cs

/-- Case-sensitive substring search, as used by `indexOf(...) !== -1`. -/
def containsSub (pat : Str) : Str → Bool
  | [] => pat.isEmpty
  | c :: cs => pat.isPrefixOf (c :: cs) || containsSub pat cs

/- ===== the seeded xorshift32 generator ===== -/

/-- One xorshift32 update of the generator state: the three
shift-and-xor assignments performed inside `rnd()` (32-bit wrapping). -/
def nextState (s : Nat) : Nat :=
  let s1 := (s ^^^ (s <<< 13)) % 4294967296
  let s2 := s1 ^^^ (s1 >>> 17)
  (s2 ^^^ (s2 <<< 5)) % 4294967296

/-- Value returned by one `rnd()` call entered with state `s`: the updated
state reduced modulo 1,000,000 and normalised into `[0,1)`. -/
def rndQ (s : Nat) : ℚ := mkRat ((nextState s) % 1000000 : ℕ) 1000000

/-- Rational made from a natural number, in a kernel-reducible form. -/
def natQ (n : Nat) : ℚ := mkRat n 1

/-- Multiplication of rationals in a kernel-reducible form (`Rat.mul` is
irreducible); it agrees with `*` on `ℚ`. -/
def qmul (a b : ℚ) : ℚ := mkRat (a.num * b.num) (a.den * b.den)

theorem qmul_eq_mul (a b : ℚ) : qmul a b = a * b := by
  rw [qmul, Rat.mkRat_eq_divInt]
  push_cast
  rw [← Rat.divInt_mul_divInt' a.num a.den b.num b.den,
    Rat.num_divInt_den, Rat.num_divInt_den]

/-- Entry point `seed(s)`: the module-level state is overwritten with
`s >>> 0`, remapping 0 to 1.  The previous state is ignored. -/
def seedFn (_prior : Nat) (v : Int) : Nat :=
  let u := (v % 4294967296).toNat
  if u = 0 then 1 else u

/-- Function `choose(arr, prob)`: empty input yields the empty string with
no draw; otherwise one draw decides whether `arr[0]` is returned, and on
failure a second draw selects `arr[Math.floor(rnd()*arr.length)]`. -/
def chooseJS (arr : List Str) (prob : ℚ) (st : Nat) : Str × Nat :=
  if arr.isEmpty then ([], st)
  else if rndQ st < prob then (arr.headI, nextState st)
  else
    let st1 := nextState st
    let idx := (qmul (rndQ st1) (natQ arr.length)).floor.toNat
    (arr.getD idx [], nextState st1)

/- ===== the bilingual dictionaries ===== -/

/-- English synonym table shared by both revisions (version 2 adds
`prototype`). -/
def enSynBase : List (Str × List Str) :=
  [("utilize".data, ["use".data, "make use of".data]),
   ("approximately".data, ["about".data, "around".data]),
   ("implement".data, ["put in place".data, "roll out".data, "set up".data]),
   ("evaluate".data, ["review".data, "check".data, "assess".data, "look over".data]),
   ("recommended".data, ["suggested".data, "advised".data]),
   ("therefore".data, ["so".data, "thus".data]),
   ("contact".data, ["reach out".data, "get in touch".data]),
   ("require".data, ["need".data, "ask for".data]),
   ("perform".data, ["do".data, "carry out".data]),
   ("prefer".data, ["like better".data, "favor".data])]

/-- English synonym table of src/humaniser.js (version 1). -/
def enSynV1 : List (Str × List Str) := enSynBase

/-- English synonym table of the part_000 revision (version 2). -/
def enSynV2 : List (Str × List Str) :=
  enSynBase ++ [("prototype".data, ["sample".data, "early version".data])]

/-- Dutch synonym table of src/humaniser.js (version 1); note the key
`implementatie.` ending in a period. -/
def nlSynV1 : List (Str × List Str) :=
  [("implementatie".data, ["uitvoering".data, "doorvoering".data, "implementatie".data]),
   ("implementatie.".data, ["uitvoering.".data]),
   ("implementeren".data, ["doorvoeren".data, "uitrollen".data, "invoeren".data]),
   ("evalueren".data, ["beoordelen".data, "nakijken".data, "controleren".data]),
   ("aanbevolen".data, ["aangeraden".data, "aanbevolen".data]),
   ("ongeveer".data, ["rond".data, "circa".data, "ongeveer".data]),
   ("gebruikers".data, ["gebruikers".data, "gebruikers".data]),
   ("leverancier".data, ["partij".data, "leverancier".data, "partner".data]),
   ("voorkeur".data, ["liever hebben".data, "voorkeur hebben".data]),
   ("aanpassingsmogelijkheden".data, ["instellingsopties".data, "aanpassingen".data])]

/-- Dutch synonym table of the part_000 revision (version 2). -/
def nlSynV2 : List (Str × List Str) :=
  [("implementatie".data, ["uitvoering".data, "doorvoering".data, "implementatie".data]),
   ("implementeren".data, ["doorvoeren".data, "uitrollen".data, "invoeren".data]),
   ("evalueren".data, ["beoordelen".data, "nakijken".data, "controleren".data]),
   ("aanbevolen".data, ["aangeraden".data, "aanbevolen".data]),
   ("ongeveer".data, ["rond".data, "circa".data, "ongeveer".data]),
   ("gebruikers".data, ["gebruikers".data, "gebruikers".data]),
   ("leverancier".data, ["partij".data, "leverancier".data, "partner".data]),
   ("voorkeur".data, ["liever hebben".data, "voorkeur hebben".data]),
   ("aanpassingsmogelijkheden".data, ["instellingsopties".data, "aanpassingen".data])]

/-- English contraction table, identical in both revisions; entry order is
the object-literal insertion order. -/
def enContr : List (Str × Str) :=
  [("do not".data, "don't".data), ("does not".data, "doesn't".data),
   ("did not".data, "didn't".data), ("cannot".data, "can't".data),
   ("will not".data, "won't".data), ("is not".data, "isn't".data),
   ("are not".data, "aren't".data), ("it is".data, "it's".data),
   ("that is".data, "that's".data), ("i am".data, "I'm".data),
   ("we are".data, "we're".data), ("you are".data, "you're".data),
   ("they are".data, "they're".data), ("we will".data, "we'll".data),
   ("you will".data, "you'll".data), ("i will".data, "I'll".data),
   ("it will".data, "it'll".data)]

/-- Dutch contraction table of version 1: two identity entries. -/
def nlContrV1 : List (Str × Str) :=
  [("het is".data, "het is".data), ("dat is".data, "dat is".data)]

/-- Dutch contraction table of version 2: intentionally empty. -/
def nlContrV2 : List (Str × Str) := []

/- ===== small helpers of the source ===== -/

/-- Stable insertion of a string into a list sorted by decreasing length:
the element goes after all strictly longer and all equally long ones. -/
def insertByLen (x : Str) : List Str → List Str
  | [] => [x]
  | y :: ys => if y.length < x.length then x :: y :: ys else y :: insertByLen x ys

/-- Model of `Object.keys(table).sort((a,b) => b.length - a.length)`:
JavaScript's sort is stable, so equal lengths keep insertion order. -/
def sortByLenDesc (l : List Str) : List Str := l.foldr insertByLen []

/-- Function `capitalize(s)`: upper-case the first character. -/
def capitalize : Str → Str
  | [] => []
  | c :: t => upperChar c :: t

/-- Predicate used by `preserveCase` for the all-caps test
(`src.toUpperCase() === src`). -/
def isAllCaps (s : Str) : Bool := upperStr s == s

/-- Function `preserveCase(src, dest)`: copy the casing pattern of the
matched source onto the replacement. -/
def preserveCase (src dest : Str) : Str :=
  match src with
  | [] => dest
  | c :: _ =>
    if isAllCaps src then upperStr dest
    else if c = upperChar c then capitalize dest
    else dest

/-- Terminal sentence punctuation class `[.!?]`. -/
def isTermPunct (c : Char) : Bool :=
  c.toNat == 46 || c.toNat == 33 || c.toNat == 63

/-- Test of `/[.!?]$/`: the string ends with terminal punctuation. -/
def endsTerm (s : Str) : Bool :=
  match s.getLast? with
  | some c => isTermPunct c
  | none => false

/-- Match of `/([.!?]+)$/`: the trailing run of terminal punctuation. -/
def trailTermRun (s : Str) : Str := (s.reverse.takeWhile isTermPunct).reverse

/-- Result of `replace(/[.!?]+$/, '')`: the string with its trailing run of
terminal punctuation removed. -/
def dropTrailTerm (s : Str) : Str := (s.reverse.dropWhile isTermPunct).reverse

/- ===== case-insensitive word-boundary replacement (`\b…\b` with `gi`) ===== -/

/-- Wordness of the character before the current position; `false` at the
start of the string, where `\b` holds exactly when the next character is a
word character. -/
def lastWordness (m : Str) : Bool :=
  match m.getLast? with
  | some c => isWordChar c
  | none => false

/-- Whether `/\bkey\b/i` matches at the head of `s`; `prevW` is the wordness
of the character before the current position. -/
def wbMatchAt (key : Str) (prevW : Bool) (s : Str) : Bool :=
  !key.isEmpty && ciIsPrefix key s &&
  (match s.head? with
   | some c => prevW != isWordChar c
   | none => false) &&
  (match (s.take key.length).getLast?, (s.drop key.length).head? with
   | some ml, some c => isWordChar ml != isWordChar c
   | some ml, none => isWordChar ml
   | none, _ => false)

/-- First key of `keys` (an alternation, tried in order) matching at the
head of `s`. -/
def findWBKey (keys : List Str) (prevW : Bool) (s : Str) : Option Str :=
  keys.find? (fun k => wbMatchAt k prevW s)

theorem wbMatchAt_ne_nil {key : Str} {prevW : Bool} {s : Str}
    (h : wbMatchAt key prevW s = true) : key ≠ [] := by
  intro hk
  subst hk
  simp [wbMatchAt] at h

/-- Global replacement of word-boundary-delimited, case-insensitive
occurrences of any of `keys` (tried in order at each position), the
replacement computed by the stateful callback `cb` from the matched text.
This models `s.replace(new RegExp('\\b' + k + '\\b', 'gi'), cb)`: the scan
walks the original string left to right and resumes after each match. -/
def replaceWBF (keys : List Str) (cb : Str → σ → Str × σ) :
    Nat → Bool → Str → σ → Str × σ
  | 0, _, s, st => (s, st)
  | _ + 1, _, [], st => ([], st)
  | fuel + 1, prevW, c :: t, st =>
    match findWBKey keys prevW (c :: t) with
    | some k =>
      let m := (c :: t).take k.length
      let r := cb m st
      let rest := (c :: t).drop k.length
      let out := replaceWBF keys cb fuel (lastWordness m) rest r.2
      (r.1 ++ out.1, out.2)
    | none =>
      let out := replaceWBF keys cb fuel (isWordChar c) t st
      (c :: out.1, out.2)

/-- Fuel-supplying wrapper: every match consumes at least one character, so
`s.length` steps always suffice and the fuel-exhausted branch is never
reached. -/
def replaceWB (keys : List Str) (cb : Str → σ → Str × σ) (prevW : Bool)
    (s : Str) (st : σ) : Str × σ :=
  replaceWBF keys cb s.length prevW s st

/- ===== URL / e-mail protection (`/https?:\/\/\S+|\S+@\S+/gi`) ===== -/

/-- Maximal run of non-whitespace characters at the head of `s` (`\S+`,
greedy). -/
def maxNonWS (s : Str) : Str := s.takeWhile (fun c => !jsIsSpace c)

/-- Whether a non-whitespace run contains an `@` that has at least one
character before and after it inside the run: the condition under which
`\S+@\S+` matches the whole run. -/
def hasInternalAt (run : Str) : Bool := ((run.drop 1).dropLast).contains '@'

/-- Length of the match of `/https?:\/\/\S+|\S+@\S+/i` at the head of `s`,
if any.  Both alternatives, when they match, consume the whole maximal
non-whitespace run starting here. -/
def urlMatchLen (s : Str) : Option Nat :=
  let run := maxNonWS s
  if ciIsPrefix "https://".data s && decide (8 < run.length) then some run.length
  else if ciIsPrefix "http://".data s && decide (7 < run.length) then some run.length
  else if hasInternalAt run then some run.length
  else none

theorem urlMatchLen_pos {s : Str} {L : Nat} (h : urlMatchLen s = some L) :
    0 < L := by
  simp only [urlMatchLen] at h
  split at h
  · rename_i hc
    cases h
    simp only [Bool.and_eq_true, decide_eq_true_eq] at hc
    omega
  · split at h
    · rename_i hc
      cases h
      simp only [Bool.and_eq_true, decide_eq_true_eq] at hc
      omega
    · split at h
      · rename_i hat
        cases h
        have hne : ((maxNonWS s).drop 1).dropLast ≠ [] := by
          intro he
          rw [hasInternalAt, he] at hat
          simp [List.contains] at hat
        have := List.length_pos.mpr hne
        simp only [List.length_dropLast, List.length_drop] at this
        omega
      · cases h

/-- Decimal digits of a natural number (the template literal `${n}`). -/
def natToDec (n : Nat) : Str := Nat.toDigits 10 n

/-- Decimal value of a digit string. -/
def decOfDigits (d : Str) : Nat :=
  d.foldl (fun acc c => acc * 10 + (c.toNat - 48)) 0

/-- Placeholder text `__<tag>_<n>__` spliced in for the n-th protected
token (`tag` is `PH` in version 2 and `PLACEHOLDER` in version 1). -/
def placeholderStr (tag : Str) (n : Nat) : Str :=
  "__".data ++ tag ++ "_".data ++ natToDec n ++ "__".data

/-- Protection pass of `replaceSynonyms`: each URL-like or e-mail-like
token is pushed onto the placeholder list and replaced by its placeholder
text. -/
def protectScanF (tag : Str) : Nat → Str → List Str → Str × List Str
  | 0, s, acc => (s, acc)
  | _ + 1, [], acc => ([], acc)
  | fuel + 1, c :: t, acc =>
    match urlMatchLen (c :: t) with
    | some L =>
      let m := (c :: t).take L
      let out := protectScanF tag fuel ((c :: t).drop L) (acc ++ [m])
      (placeholderStr tag acc.length ++ out.1, out.2)
    | none =>
      let out := protectScanF tag fuel t acc
      (c :: out.1, out.2)

/-- Fuel-supplying wrapper for the protection scan. -/
def protectScan (tag : Str) (s : Str) (acc : List Str) : Str × List Str :=
  protectScanF tag s.length s acc

/-- Length of the match of `/__<tag>_(\d+)__/` at the head of `s` together
with its digit group, if any. -/
def restoreMatchAt (tag : Str) (s : Str) : Option (Nat × Str) :=
  let p1 := "__".data ++ tag ++ "_".data
  if p1.isPrefixOf s then
    let afterTag := s.drop p1.length
    let digits := afterTag.takeWhile isDigitChar
    if digits.isEmpty then none
    else if "__".data.isPrefixOf (afterTag.drop digits.length) then
      some (p1.length + digits.length + 2, digits)
    else none
  else none

theorem restoreMatchAt_pos {tag s : Str} {L : Nat} {d : Str}
    (h : restoreMatchAt tag s = some (L, d)) : 0 < L := by
  simp only [restoreMatchAt] at h
  split at h
  · split at h
    · cases h
    · split at h
      · cases h
        omega
      · cases h
  · cases h

/-- Restoration pass of `replaceSynonyms`
(`s.replace(/__<tag>_(\d+)__/g, (m,n) => placeholders[n] || m)`): a
placeholder whose digit group is the canonical decimal form of an index
into the placeholder list is replaced by the stored token, anything else is
kept as matched. -/
def restoreScanF (tag : Str) (ph : List Str) : Nat → Str → Str
  | 0, s => s
  | _ + 1, [] => []
  | fuel + 1, c :: t =>
    match restoreMatchAt tag (c :: t) with
    | some Ld =>
      let m := (c :: t).take Ld.1
      let repl :=
        if Ld.2 = natToDec (decOfDigits Ld.2) then
          match ph.get? (decOfDigits Ld.2) with
          | some orig => orig
          | none => m
        else m
      repl ++ restoreScanF tag ph fuel ((c :: t).drop Ld.1)
    | none => c :: restoreScanF tag ph fuel t

/-- Fuel-supplying wrapper for the restoration scan. -/
def restoreScan (tag : Str) (ph : List Str) (s : Str) : Str :=
  restoreScanF tag ph s.length s

/- ===== sentence segmentation (`text.match(/[^.!?]+[.!?]?/g)`) ===== -/

/-- Matches of `/[^.!?]+[.!?]?/g`: maximal runs of non-terminator
characters, each keeping one following terminator when present; terminator
characters not directly after such a run are skipped. -/
def sentMatchesF : Nat → Str → List Str
  | 0, _ => []
  | _ + 1, [] => []
  | fuel + 1, c :: t =>
    if isTermPunct c then sentMatchesF fuel t
    else
      match t.drop ((t.takeWhile (fun x => !isTermPunct x)).length) with
      | p :: r2 =>
        ((c :: t.takeWhile (fun x => !isTermPunct x)) ++ [p]) :: sentMatchesF fuel r2
      | [] => [c :: t.takeWhile (fun x => !isTermPunct x)]

/-- Fuel-supplying wrapper for the sentence-match scan. -/
def sentMatches (s : Str) : List Str := sentMatchesF s.length s

/-- Function `splitSentences(text)`: trimmed non-empty matches, or the
whole text when the regex has no match at all. -/
def splitSentences (text : Str) : List Str :=
  let ms := sentMatches text
  if ms.isEmpty then [text]
  else (ms.map trimJS).filter (fun x => !x.isEmpty)

/- ===== conjunction splitting (`s.split(/\s+(w1|w2|…)\s+/i)`) ===== -/

/-- Match of `\s+(w1|w2|…)\s+` at the head of `s`: total length consumed
and the captured conjunction text.  The alternatives all start with a
letter, so only the maximal leading whitespace run can precede one; the
trailing `\s+` is greedy with nothing after it in the pattern. -/
def conjSepAt (ws : List Str) (s : Str) : Option (Nat × Str) :=
  let r1 := s.takeWhile jsIsSpace
  if r1.isEmpty then none
  else
    let s2 := s.drop r1.length
    match ws.find? (fun w =>
        ciIsPrefix w s2 && !((s2.drop w.length).takeWhile jsIsSpace).isEmpty) with
    | some w =>
      let r2 := (s2.drop w.length).takeWhile jsIsSpace
      some (r1.length + w.length + r2.length, s2.take w.length)
    | none => none

theorem conjSepAt_pos {ws : List Str} {s : Str} {L : Nat} {w : Str}
    (h : conjSepAt ws s = some (L, w)) : 0 < L := by
  simp only [conjSepAt] at h
  split at h
  · cases h
  · rename_i hr1
    split at h
    · cases h
      have hne : s.takeWhile jsIsSpace ≠ [] := by
        simpa [List.isEmpty_iff] using hr1
      have := List.length_pos.mpr hne
      omega
    · cases h

/-- Splitting on a conjunction separator with a capture group: the result
interleaves the pieces (even positions) with the captured separators (odd
positions), as `String.prototype.split` does for a regex with a group. -/
def splitConjF (ws : List Str) : Nat → Str → Str → List Str
  | 0, acc, s => [acc ++ s]
  | _ + 1, acc, [] => [acc]
  | fuel + 1, acc, c :: t =>
    (conjSepAt ws (c :: t)).elim (splitConjF ws fuel (acc ++ [c]) t)
      (fun Lw => acc :: Lw.2 :: splitConjF ws fuel [] ((c :: t).drop Lw.1))

/-- Interleaved capture-group split of `s` on `/\s+(w1|w2|…)\s+/i`. -/
def splitConj (ws : List Str) (s : Str) : List Str := splitConjF ws s.length [] s

/-- Elements at even positions: the pieces of a capture-group split, which
is what `split` returns when the regex has no capture group. -/
def evens : List α → List α
  | [] => []
  | [x] => [x]
  | x :: _ :: t => x :: evens t

/- ===== output smoothing (version 1 only) ===== -/

/-- Punctuation class `[.,!?;:]` of `smoothOutput`. -/
def isPunctCls (c : Char) : Bool :=
  c.toNat == 46 || c.toNat == 44 || c.toNat == 33 || c.toNat == 63 ||
  c.toNat == 59 || c.toNat == 58

/-- Rule `replace(/\s+([.,!?;:])/g, '$1')`: a whitespace run directly
before a punctuation character is deleted. -/
def smooth1F : Nat → Str → Str
  | 0, s => s
  | _ + 1, [] => []
  | fuel + 1, c :: t =>
    if jsIsSpace c then
      match t.drop ((t.takeWhile jsIsSpace).length) with
      | p :: r2 =>
        if isPunctCls p then p :: smooth1F fuel r2
        else (c :: t.takeWhile jsIsSpace) ++ smooth1F fuel (p :: r2)
      | [] => c :: t.takeWhile jsIsSpace
    else c :: smooth1F fuel t

/-- Fuel-supplying wrapper for the first smoothing rule. -/
def smooth1 (s : Str) : Str := smooth1F s.length s

/-- Rule `replace(/([.,!?;:])([^\s])/g, '$1 $2')`: a space is inserted
between a punctuation character and a following non-whitespace character;
both characters are consumed by the match. -/
def smooth2 (s : Str) : Str :=
  match s with
  | [] => []
  | [c] => [c]
  | c :: d :: t =>
    if isPunctCls c && !jsIsSpace d then c :: ' ' :: d :: smooth2 t
    else c :: smooth2 (d :: t)

/-- Rule `replace(/\n{3,}/g, '\n\n')`: a run of three or more newlines is
collapsed to two. -/
def smooth3F : Nat → Str → Str
  | 0, s => s
  | _ + 1, [] => []
  | fuel + 1, c :: t =>
    if c = '\n' then
      (if 3 ≤ (t.takeWhile (fun x => x = '\n')).length + 1 then ['\n', '\n']
      else c :: t.takeWhile (fun x => x = '\n')) ++
        smooth3F fuel (t.drop ((t.takeWhile (fun x => x = '\n')).length))
    else c :: smooth3F fuel t

/-- Fuel-supplying wrapper for the newline-collapsing rule. -/
def smooth3 (s : Str) : Str := smooth3F s.length s

/-- Character class `[ \t]` of the horizontal-whitespace rule. -/
def isHorizWS (c : Char) : Bool := c.toNat == 32 || c.toNat == 9

/-- Rule `replace(/[ \t]{2,}/g, ' ')`: a run of two or more spaces or tabs
is collapsed to one space. -/
def smooth4F : Nat → Str → Str
  | 0, s => s
  | _ + 1, [] => []
  | fuel + 1, c :: t =>
    if isHorizWS c then
      (if 1 ≤ (t.takeWhile isHorizWS).length then [' ']
      else [c]) ++ smooth4F fuel (t.drop ((t.takeWhile isHorizWS).length))
    else c :: smooth4F fuel t

/-- Fuel-supplying wrapper for the horizontal-whitespace rule. -/
def smooth4 (s : Str) : Str := smooth4F s.length s

/-- Function `smoothOutput(text)` of version 1: the four global rewrites
followed by `trim()`. -/
def smoothOutput (s : Str) : Str :=
  trimJS (smooth4 (smooth3 (smooth2 (smooth1 s))))

/- ===== language detection ===== -/

/-- Effective language after resolution: every unknown tag degrades to
English. -/
inductive EffLang where
  | en
  | nl
deriving DecidableEq

/-- Function `detectLanguage(text)`: marker counts over the lower-cased
first 800 characters; ties go to Dutch. -/
def detectLanguage (text : Str) : EffLang :=
  let sample := lowerStr (text.take 800)
  let nlW : List Str := [" de ".data, " het ".data, " en ".data, "van ".data,
    "niet ".data, "zijn ".data, "een ".data, "dat ".data, "heb".data, "door ".data]
  let enW : List Str := [" the ".data, " and ".data, " of ".data, " to ".data,
    " not ".data, " is ".data, " are ".data, " that ".data, " have ".data]
  let scoreNL := (nlW.filter (fun w => containsSub w sample)).length
  let scoreEN := (enW.filter (fun w => containsSub w sample)).length
  if scoreEN ≤ scoreNL then .nl else .en

/- ===== configuration ===== -/

/-- Tones recognised by the configuration. -/
inductive Tone where
  | formal
  | casual
  | friendly
deriving DecidableEq

/-- Variability levels; anything other than `high` and `medium` maps to the
low base probability. -/
inductive Vari where
  | low
  | medium
  | high
deriving DecidableEq

/-- Language option: `auto`, a recognised tag, or an unrecognised tag
(which falls back to English). -/
inductive LangOpt where
  | auto
  | en
  | nl
  | other
deriving DecidableEq

/-- Resolution of the configured language:
`opts.lang === 'auto' ? detectLanguage(text) : (['en','nl'].includes(opts.lang) ? opts.lang : 'en')`. -/
def effLang (lang : LangOpt) (text : Str) : EffLang :=
  match lang with
  | .auto => detectLanguage text
  | .en => .en
  | .nl => .nl
  | .other => .en

/-- Model of the JavaScript `(strength || 1)` guard: a zero strength is
replaced by 1 (`0` is falsy). -/
def strengthOr1 (q : ℚ) : ℚ := if q.num = 0 then mkRat 1 1 else q

/-- Base probability from the variability knob
(`high → 0.9, medium → 0.6, otherwise 0.3`). -/
def baseProb : Vari → ℚ
  | .high => mkRat 9 10
  | .medium => mkRat 6 10
  | .low => mkRat 3 10

/- ===== HTML escaping and end-punctuation replacement ===== -/

/-- Global replacement of the single character `c` by `rep`. -/
def replChar (c : Char) (rep : Str) : Str → Str
  | [] => []
  | x :: t => (if x = c then rep else [x]) ++ replChar c rep t

/-- Function `escapeHtml(s)`: the three sequential global replacements of
`&`, `<` and `>`. -/
def escapeHtml (s : Str) : Str :=
  replChar '>' "&gt;".data (replChar '<' "&lt;".data (replChar '&' "&amp;".data s))

/-- Result of `s.replace(/([.!?])?$/, rep)` for a replacement string
without `$1`: the first successful match is the final terminal-punctuation
character when there is one (which is then replaced), and otherwise the
empty match at the end of the string. -/
def replaceEndPunct (s : Str) (rep : Str) : Str :=
  if endsTerm s then s.dropLast ++ rep else s ++ rep

/-- Stateless word-boundary replacement: `replaceWB` with a pure
replacement function. -/
def replaceWBs (keys : List Str) (f : Str → Str) (s : Str) : Str :=
  (replaceWB keys (fun m (u : Unit) => (f m, u)) false s ()).1

/- ===== passive-to-active pattern matching ===== -/

/-- Length of the maximal leading whitespace run (`\s+`, greedy). -/
def wsRunLen (s : Str) : Nat := (s.takeWhile jsIsSpace).length

/-- Tail matcher for `\s+BY\s+(.+)$`: maximal whitespace before the
letter-initial word `BY`, then whitespace that greedily gives back one
character when the final group would otherwise be empty. -/
def tailByMatch (byW : Str) (u : Str) : Option Str :=
  let w3 := wsRunLen u
  if w3 = 0 then none
  else
    let u2 := u.drop w3
    if ciIsPrefix byW u2 then
      let u3 := u2.drop byW.length
      let w4 := wsRunLen u3
      if w4 = 0 then none
      else
        let g3 := u3.drop w4
        if g3.isEmpty then
          if 2 ≤ w4 then some (u3.drop (w4 - 1)) else none
        else some g3
    else none

/-- Lazy group before the tail: `(.+?)\s+BY\s+(.+)$` over `rest`,
shortest split first. -/
def lazyG2By (byW : Str) (rest : Str) : Option (Str × Str) :=
  (List.range' 1 rest.length).findSome? (fun j =>
    match tailByMatch byW (rest.drop j) with
    | some g3 => some (rest.take j, g3)
    | none => none)

/-- Whitespace between the auxiliary and the lazy group: `\s+` is greedy
and backtracks, so runs are tried from longest to shortest. -/
def auxTailLazy (byW : Str) (t4 : Str) : Option (Str × Str) :=
  let wmax := wsRunLen t4
  if wmax = 0 then none
  else
    ((List.range wmax).map (fun k => wmax - k)).findSome? (fun w2 =>
      lazyG2By byW (t4.drop w2))

/-- Continuation after the auxiliary: for the `being` pattern first
`\s+MID` (maximal whitespace before the letter-initial literal), then the
lazy group and the tail. -/
def auxTailMatch (mid : Option Str) (byW : Str) (t3 : Str) :
    Option (Str × Str) :=
  match mid with
  | some w =>
    let wm := wsRunLen t3
    if wm = 0 then none
    else
      let t3x := t3.drop wm
      if ciIsPrefix w t3x then auxTailLazy byW (t3x.drop w.length) else none
  | none => auxTailLazy byW t3

/-- Backtracking matcher for
`^(.+?)\s+(?:AUX…)[\s+MID]\s+(.+?)\s+BY\s+(.+)$` (case-insensitive), in
the engine's preference order: shortest first group, then the auxiliary
alternatives in source order.  Returns the first group, the auxiliary's
matched text, the middle group and the final group. -/
def matchPassive (auxs : List Str) (mid : Option Str) (byW : Str)
    (core : Str) : Option (Str × Str × Str × Str) :=
  (List.range' 1 core.length).findSome? (fun i =>
    let t1 := core.drop i
    let w1 := wsRunLen t1
    if w1 = 0 then none
    else
      let t2 := t1.drop w1
      auxs.findSome? (fun aux =>
        if ciIsPrefix aux t2 then
          match auxTailMatch mid byW (t2.drop aux.length) with
          | some g23 => some (core.take i, t2.take aux.length, g23.1, g23.2)
          | none => none
        else none))

/-- English auxiliaries of the first passive pattern, in alternation
order. -/
def enAux1 : List Str := ["was".data, "were".data, "is".data, "are".data,
  "has been".data, "have been".data, "had been".data]

/-- Dutch auxiliaries of the first passive pattern. -/
def nlAux1 : List Str := ["werd".data, "werden".data, "is".data,
  "zijn".data, "wordt".data, "worden".data, "was".data, "waren".data]

/-- Test of `/\w+ed$/i`: at least one word character followed by a final
`ed`. -/
def edTest (vb : Str) : Bool :=
  match vb.reverse with
  | d :: e :: w :: _ => ciCharEq d 'd' && ciCharEq e 'e' && isWordChar w
  | _ => false

/-- Case-insensitive suffix test (`/ing$/i`). -/
def ciEndsWith (pat s : Str) : Bool := ciIsPrefix pat.reverse s.reverse

/-- Progressive-form heuristic of the second English pattern: the last
space-separated word of the verb phrase with `ed` replaced by `ing` when it
ends that way, else the phrase with `ing` appended unless already
present. -/
def verbIngOf (verb : Str) : Str :=
  let verbBase := (splitOnChar ' ' verb).getLastD []
  if edTest verbBase then verbBase.dropLast.dropLast ++ "ing".data
  else if ciEndsWith "ing".data verb then verb
  else verb ++ "ing".data

/-- Function `passiveToActive_en(sent)`, identical in both revisions. -/
def passiveToActiveEn (sent : Str) : Str :=
  let trimmed := trimJS sent
  let trail := trailTermRun trimmed
  let core := trimJS (dropTrailTerm trimmed)
  match matchPassive enAux1 none "by".data core with
  | some (g1, _, g2, g3) =>
    capitalize (trimJS g3) ++ [' '] ++ trimJS g2 ++ [' '] ++ trimJS g1 ++ trail
  | none =>
    match matchPassive ["is".data, "are".data, "was".data, "were".data]
        (some "being".data) "by".data core with
    | some (g1, aux, g2, g3) =>
      capitalize (trimJS g3) ++ [' '] ++ lowerStr aux ++ [' '] ++
        verbIngOf (trimJS g2) ++ [' '] ++ trimJS g1 ++ trail
    | none => sent

/-- Function `passiveToActive_nl(sent)` of version 1: the general pattern
and the `wordt … door` pattern. -/
def passiveToActiveNlV1 (sent : Str) : Str :=
  let trimmed := trimJS sent
  let trail := trailTermRun trimmed
  let core := trimJS (dropTrailTerm trimmed)
  match matchPassive nlAux1 none "door".data core with
  | some (g1, _, g2, g3) =>
    capitalize (trimJS g3) ++ [' '] ++ trimJS g2 ++ [' '] ++ trimJS g1 ++ trail
  | none =>
    match matchPassive ["wordt".data] none "door".data core with
    | some (g1, _, g2, g3) =>
      capitalize (trimJS g3) ++ [' '] ++ trimJS g2 ++ [' '] ++ trimJS g1 ++ trail
    | none => sent

/-- Function `passiveToActive_nl(sent)` of version 2: the general pattern
only. -/
def passiveToActiveNlV2 (sent : Str) : Str :=
  let trimmed := trimJS sent
  let trail := trailTermRun trimmed
  let core := trimJS (dropTrailTerm trimmed)
  match matchPassive nlAux1 none "door".data core with
  | some (g1, _, g2, g3) =>
    capitalize (trimJS g3) ++ [' '] ++ trimJS g2 ++ [' '] ++ trimJS g1 ++ trail
  | none => sent

/- ===== contractions ===== -/

/-- Contraction table of version 1 per language. -/
def contrTableV1 : EffLang → List (Str × Str)
  | .en => enContr
  | .nl => nlContrV1

/-- Contraction table of version 2 per language. -/
def contrTableV2 : EffLang → List (Str × Str)
  | .en => enContr
  | .nl => nlContrV2

/-- Function `applyContractions` of version 1: entries where key and value
coincide are skipped, the rest are replaced with case preservation. -/
def applyContractionsV1 (s : Str) (lang : EffLang) (enabled : Bool) : Str :=
  if !enabled then s
  else
    (contrTableV1 lang).foldl (fun acc kv =>
      if kv.1 = kv.2 then acc
      else replaceWBs [kv.1] (fun m => preserveCase m kv.2) acc) s

/-- Function `applyContractions` of version 2: no identity skip. -/
def applyContractionsV2 (s : Str) (lang : EffLang) (enabled : Bool) : Str :=
  if !enabled then s
  else
    (contrTableV2 lang).foldl (fun acc kv =>
      replaceWBs [kv.1] (fun m => preserveCase m kv.2) acc) s

/- ===== synonym replacement ===== -/

/-- Callback of the synonym replacement: one draw gates the substitution
(`rnd() > prob` skips), the counter is incremented, `choose` with
preference 0.6 picks among the options, and the matched casing is
preserved.  The threaded state is (substitution count, generator state). -/
def synCb (prob : ℚ) (opts : List Str) (m : Str) (cs : Nat × Nat) :
    Str × (Nat × Nat) :=
  let r := rndQ cs.2
  let st1 := nextState cs.2
  if prob < r then (m, (cs.1, st1))
  else
    let pick := chooseJS opts (mkRat 6 10) st1
    (preserveCase m pick.1, (cs.1 + 1, pick.2))

/-- Key loop of `replaceSynonyms`: before each key the substitution count
is compared with the cap and the loop breaks once the cap is reached;
inside a key's pass every match is a candidate. -/
def synLoop (prob : ℚ) (cap : Nat) (table : List (Str × List Str)) :
    List Str → Str → Nat → Nat → Str × Nat × Nat
  | [], s, cnt, st => (s, cnt, st)
  | k :: ks, s, cnt, st =>
    if cap ≤ cnt then (s, cnt, st)
    else
      let opts := (table.lookup k).getD []
      let r := replaceWB [k] (synCb prob opts) false s (cnt, st)
      synLoop prob cap table ks r.1 r.2.1 r.2.2

/-- Function `replaceSynonyms` shared by both revisions up to the synonym
table and the placeholder tag: probability `baseProb(variability) ×
strength`, URL/e-mail protection, longest-key-first scan capped at
`max(1, floor(2 × prob))`, and placeholder restoration.  Returns the
rewritten string, the final substitution count and the generator state. -/
def replaceSynonymsCore (tag : Str) (table : List (Str × List Str))
    (variability : Vari) (strength : ℚ) (s : Str) (st : Nat) :
    Str × Nat × Nat :=
  let prob := qmul (baseProb variability) strength
  let pr := protectScan tag s []
  let keys := sortByLenDesc (table.map (fun kv => kv.1))
  let cap := max 1 (qmul (mkRat 2 1) prob).floor.toNat
  let r := synLoop prob cap table keys pr.1 0 st
  (restoreScan tag pr.2 r.1, r.2.1, r.2.2)

/-- Synonym table of version 1 per language. -/
def synTableV1 : EffLang → List (Str × List Str)
  | .en => enSynV1
  | .nl => nlSynV1

/-- Synonym table of version 2 per language. -/
def synTableV2 : EffLang → List (Str × List Str)
  | .en => enSynV2
  | .nl => nlSynV2

/-- Function `replaceSynonyms` of version 1 (placeholder tag
`PLACEHOLDER`). -/
def replaceSynonymsV1 (lang : EffLang) (v : Vari) (strength : ℚ) (s : Str)
    (st : Nat) : Str × Nat :=
  let r := replaceSynonymsCore "PLACEHOLDER".data (synTableV1 lang) v strength s st
  (r.1, r.2.2)

/-- Function `replaceSynonyms` of version 2 (placeholder tag `PH`). -/
def replaceSynonymsV2 (lang : EffLang) (v : Vari) (strength : ℚ) (s : Str)
    (st : Nat) : Str × Nat :=
  let r := replaceSynonymsCore "PH".data (synTableV2 lang) v strength s st
  (r.1, r.2.2)

/- ===== sentence shortening ===== -/

/-- Conjunction word lists of `shortenSentence` per language. -/
def conjWords : EffLang → List Str
  | .en => ["and".data, "but".data, "so".data]
  | .nl => ["en".data, "maar".data, "dus".data, "omdat".data]

/-- `join(' ')`. -/
def joinSp : List Str → Str
  | [] => []
  | [l] => l
  | l :: ls => l ++ ' ' :: joinSp ls

/-- Function `shortenSentence(sent, lang)`, identical in both revisions:
semicolon split, comma split, conjunction split, hard cut at 100
characters. -/
def shortenSentence (sent : Str) (lang : EffLang) : Str :=
  let s := trimJS sent
  if s.length < 120 then sent
  else if s.contains ';' then
    let parts := ((splitOnChar ';' s).map trimJS).filter (fun p => !p.isEmpty)
    joinSp ((parts.take 2).map (fun p => capitalize p ++ ['.']))
  else if s.contains ',' then
    let parts := ((splitOnChar ',' s).map trimJS).filter (fun p => !p.isEmpty)
    joinSp ((parts.take 2).map (fun p => capitalize p ++ ['.']))
  else
    let parts := splitConj (conjWords lang) s
    if 1 < parts.length then
      capitalize (trimJS parts.headI) ++ ". ".data ++
        capitalize (trimJS (joinSp (parts.drop 2))) ++ ['.']
    else trimJS (s.take 100) ++ "...".data

/- ===== the rewrite pipelines ===== -/

/-- Passive-conversion base probability from the variability knob
(`high → 0.6, medium → 0.35, otherwise 0.15`). -/
def passiveBase : Vari → ℚ
  | .high => mkRat 6 10
  | .medium => mkRat 35 100
  | .low => mkRat 15 100

/-- Configuration of version 1 after `Object.assign` with the defaults. -/
structure OptsV1 where
  tone : Tone
  variability : Vari
  contractions : Bool
  shorten : Bool
  strength : ℚ
  lang : LangOpt

/-- Version 1 defaults: casual tone, medium variability, contractions and
shortening on, strength 1, automatic language. -/
def defaultsV1 : OptsV1 :=
  ⟨Tone.casual, Vari.medium, true, true, mkRat 1 1, LangOpt.auto⟩

/-- Configuration of version 2 after `Object.assign` with the defaults. -/
structure OptsV2 where
  tone : Tone
  variability : Vari
  contractions : Bool
  shorten : Bool
  strength : ℚ
  lang : LangOpt
  aiMode : Bool
  rewrite : Bool

/-- Version 2 defaults: formal tone, medium variability, contractions and
shortening on, strength 1, automatic language, aiMode off, rewrite on. -/
def defaultsV2 : OptsV2 :=
  ⟨Tone.formal, Vari.medium, true, true, mkRat 1 1, LangOpt.auto, false, true⟩

/-- Stateful map threading the generator through a list. -/
def mapState (f : α → σ → β × σ) : List α → σ → List β × σ
  | [], st => ([], st)
  | x :: xs, st =>
    let r := f x st
    let rest := mapState f xs r.2
    (r.1 :: rest.1, rest.2)

/-- Passive-to-active statement of version 1: one gate draw; the
conversion result is kept only when non-empty and different from the
input. -/
def pasStageV1 (o : OptsV1) (lang : EffLang) (p : Str × Nat) : Str × Nat :=
  (if rndQ p.2 < qmul (passiveBase o.variability) (strengthOr1 o.strength) then
    let conv := match lang with
      | .nl => passiveToActiveNlV1 p.1
      | .en => passiveToActiveEn p.1
    if conv ≠ [] ∧ conv ≠ p.1 then conv else p.1
  else p.1, nextState p.2)

/-- Synonym statement of version 1. -/
def synStageV1 (o : OptsV1) (lang : EffLang) (p : Str × Nat) : Str × Nat :=
  replaceSynonymsV1 lang o.variability o.strength p.1 p.2

/-- Contraction statement of version 1: the enabled flag is
`opts.contractions && opts.tone !== 'formal'`. -/
def contrStageV1 (o : OptsV1) (lang : EffLang) (p : Str × Nat) : Str × Nat :=
  (applyContractionsV1 p.1 lang
    (o.contractions && decide (o.tone ≠ Tone.formal)), p.2)

/-- Shortening statement shared by both revisions up to the probability:
the draw happens only when the flag is set and the sentence exceeds 120
characters. -/
def shortStage (flag : Bool) (prob : ℚ) (lang : EffLang) (p : Str × Nat) :
    Str × Nat :=
  if flag && decide (120 < p.1.length) then
    (if rndQ p.2 < prob then shortenSentence p.1 lang else p.1, nextState p.2)
  else p

/-- Friendly-tone statement of version 1: one gate draw under friendly
tone, then a second draw choosing between the two tails of the active
language. -/
def friendlyStageV1 (o : OptsV1) (lang : EffLang) (p : Str × Nat) :
    Str × Nat :=
  if o.tone = Tone.friendly then
    let r := rndQ p.2
    let stA := nextState p.2
    if r < qmul (mkRat 12 100) (strengthOr1 o.strength) then
      (match lang with
        | .en =>
          if rndQ stA < mkRat 5 10 then replaceEndPunct p.1 " (just FYI).".data
          else replaceEndPunct p.1 ", just saying.".data
        | .nl =>
          if rndQ stA < mkRat 5 10 then replaceEndPunct p.1 " (ter info).".data
          else replaceEndPunct p.1 ", even ter info.".data, nextState stA)
    else (p.1, stA)
  else p

/-- Formal-tone statement of version 1: the fixed reverse pass expanding
`I'm` and `you're`. -/
def formalStageV1 (o : OptsV1) (p : Str × Nat) : Str × Nat :=
  (if o.tone = Tone.formal then
    replaceWBs ["you're".data] (fun _ => "you are".data)
      (replaceWBs ["I'm".data] (fun _ => "I am".data) p.1)
  else p.1, p.2)

/-- Final statement of both pipelines: append a period unless the sentence
already ends in terminal punctuation. -/
def ensureTermStage (p : Str × Nat) : Str × Nat :=
  (if endsTerm p.1 then p.1 else p.1 ++ ['.'], p.2)

/-- Per-sentence transformation of version 1 (the body of the `sents.map`
callback in `humanise`): trim and capitalize, probability-gated
passive-to-active (kept only when non-empty and different), synonyms,
contractions (disabled under formal tone), probability-gated shortening,
friendly-tone tail, formal-tone contraction expansion, and the final
terminal-punctuation guarantee. -/
def processSentenceV1 (opts : OptsV1) (lang : EffLang) (sent : Str)
    (st : Nat) : Str × Nat :=
  ensureTermStage (formalStageV1 opts (friendlyStageV1 opts lang
    (shortStage opts.shorten (qmul (mkRat 95 100) (strengthOr1 opts.strength))
      lang (contrStageV1 opts lang (synStageV1 opts lang
        (pasStageV1 opts lang (capitalize (trimJS sent), st)))))))

/-- Literal separator used to rebuild the conjunction split in the
aggressive rewrite. -/
def sepLit : EffLang → Str
  | .en => " and ".data
  | .nl => " en ".data

/-- Per-line processing shared by both pipelines: decompose into leading
whitespace, trimmed core and trailing whitespace; blank cores are emitted
as `leading + '' + trailing`; otherwise the processed sentences are joined
with single spaces between the preserved whitespace. -/
def humaniseLine (proc : Str → Nat → Str × Nat) (line : Str) (st : Nat) :
    Str × Nat :=
  let leading := leadingWS line
  let trailing := trailingWS line
  let core := trimJS line
  if core.isEmpty then (leading ++ trailing, st)
  else
    let pr := mapState proc (splitSentences core) st
    (leading ++ joinSp pr.1 ++ trailing, pr.2)

/-- Entry point `humanise(text, options)` of version 1 (src/humaniser.js):
empty input returns the empty string; otherwise per-line processing
followed by `smoothOutput` over the rejoined lines. -/
def humaniseV1 (st : Nat) (text : Str) (opts : OptsV1) : Str × Nat :=
  if text.isEmpty then ([], st)
  else
    let lang := effLang opts.lang text
    let r := mapState (humaniseLine (processSentenceV1 opts lang)) (splitLinesJS text) st
    (smoothOutput (joinLines r.1), r.2)

/-- First statement of the aggressive rewrite: probability-gated passive
conversion, assigned unconditionally. -/
def aiPasStage (lang : EffLang) (strength : ℚ) (p : Str × Nat) : Str × Nat :=
  (if rndQ p.2 < qmul (mkRat 75 100) strength then
    match lang with
    | .nl => passiveToActiveNlV2 p.1
    | .en => passiveToActiveEn p.1
  else p.1, nextState p.2)

/-- Second statement of the aggressive rewrite: synonyms at high
variability. -/
def aiSynStage (lang : EffLang) (strength : ℚ) (p : Str × Nat) : Str × Nat :=
  replaceSynonymsV2 lang Vari.high strength p.1 p.2

/-- Third statement of the aggressive rewrite: clause reorder on a comma
(first clause shorter than 80) or on the language's `and` conjunction; the
inner draw happens only when the respective split applies. -/
def aiReorderStage (lang : EffLang) (strength : ℚ) (p : Str × Nat) :
    Str × Nat :=
  let st3 := nextState p.2
  if rndQ p.2 < qmul (mkRat 4 10) strength then
    let commaParts := splitOnChar ',' p.1
    if 2 ≤ commaParts.length ∧ commaParts.headI.length < 80 then
      (if rndQ st3 < mkRat 5 10 then
        capitalize (trimJS (List.intercalate [','] commaParts.tail)) ++
          ", ".data ++ trimJS commaParts.headI
      else p.1, nextState st3)
    else
      let aw : List Str := match lang with
        | .en => ["and".data]
        | .nl => ["en".data]
      let andParts := evens (splitConj aw p.1)
      if 1 < andParts.length then
        (if rndQ st3 < mkRat 5 10 then
          capitalize (trimJS (List.intercalate (sepLit lang) (andParts.drop 1))) ++
            ". ".data ++ capitalize (trimJS andParts.headI) ++ ['.']
        else p.1, nextState st3)
      else (p.1, st3)
  else (p.1, st3)

/-- Fourth statement of the aggressive rewrite: shorten long sentences,
else expand short ones with a clarifying tail. -/
def aiSizeStage (lang : EffLang) (strength : ℚ) (p : Str × Nat) : Str × Nat :=
  if 120 < p.1.length then
    (if rndQ p.2 < qmul (mkRat 9 10) strength then shortenSentence p.1 lang
    else p.1, nextState p.2)
  else if p.1.length < 80 then
    (if rndQ p.2 < qmul (mkRat 2 10) strength then
      replaceEndPunct p.1 (match lang with
        | .en => ", which helps clarify the matter.".data
        | .nl => ", wat dit verduidelijkt.".data)
    else p.1, nextState p.2)
  else p

/-- Fifth statement of the aggressive rewrite: tone tweaks under strength
above 0.6. -/
def aiToneStage (lang : EffLang) (strength : ℚ) (p : Str × Nat) : Str × Nat :=
  if mkRat 6 10 < strength then
    let st6 := nextState p.2
    if rndQ p.2 < mkRat 3 10 then
      match lang with
      | .en =>
        (if rndQ st6 < mkRat 5 10 then
          replaceWBs ["it is".data, "this is".data] (fun _ => "it’s".data) p.1
        else p.1, nextState st6)
      | .nl =>
        (if rndQ st6 < mkRat 2 10 then
          replaceWBs ["het is".data, "dit is".data] (fun _ => "het is".data) p.1
        else p.1, nextState st6)
    else (p.1, st6)
  else p

/-- Final statement of the aggressive rewrite: trim and terminal
punctuation. -/
def aiFinalStage (p : Str × Nat) : Str × Nat :=
  (if endsTerm (trimJS p.1) then trimJS p.1 else trimJS p.1 ++ ['.'], p.2)

/-- Function `aiRewriteSentence(sent, lang, strength)` of version 2. -/
def aiRewriteSentenceV2 (lang : EffLang) (strength : ℚ) (sent : Str)
    (st : Nat) : Str × Nat :=
  aiFinalStage (aiToneStage lang strength (aiSizeStage lang strength
    (aiReorderStage lang strength (aiSynStage lang strength
      (aiPasStage lang strength (trimJS sent, st))))))

/-- Passive-to-active statement of version 2's light path: the result is
assigned unconditionally on a successful draw. -/
def pasStageV2 (o : OptsV2) (lang : EffLang) (p : Str × Nat) : Str × Nat :=
  (if rndQ p.2 < qmul (passiveBase o.variability) (strengthOr1 o.strength) then
    match lang with
    | .nl => passiveToActiveNlV2 p.1
    | .en => passiveToActiveEn p.1
  else p.1, nextState p.2)

/-- Synonym statement of version 2's light path. -/
def synStageV2 (o : OptsV2) (lang : EffLang) (p : Str × Nat) : Str × Nat :=
  replaceSynonymsV2 lang o.variability o.strength p.1 p.2

/-- Contraction statement of version 2's light path: gated only on the
flag and the language being English, never on the tone. -/
def contrStageV2 (o : OptsV2) (lang : EffLang) (p : Str × Nat) : Str × Nat :=
  (if o.contractions && decide (lang = EffLang.en) then
    applyContractionsV2 p.1 lang true
  else p.1, p.2)

/-- Friendly-tone statement of version 2's light path: a single tail per
language. -/
def friendlyStageV2 (o : OptsV2) (lang : EffLang) (p : Str × Nat) :
    Str × Nat :=
  if o.tone = Tone.friendly then
    (if rndQ p.2 < qmul (mkRat 12 100) (strengthOr1 o.strength) then
      match lang with
      | .en => replaceEndPunct p.1 ", just saying.".data
      | .nl => replaceEndPunct p.1 ", ter info.".data
    else p.1, nextState p.2)
  else p

/-- Per-sentence transformation of version 2: the aggressive path under
`aiMode && rewrite`, otherwise the light path, and in both cases the outer
terminal-punctuation guarantee. -/
def processSentenceV2 (opts : OptsV2) (lang : EffLang) (sent : Str)
    (st : Nat) : Str × Nat :=
  ensureTermStage (
    if opts.aiMode && opts.rewrite then
      aiRewriteSentenceV2 lang opts.strength (capitalize (trimJS sent)) st
    else
      friendlyStageV2 opts lang (shortStage opts.shorten
        (qmul (mkRat 9 10) (strengthOr1 opts.strength)) lang
        (contrStageV2 opts lang (synStageV2 opts lang
          (pasStageV2 opts lang (capitalize (trimJS sent), st))))))

/-- Entry point `humanise(text, options)` of version 2 (part_000): empty
input returns the empty string; otherwise per-line processing and a plain
rejoin of the lines (no smoothing pass). -/
def humaniseV2 (st : Nat) (text : Str) (opts : OptsV2) : Str × Nat :=
  if text.isEmpty then ([], st)
  else
    let lang := effLang opts.lang text
    let r := mapState (humaniseLine (processSentenceV2 opts lang)) (splitLinesJS text) st
    (joinLines r.1, r.2)

/- ===== the diff engine (version 2 only) ===== -/

/-- ASCII letters and digits (`A-Za-z0-9`). -/
def isAsciiAlnum (c : Char) : Bool :=
  (97 ≤ c.toNat && c.toNat ≤ 122) || (65 ≤ c.toNat && c.toNat ≤ 90) ||
  (48 ≤ c.toNat && c.toNat ≤ 57)

/-- Word-token class `[A-Za-zÀ-ÖØ-öø-ÿ0-9]` of `tokenizeForDiff`. -/
def isTokWord (c : Char) : Bool :=
  isAsciiAlnum c || (0xc0 ≤ c.toNat && c.toNat ≤ 0xd6) ||
  (0xd8 ≤ c.toNat && c.toNat ≤ 0xf6) || (0xf8 ≤ c.toNat && c.toNat ≤ 0xff)

/-- Punctuation-token class `[^\sA-Za-z0-9]` of `tokenizeForDiff` (note:
accented letters fall in both classes; the alternation prefers the word
branch). -/
def isTokPunct (c : Char) : Bool := !jsIsSpace c && !isAsciiAlnum c

/-- Function `tokenizeForDiff(s)`: matches of
`/[A-Za-zÀ-ÖØ-öø-ÿ0-9]+(?:'[A-Za-z0-9]+)?|[^\sA-Za-z0-9]+/g`. -/
def tokenizeF : Nat → Str → List Str
  | 0, _ => []
  | _ + 1, [] => []
  | fuel + 1, c :: t =>
    if isTokWord c then
      match t.drop ((t.takeWhile isTokWord).length) with
      | '\'' :: r2 =>
        let run2 := r2.takeWhile isAsciiAlnum
        if run2.isEmpty then
          (c :: t.takeWhile isTokWord) :: tokenizeF fuel ('\'' :: r2)
        else ((c :: t.takeWhile isTokWord) ++ '\'' :: run2) ::
          tokenizeF fuel (r2.drop run2.length)
      | rest2 => (c :: t.takeWhile isTokWord) :: tokenizeF fuel rest2
    else if isTokPunct c then
      (c :: t.takeWhile isTokPunct) :: tokenizeF fuel (t.drop ((t.takeWhile isTokPunct).length))
    else tokenizeF fuel t

/-- Fuel-supplying wrapper for the tokenizer. -/
def tokenizeForDiff (s : Str) : List Str := tokenizeF s.length s

/-- Dynamic-programming table of the LCS: `dp[i][j]`, with value 0 outside
the filled region, as in the source's zero-initialised array. -/
def lcsDpF (a b : List Str) : Nat → Nat → Nat → Nat
  | 0, _, _ => 0
  | fuel + 1, i, j =>
    if hi : i < a.length then
      if hj : j < b.length then
        if ciStrEq (a.get ⟨i, hi⟩) (b.get ⟨j, hj⟩) then
          lcsDpF a b fuel (i + 1) (j + 1) + 1
        else max (lcsDpF a b fuel (i + 1) j) (lcsDpF a b fuel i (j + 1))
      else 0
    else 0

/-- Fuel-supplying wrapper for the table: `a.length + b.length` recursion
steps always suffice. -/
def lcsDp (a b : List Str) (i j : Nat) : Nat :=
  lcsDpF a b (a.length + b.length) i j

/-- One operation of the edit script. -/
inductive EditOp where
  | mat (a b : Nat) (tok : Str)
  | del (a : Nat) (tok : Str)
  | ins (b : Nat) (tok : Str)
deriving DecidableEq

/-- Reconstruction walk of `lcs(a, b)` from position `(i, j)`: a match on
case-insensitive equality (the token taken from `a`), otherwise a deletion
when `dp[i+1][j] ≥ dp[i][j+1]`, else an insertion; the tails are drained
with deletions then insertions. -/
def lcsWalkF (a b : List Str) : Nat → Nat → Nat → List EditOp
  | 0, _, _ => []
  | fuel + 1, i, j =>
    if hi : i < a.length then
      if hj : j < b.length then
        if ciStrEq (a.get ⟨i, hi⟩) (b.get ⟨j, hj⟩) then
          EditOp.mat i j (a.get ⟨i, hi⟩) :: lcsWalkF a b fuel (i + 1) (j + 1)
        else if lcsDp a b i (j + 1) ≤ lcsDp a b (i + 1) j then
          EditOp.del i (a.get ⟨i, hi⟩) :: lcsWalkF a b fuel (i + 1) j
        else EditOp.ins j (b.get ⟨j, hj⟩) :: lcsWalkF a b fuel i (j + 1)
      else EditOp.del i (a.get ⟨i, hi⟩) :: lcsWalkF a b fuel (i + 1) j
    else if hj : j < b.length then
      EditOp.ins j (b.get ⟨j, hj⟩) :: lcsWalkF a b fuel i (j + 1)
    else []

/-- Fuel-supplying wrapper for the reconstruction walk. -/
def lcsWalk (a b : List Str) (i j : Nat) : List EditOp :=
  lcsWalkF a b (a.length + b.length) i j

/-- Function `lcs(a, b)`: the edit script from `(0, 0)`. -/
def lcsJS (a b : List Str) : List EditOp := lcsWalk a b 0 0

/-- Token carried by an edit operation. -/
def opTok : EditOp → Str
  | .mat _ _ t => t
  | .del _ t => t
  | .ins _ t => t

/-- Rendered form of one edit operation: matches escaped verbatim,
deletions and insertions wrapped in marker spans. -/
def opHtml : EditOp → Str
  | .mat _ _ t => escapeHtml t
  | .del _ t => "<span class=\"diff-del\">".data ++ escapeHtml t ++ "</span>".data
  | .ins _ t => "<span class=\"diff-ins\">".data ++ escapeHtml t ++ "</span>".data

/-- Test of `/^[^\w]+$/`: non-empty and free of word characters. -/
def isPurePunct (s : Str) : Bool :=
  !s.isEmpty && s.all (fun c => !isWordChar c)

/-- Join of the rendered operations: a single space before every part
except the first and those whose raw token is pure punctuation. -/
def joinOps (first : Bool) : List EditOp → Str
  | [] => []
  | op :: t =>
    (if !first && !isPurePunct (opTok op) then [' '] else []) ++
      opHtml op ++ joinOps false t

/-- Function `diffLineHtml(origLine, newLine)`. -/
def diffLineHtml (orig new : Str) : Str :=
  let a := tokenizeForDiff orig
  let b := tokenizeForDiff new
  if a.isEmpty && b.isEmpty then []
  else joinOps true (lcsJS a b)

/-- Function `diffHighlight(origText, newText)`: per-line comparison over
`max` line counts, the shorter side padded with empty lines; lines equal
after trimming are emitted as escaped text, the rest as token diffs. -/
def diffHighlight (orig new : Str) : Str :=
  let ol := splitLinesJS orig
  let nl := splitLinesJS new
  let mx := max ol.length nl.length
  joinLines ((List.range mx).map (fun i =>
    let a := ol.getD i []
    let b := nl.getD i []
    if trimJS a = trimJS b then escapeHtml b else diffLineHtml a b))

/- ===== helper lemmas about the scanners ===== -/

/-- Whether the word-boundary scan over `s` (entered with previous-wordness
`prevW`) finds any match of `keys`. -/
def hasWBMatch (keys : List Str) : Bool → Str → Bool
  | _, [] => false
  | prevW, c :: t =>
    (findWBKey keys prevW (c :: t)).isSome || hasWBMatch keys (isWordChar c) t

theorem replaceWBF_no_match {σ : Type} (keys : List Str)
    (cb : Str → σ → Str × σ) (fuel : Nat) (prevW : Bool) (s : Str) (st : σ)
    (h : hasWBMatch keys prevW s = false) :
    replaceWBF keys cb fuel prevW s st = (s, st) := by
  induction fuel generalizing prevW s st with
  | zero => rfl
  | succ n ih =>
    cases s with
    | nil => rfl
    | cons c t =>
      simp only [hasWBMatch, Bool.or_eq_false_iff] at h
      obtain ⟨h1, h2⟩ := h
      cases hfk : findWBKey keys prevW (c :: t) with
      | some k => rw [hfk] at h1; simp at h1
      | none =>
        simp only [replaceWBF, hfk]
        rw [ih (isWordChar c) t st h2]

theorem replaceWB_no_match {σ : Type} (keys : List Str)
    (cb : Str → σ → Str × σ) (s : Str) (st : σ)
    (h : hasWBMatch keys false s = false) :
    replaceWB keys cb false s st = (s, st) :=
  replaceWBF_no_match keys cb s.length false s st h

theorem synLoop_fixed (prob : ℚ) (cap : Nat) (table : List (Str × List Str))
    (keys : List Str) (s : Str) (cnt st : Nat)
    (h : ∀ k ∈ keys, hasWBMatch [k] false s = false) :
    synLoop prob cap table keys s cnt st = (s, cnt, st) := by
  induction keys with
  | nil => rfl
  | cons k ks ih =>
    simp only [synLoop]
    split
    · rfl
    · rw [replaceWB_no_match _ _ _ _ (h k (List.mem_cons_self k ks))]
      exact ih (fun k2 hk2 => h k2 (List.mem_cons_of_mem k hk2))

/-- Guarantee step at the end of both sentence pipelines. -/
theorem endsTerm_ensure (s : Str) :
    endsTerm (if endsTerm s then s else s ++ ['.']) = true := by
  by_cases h : endsTerm s
  · simp [h]
  · simp only [h, if_false, Bool.false_eq_true]
    simp [endsTerm, List.getLast?_concat, isTermPunct]

/- ===== C9: empty input ===== -/

/-- C9: on the empty input both revisions of `humanise` return the empty
string (with the generator untouched); in the embedding every operation is
total, matching the no-throw contract. -/
theorem c9_empty_input (st : Nat) (o1 : OptsV1) (o2 : OptsV2) :
    humaniseV1 st [] o1 = ([], st) ∧ humaniseV2 st [] o2 = ([], st) :=
  ⟨rfl, rfl⟩

/- ===== C2: determinism under seeding ===== -/

/-- C2: `seed(value)` overwrites the module state ignoring whatever was
there, so two invocations of `humanise` that each start from
`seed(value)` — whatever the prior generator states were — produce
byte-identical outputs (and equal final states): the run is a pure
function of seed value, input and configuration. -/
theorem c2_seed_determinism (p1 p2 : Nat) (v : Int) (t1 t2 : Str)
    (o1 : OptsV1) (o2 : OptsV2) :
    humaniseV1 (seedFn p1 v) t1 o1 = humaniseV1 (seedFn p2 v) t1 o1 ∧
    humaniseV2 (seedFn p1 v) t2 o2 = humaniseV2 (seedFn p2 v) t2 o2 :=
  ⟨rfl, rfl⟩

/- ===== C8: sentence termination ===== -/

/-- C8: every rewritten sentence produced by the per-sentence transform of
either revision ends in `.`, `!` or `?` — the final pipeline step appends a
period whenever the sentence does not already end in terminal punctuation.
Every non-blank output line of `humanise` is the join of exactly these
transformed sentences between the preserved whitespace. -/
theorem c8_sentence_termination (o1 : OptsV1) (o2 : OptsV2) (lang : EffLang)
    (sent : Str) (st : Nat) :
    endsTerm (processSentenceV1 o1 lang sent st).1 = true ∧
    endsTerm (processSentenceV2 o2 lang sent st).1 = true := by
  constructor
  · simp only [processSentenceV1]
    exact endsTerm_ensure _
  · simp only [processSentenceV2]
    exact endsTerm_ensure _

/- ===== C10: shared generator state across calls ===== -/

set_option maxRecDepth 40000 in
/-- C10: the generator state is threaded through `humanise` and advanced by
its draws, and `seed` is the only way to reset it; two consecutive calls
with identical arguments and no re-seeding can return different strings.
From state 1234571, `humanise('We utilize it', {lang:'en',
variability:'high'})` returns "We use it." and leaves the state changed;
the immediately following identical call returns "We make use of it.". -/
theorem c10_consecutive_calls_differ :
    (humaniseV1 1234571 "We utilize it".data
      { defaultsV1 with lang := LangOpt.en, variability := Vari.high }).1 =
      "We use it.".data ∧
    (humaniseV1 (humaniseV1 1234571 "We utilize it".data
        { defaultsV1 with lang := LangOpt.en, variability := Vari.high }).2
      "We utilize it".data
      { defaultsV1 with lang := LangOpt.en, variability := Vari.high }).1 =
      "We make use of it.".data ∧
    (humaniseV1 1234571 "We utilize it".data
      { defaultsV1 with lang := LangOpt.en, variability := Vari.high }).2 ≠
      1234571 := by
  refine ⟨by decide, by decide, by decide⟩

/- ===== C7: contraction gating ===== -/

/-- C7 (counterexample): in the part_000 revision the contraction pass is
gated only on the `contractions` flag and the language being English, not
on the tone: under the default configuration — whose tone is `formal` —
the input "We are not going." comes back contracted to "We aren't going.",
and no reverse expansion pass exists in that revision. -/
theorem c7_formal_contraction_cex :
    defaultsV2.tone = Tone.formal ∧
    (humaniseV2 1234567 "We are not going.".data defaultsV2).1 =
      "We aren't going.".data := by
  refine ⟨rfl, by decide⟩

/-- C7 (amended): in src/humaniser.js the claim holds: the enabled flag
passed to `applyContractions` is `opts.contractions && opts.tone !==
'formal'`, and with it false the function returns its input unchanged, so
contraction application runs only when contractions are enabled and the
tone is not formal; under formal tone the fixed reverse pass expands `I'm`
and `you're` back to their full forms, as the run on "I'm here" shows for
every generator state and configuration.  The part_000 revision instead
applies contractions whenever the flag is set and the language is English,
with no reverse pass. -/
theorem c7_v1_contraction_gating (o : OptsV1) (lang : EffLang) (s : Str)
    (st : Nat) (hof : o.tone = Tone.formal ∨ o.contractions = false) :
    applyContractionsV1 s lang
      (o.contractions && decide (o.tone ≠ Tone.formal)) = s ∧
    (o.tone = Tone.formal →
      (processSentenceV1 o EffLang.en "I'm here".data st).1 =
        "I am here.".data) := by
  have hflag : (o.contractions && decide (o.tone ≠ Tone.formal)) = false := by
    rcases hof with h | h
    · simp [h]
    · simp [h]
  constructor
  · rw [hflag]
    rfl
  · intro hf
    have hs0 : capitalize (trimJS "I'm here".data) = "I'm here".data := by decide
    have hconv : passiveToActiveEn "I'm here".data = "I'm here".data := by decide
    have hsyn : ∀ (v : Vari) (q : ℚ) (s2 : Nat),
        replaceSynonymsV1 EffLang.en v q "I'm here".data s2 =
          ("I'm here".data, s2) := by
      intro v q s2
      have hprot : protectScan "PLACEHOLDER".data "I'm here".data [] =
          ("I'm here".data, ([] : List Str)) := by decide
      simp only [replaceSynonymsV1, replaceSynonymsCore, synTableV1, hprot]
      rw [synLoop_fixed _ _ _ _ _ _ _ (by decide)]
      have hrest : restoreScan "PLACEHOLDER".data [] "I'm here".data =
          "I'm here".data := by decide
      rw [hrest]
    have hcontr : applyContractionsV1 "I'm here".data EffLang.en
        (o.contractions && decide (o.tone ≠ Tone.formal)) = "I'm here".data := by
      rw [hflag]; rfl
    have hform : replaceWBs ["you're".data] (fun _ => "you are".data)
        (replaceWBs ["I'm".data] (fun _ => "I am".data) "I'm here".data) =
        "I am here".data := by decide
    have h120 : decide (120 < ("I'm here".data : Str).length) = false := by rfl
    simp only [processSentenceV1, hs0]
    rw [show pasStageV1 o EffLang.en ("I'm here".data, st) =
        ("I'm here".data, nextState st) from by simp [pasStageV1, hconv]]
    rw [show synStageV1 o EffLang.en ("I'm here".data, nextState st) =
        ("I'm here".data, nextState st) from by simp [synStageV1, hsyn]]
    rw [show contrStageV1 o EffLang.en ("I'm here".data, nextState st) =
        ("I'm here".data, nextState st) from by
      simp only [contrStageV1]
      rw [show (o.contractions && decide (o.tone ≠ Tone.formal)) = false from hflag]
      rfl]
    rw [show shortStage o.shorten (qmul (mkRat 95 100) (strengthOr1 o.strength))
        EffLang.en ("I'm here".data, nextState st) =
        ("I'm here".data, nextState st) from by
      simp [shortStage, h120]]
    rw [show friendlyStageV1 o EffLang.en ("I'm here".data, nextState st) =
        ("I'm here".data, nextState st) from by simp [friendlyStageV1, hf]]
    rw [show formalStageV1 o ("I'm here".data, nextState st) =
        ("I am here".data, nextState st) from by simp [formalStageV1, hf, hform]]
    rfl

/- ===== C5: the substitution cap ===== -/

/-- Number of word-boundary matches the scan finds (fuelled form aligned
with `replaceWBF`). -/
def wbMatchCountF (keys : List Str) : Nat → Bool → Str → Nat
  | 0, _, _ => 0
  | _ + 1, _, [] => 0
  | fuel + 1, prevW, c :: t =>
    match findWBKey keys prevW (c :: t) with
    | some k =>
      1 + wbMatchCountF keys fuel (lastWordness ((c :: t).take k.length))
        ((c :: t).drop k.length)
    | none => wbMatchCountF keys fuel (isWordChar c) t

/-- Number of word-boundary matches of `keys` in `s`. -/
def wbMatchCount (keys : List Str) (prevW : Bool) (s : Str) : Nat :=
  wbMatchCountF keys s.length prevW s

theorem synCb_count_le (prob : ℚ) (opts : List Str) (m : Str)
    (cs : Nat × Nat) : (synCb prob opts m cs).2.1 ≤ cs.1 + 1 := by
  simp only [synCb]
  split
  · exact Nat.le_succ cs.1
  · exact Nat.le_refl _

theorem replaceWBF_count_le (prob : ℚ) (opts : List Str) (keys : List Str)
    (fuel : Nat) (prevW : Bool) (s : Str) (cnt st : Nat) :
    (replaceWBF keys (synCb prob opts) fuel prevW s (cnt, st)).2.1 ≤
      cnt + wbMatchCountF keys fuel prevW s := by
  induction fuel generalizing prevW s cnt st with
  | zero => simp [replaceWBF, wbMatchCountF]
  | succ n ih =>
    cases s with
    | nil => simp [replaceWBF, wbMatchCountF]
    | cons c t =>
      simp only [replaceWBF, wbMatchCountF]
      cases hfk : findWBKey keys prevW (c :: t) with
      | some k =>
        simp only
        have hcb := synCb_count_le prob opts ((c :: t).take k.length) (cnt, st)
        rcases hp : synCb prob opts ((c :: t).take k.length) (cnt, st) with ⟨r1, c1, st1⟩
        rw [hp] at hcb
        have hrec := ih (lastWordness ((c :: t).take k.length))
          ((c :: t).drop k.length) c1 st1
        simp only at hcb hrec ⊢
        omega
      | none =>
        simp only
        exact ih (isWordChar c) t cnt st

/-- C5 (counterexample): with English, high variability and strength 1 the
probability is 0.9 and the cap `max(1, floor(2 × 0.9))` is 1; on the
sentence "utilize utilize", entered with generator state 1234567, both
matches of the single key `utilize` substitute, so `replacedCount` ends at
2, exceeding the cap. -/
theorem c5_cap_exceeded_cex :
    max 1 (qmul (mkRat 2 1)
      (qmul (baseProb Vari.high) (mkRat 1 1))).floor.toNat = 1 ∧
    (replaceSynonymsCore "PLACEHOLDER".data enSynV1 Vari.high (mkRat 1 1)
      "utilize utilize".data 1234567).2.1 = 2 := by
  refine ⟨by decide, by decide⟩

/-- C5 (amended): the second half of the claim holds — entering the key
loop with the count at or above the cap scans no further keys and performs
no further substitutions — and each single key's pass adds at most its
number of word-boundary matches in the current string to the count.  The
cap therefore bounds the number of key passes that substitute, but not the
per-sentence substitution total, which a single key with several matches
can push past the cap. -/
theorem c5_cap_amended (prob : ℚ) (cap : Nat) (table : List (Str × List Str))
    (keys : List Str) (k : Str) (opts : List Str) (s : Str) (cnt st : Nat) :
    (cap ≤ cnt → synLoop prob cap table keys s cnt st = (s, cnt, st)) ∧
    (replaceWB [k] (synCb prob opts) false s (cnt, st)).2.1 ≤
      cnt + wbMatchCount [k] false s := by
  constructor
  · intro h
    cases keys with
    | nil => rfl
    | cons k2 ks => simp [synLoop, h]
  · exact replaceWBF_count_le prob opts [k] s.length false s cnt st

set_option maxHeartbeats 1000000 in
/-- C5 (witness): the amended theorem evaluated at the counterexample's
data: entering the loop with the count already at the cap changes nothing,
and the pass bound holds on "utilize utilize". -/
theorem c5_cap_amended_witness :
    synLoop (mkRat 9 10) 1 enSynV1
      (sortByLenDesc (enSynV1.map (fun kv => kv.1))) "utilize utilize".data
      1 1234567 = ("utilize utilize".data, 1, 1234567) ∧
    (replaceWB ["utilize".data]
      (synCb (mkRat 9 10) ["use".data, "make use of".data]) false
      "utilize utilize".data (0, 1234567)).2.1 ≤
      0 + wbMatchCount ["utilize".data] false "utilize utilize".data := by
  exact ⟨(c5_cap_amended (mkRat 9 10) 1 enSynV1
      (sortByLenDesc (enSynV1.map (fun kv => kv.1))) "utilize".data
      ["use".data, "make use of".data] "utilize utilize".data 1 1234567).1
      (by decide),
    (c5_cap_amended (mkRat 9 10) 1 enSynV1 [] "utilize".data
      ["use".data, "make use of".data] "utilize utilize".data 0 1234567).2⟩

/- ===== C4: identity diff ===== -/

/-- Per-character form of `escapeHtml`: the three sequential global
replacements act independently on each character because no replacement
text contains a character replaced by a later pass. -/
def escCh (c : Char) : Str :=
  if c = '&' then "&amp;".data
  else if c = '<' then "&lt;".data
  else if c = '>' then "&gt;".data
  else [c]

theorem replChar_append (c : Char) (rep a b : Str) :
    replChar c rep (a ++ b) = replChar c rep a ++ replChar c rep b := by
  induction a with
  | nil => rfl
  | cons x t ih => simp [replChar, ih]

theorem escapeHtml_cons (c : Char) (t : Str) :
    escapeHtml (c :: t) = escCh c ++ escapeHtml t := by
  by_cases h1 : c = '&'
  · subst h1
    simp [escapeHtml, replChar, replChar_append, escCh]
  · by_cases h2 : c = '<'
    · subst h2
      simp [escapeHtml, replChar, replChar_append, escCh]
    · by_cases h3 : c = '>'
      · subst h3
        simp [escapeHtml, replChar, replChar_append, escCh]
      · simp [escapeHtml, replChar, replChar_append, escCh, h1, h2, h3]

theorem escapeHtml_no_lt (s : Str) : '<' ∉ escapeHtml s := by
  induction s with
  | nil => simp [escapeHtml, replChar]
  | cons c t ih =>
    rw [escapeHtml_cons]
    intro hmem
    rcases List.mem_append.mp hmem with h | h
    · by_cases h1 : c = '&'
      · subst h1; simp [escCh] at h
      · by_cases h2 : c = '<'
        · subst h2; simp [escCh] at h
        · by_cases h3 : c = '>'
          · subst h3; simp [escCh] at h
          · simp [escCh, h1, h2, h3] at h
            exact h2 h.symm
    · exact ih h

theorem joinLines_no_lt (ls : List Str) (h : ∀ l ∈ ls, '<' ∉ l) :
    '<' ∉ joinLines ls := by
  induction ls with
  | nil => simp [joinLines]
  | cons l ls ih =>
    cases ls with
    | nil => exact h l (by simp)
    | cons l2 ls2 =>
      rw [show joinLines (l :: l2 :: ls2) = l ++ '\n' :: joinLines (l2 :: ls2) from rfl]
      intro hmem
      rcases List.mem_append.mp hmem with hx | hx
      · exact h l (by simp) hx
      · rcases List.mem_cons.mp hx with hx | hx
        · cases hx
        · exact ih (fun x hmx => h x (List.mem_cons_of_mem l hmx)) hx

theorem splitLinesJS_ne_nil (s : Str) : splitLinesJS s ≠ [] := by
  induction s using splitLinesJS.induct with
  | case1 => simp [splitLinesJS]
  | case2 t ih => simp [splitLinesJS]
  | case3 t h ih => simp [splitLinesJS]
  | case4 c t h hn hnil ih => simp [splitLinesJS, hn, hnil]
  | case5 c t h hn l ls heq ih => simp [splitLinesJS, hn, heq]

theorem splitLines_cons_other (c : Char) (t : Str) (l : Str) (ls : List Str)
    (hr : ∀ t2, c = '\r' → t = '\n' :: t2 → False) (hn : c ≠ '\n')
    (heq : splitLinesJS t = l :: ls) :
    splitLinesJS (c :: t) = (c :: l) :: ls := by
  rw [splitLinesJS.eq_def]
  split
  · rename_i t2 hx
    exact (List.cons_ne_nil _ _ hx).elim
  · rename_i t2 hx
    injection hx with h1 h2
    exact (hr t2 h1 h2).elim
  · rename_i x c2 t2 hrx hx
    injection hx with h1 h2
    subst h1
    subst h2
    rw [if_neg hn, heq]

theorem splitLines_cons_nl (t : Str) :
    splitLinesJS ('\n' :: t) = [] :: splitLinesJS t := rfl

theorem range_getD_map {α β : Type} (L : List α) (f : α → β) (d : α) :
    (List.range L.length).map (fun i => f (L.getD i d)) = L.map f := by
  induction L with
  | nil => simp
  | cons c t ih =>
    rw [List.length_cons, List.range_succ_eq_map, List.map_cons, List.map_map,
      List.getD_cons_zero]
    have h2 : List.map ((fun i => f ((c :: t).getD i d)) ∘ Nat.succ)
        (List.range t.length) =
        List.map (fun i => f (t.getD i d)) (List.range t.length) := by
      apply List.map_congr_left
      intro i _
      simp [Function.comp, List.getD_cons_succ]
    rw [List.map_cons, h2, ih]

theorem joinLines_cons_append (a b : Str) (rest : List Str) :
    joinLines ((a ++ b) :: rest) = a ++ joinLines (b :: rest) := by
  cases rest with
  | nil => rfl
  | cons x xs =>
    rw [show joinLines ((a ++ b) :: x :: xs) = (a ++ b) ++ '\n' :: joinLines (x :: xs) from rfl,
      show joinLines (b :: x :: xs) = b ++ '\n' :: joinLines (x :: xs) from rfl,
      List.append_assoc]

theorem diffHighlight_self (text : Str) :
    diffHighlight text text = joinLines ((splitLinesJS text).map escapeHtml) := by
  unfold diffHighlight
  simp only [Nat.max_self]
  congr 1
  rw [← range_getD_map (splitLinesJS text) escapeHtml []]
  apply List.map_congr_left
  intro i _
  simp

theorem joinLines_map_escape (text : Str) (h : '\r' ∉ text) :
    joinLines ((splitLinesJS text).map escapeHtml) = escapeHtml text := by
  induction text using splitLinesJS.induct with
  | case1 => rfl
  | case2 t ih => exact absurd (List.mem_cons_self _ _) h
  | case3 t hr ih =>
    have h2 : '\r' ∉ t := fun hx => h (List.mem_cons_of_mem _ hx)
    rw [splitLines_cons_nl]
    obtain ⟨l, ls, heq⟩ : ∃ l ls, splitLinesJS t = l :: ls := by
      cases hsp : splitLinesJS t with
      | nil => exact absurd hsp (splitLinesJS_ne_nil t)
      | cons a b => exact ⟨a, b, rfl⟩
    rw [heq, List.map_cons, List.map_cons,
      show joinLines (escapeHtml [] :: escapeHtml l :: ls.map escapeHtml) =
        escapeHtml [] ++ '\n' :: joinLines (escapeHtml l :: ls.map escapeHtml) from rfl,
      show escapeHtml ([] : Str) = [] from rfl,
      show escapeHtml ('\n' :: t) = escCh '\n' ++ escapeHtml t from escapeHtml_cons _ _,
      show escCh '\n' = ['\n'] from rfl]
    rw [← List.map_cons escapeHtml l ls, ← heq, ih h2]
    rfl
  | case4 c t hr hn hnil ih => exact absurd hnil (splitLinesJS_ne_nil t)
  | case5 c t hr hn l ls heq ih =>
    have h2 : '\r' ∉ t := fun hx => h (List.mem_cons_of_mem _ hx)
    rw [splitLines_cons_other c t l ls hr hn heq, List.map_cons,
      show escapeHtml (c :: l) = escCh c ++ escapeHtml l from escapeHtml_cons _ _,
      joinLines_cons_append, ← List.map_cons escapeHtml l ls, ← heq, ih h2,
      escapeHtml_cons]

/-- C4: the identity diff `diffHighlight(text, text)` contains no `<` at
all — in particular no insertion or deletion marker span — and for inputs
without a carriage return it is byte-identical to escaping the text
directly.  (A `\r\n` input only has its line breaks re-emitted as `\n`,
leaving the visible tokens those of the escaped text.) -/
theorem c4_identity_diff (text : Str) :
    '<' ∉ diffHighlight text text ∧
    ('\r' ∉ text → diffHighlight text text = escapeHtml text) := by
  constructor
  · rw [diffHighlight_self]
    apply joinLines_no_lt
    intro l hl
    obtain ⟨x, _, rfl⟩ := List.mem_map.mp hl
    exact escapeHtml_no_lt x
  · intro h
    rw [diffHighlight_self, joinLines_map_escape text h]

/-- C4 (witness): the identity diff on a concrete two-line text containing
characters that need escaping. -/
theorem c4_identity_diff_witness :
    '<' ∉ diffHighlight "a<b & c\nd".data "a<b & c\nd".data ∧
    diffHighlight "a<b & c\nd".data "a<b & c\nd".data =
      escapeHtml "a<b & c\nd".data := by
  refine ⟨(c4_identity_diff "a<b & c\nd".data).1,
    (c4_identity_diff "a<b & c\nd".data).2 (by decide)⟩

/-- C7 (witness for the amended theorem): with the formal tone the
contraction stage leaves a concrete sentence unchanged, and "I'm here"
comes out expanded to "I am here." from a concrete generator state. -/
theorem c7_v1_contraction_gating_witness :
    applyContractionsV1 "We are not going.".data EffLang.en
      (({ defaultsV1 with tone := Tone.formal } : OptsV1).contractions &&
        decide (({ defaultsV1 with tone := Tone.formal } : OptsV1).tone ≠ Tone.formal)) =
      "We are not going.".data ∧
    (processSentenceV1 { defaultsV1 with tone := Tone.formal } EffLang.en
      "I'm here".data 1234567).1 = "I am here.".data := by
  have h := c7_v1_contraction_gating ({ defaultsV1 with tone := Tone.formal })
    EffLang.en "We are not going.".data 1234567 (Or.inl rfl)
  exact ⟨h.1, h.2 rfl⟩

/- ===== C3: alignment replay ===== -/

/-- Token contributed by an operation to the replay of sequence A
(matches and deletions). -/
def opASide : EditOp → Option Str
  | .mat _ _ t => some t
  | .del _ t => some t
  | .ins _ _ => none

/-- Token contributed by an operation to the replay of sequence B
(matches and insertions). -/
def opBSide : EditOp → Option Str
  | .mat _ _ t => some t
  | .ins _ t => some t
  | .del _ _ => none

theorem lcsWalkF_replay (a b : List Str) (fuel i j : Nat)
    (hf : a.length - i + (b.length - j) ≤ fuel) :
    (lcsWalkF a b fuel i j).filterMap opASide = a.drop i ∧
    ((lcsWalkF a b fuel i j).filterMap opBSide).map lowerStr =
      (b.drop j).map lowerStr := by
  induction fuel generalizing i j with
  | zero =>
    have h1 : a.length ≤ i := by omega
    have h2 : b.length ≤ j := by omega
    simp [lcsWalkF, List.drop_eq_nil_of_le, h1, h2]
  | succ n ih =>
    simp only [lcsWalkF]
    by_cases hi : i < a.length
    · by_cases hj : j < b.length
      · simp only [hi, hj, dif_pos]
        by_cases hm : ciStrEq (a.get ⟨i, hi⟩) (b.get ⟨j, hj⟩) = true
        · rw [if_pos hm]
          have hrec := ih (i + 1) (j + 1) (by omega)
          constructor
          · simp only [List.filterMap_cons, opASide, hrec.1]
            rw [List.drop_eq_getElem_cons hi]
            rfl
          · simp only [List.filterMap_cons, opBSide, List.map_cons, hrec.2]
            rw [List.drop_eq_getElem_cons hj]
            have hlow : lowerStr (a.get ⟨i, hi⟩) = lowerStr (b.get ⟨j, hj⟩) := by
              have := of_decide_eq_true (by simpa [ciStrEq] using hm)
              simpa [ciStrEq] using hm
            rw [List.map_cons]
            congr 1
        · rw [if_neg hm]
          by_cases hd : lcsDp a b i (j + 1) ≤ lcsDp a b (i + 1) j
          · rw [if_pos hd]
            have hrec := ih (i + 1) j (by omega)
            refine ⟨?_, ?_⟩
            · simp only [List.filterMap_cons, opASide, hrec.1]
              rw [List.drop_eq_getElem_cons hi]
              rfl
            · simp only [List.filterMap_cons, opBSide, hrec.2]
          · rw [if_neg hd]
            have hrec := ih i (j + 1) (by omega)
            refine ⟨?_, ?_⟩
            · simp only [List.filterMap_cons, opASide, hrec.1]
            · simp only [List.filterMap_cons, opBSide, List.map_cons, hrec.2]
              rw [List.drop_eq_getElem_cons hj]
              rfl
      · rw [dif_pos hi, dif_neg hj]
        have hrec := ih (i + 1) j (by omega)
        refine ⟨?_, ?_⟩
        · simp only [List.filterMap_cons, opASide, hrec.1]
          rw [List.drop_eq_getElem_cons hi]
          rfl
        · simp only [List.filterMap_cons, opBSide, hrec.2]
    · by_cases hj : j < b.length
      · rw [dif_neg hi, dif_pos hj]
        have hrec := ih i (j + 1) (by omega)
        refine ⟨?_, ?_⟩
        · simp only [List.filterMap_cons, opASide, hrec.1]
        · simp only [List.filterMap_cons, opBSide, List.map_cons, hrec.2]
          rw [List.drop_eq_getElem_cons hj]
          rfl
      · have h1 : a.length ≤ i := by omega
        have h2 : b.length ≤ j := by omega
        rw [dif_neg hi, dif_neg hj]
        simp [List.drop_eq_nil_of_le, h1, h2]

/-- C3 (counterexample): the match operations carry the token of sequence
A, so the matches-plus-insertions replay is not byte-identical to B when a
match pairs tokens of different case: for A = ["A"], B = ["a"] the replay
yields ["A"], not ["a"]. -/
theorem c3_replayB_cex :
    (lcsJS [['A']] [['a']]).filterMap opBSide = [['A']] ∧
    (lcsJS [['A']] [['a']]).filterMap opBSide ≠ [['a']] := by decide

/-- C3 (amended): for every pair of token sequences, the match and delete
tokens of the edit script produced by `lcs`, in script order, are exactly
sequence A; the match and insert tokens, in script order, are sequence B
up to the case-insensitive token equality used for matching (byte-exact
whenever every matched pair is case-identical, as deletions and insertions
carry the original tokens and matches carry A's token). -/
theorem c3_lcs_replay (a b : List Str) :
    (lcsJS a b).filterMap opASide = a ∧
    ((lcsJS a b).filterMap opBSide).map lowerStr = b.map lowerStr := by
  have h := lcsWalkF_replay a b (a.length + b.length) 0 0 (by omega)
  simpa using h

/-- C6 (counterexample): `choose` does not always consume exactly one draw.
Entered with state 3564389094 the first draw is 0.666546, which is not below
the default probability 0.6, so the body draws a second time: the state after
the call is advanced twice, not once. -/
theorem c6_choose_cex :
    (chooseJS [['a'], ['b']] (mkRat 6 10) 3564389094).2 =
      nextState (nextState 3564389094) ∧
    nextState (nextState 3564389094) ≠ nextState 3564389094 := by decide

/-- C6 (amended): `choose` on an empty option list returns the empty string
consuming no draw; on a non-empty list it consumes one draw and returns
`options[0]` when that draw is below the probability argument, and otherwise
consumes a second draw and returns the element at index
`Math.floor(rnd() * options.length)` of the second draw. -/
theorem c6_choose_amended (arr : List Str) (prob : ℚ) (st : Nat) :
    (arr = [] → chooseJS arr prob st = ([], st)) ∧
    (arr ≠ [] → rndQ st < prob → chooseJS arr prob st = (arr.headI, nextState st)) ∧
    (arr ≠ [] → ¬ rndQ st < prob → chooseJS arr prob st =
      (arr.getD ((qmul (rndQ (nextState st)) (natQ arr.length)).floor.toNat) [],
        nextState (nextState st))) := by
  refine ⟨?_, ?_, ?_⟩
  · intro h; subst h; simp [chooseJS]
  · intro h hlt
    simp only [chooseJS, List.isEmpty_iff, h, if_false, hlt, if_true, if_pos]
  · intro h hge
    simp only [chooseJS, List.isEmpty_iff, h, if_false, hge, if_pos]

/-- C6 (witness for the amended theorem): the three branches evaluated at
concrete inputs; from state 1234567 the first draw is 0.034982 < 0.6, from
state 3564389094 it is 0.666546 ≥ 0.6. -/
theorem c6_choose_amended_witness :
    chooseJS [] (mkRat 6 10) 5 = ([], 5) ∧
    chooseJS [['a'], ['b']] (mkRat 6 10) 1234567 = (['a'], nextState 1234567) ∧
    chooseJS [['a'], ['b']] (mkRat 6 10) 3564389094 =
      (['b'], nextState (nextState 3564389094)) := by
  refine ⟨(c6_choose_amended [] (mkRat 6 10) 5).1 rfl,
    (c6_choose_amended [['a'], ['b']] (mkRat 6 10) 1234567).2.1
      (by decide) (by decide), ?_⟩
  have h := (c6_choose_amended [['a'], ['b']] (mkRat 6 10) 3564389094).2.2
    (by decide) (by decide)
  rw [h]
  decide

/- ===== C1 infrastructure: whitespace-layout invariants ===== -/

/-- The first character, when there is one, is not whitespace. -/
def goodHeadB (s : Str) : Bool :=
  match s.head? with
  | some c => !jsIsSpace c
  | none => true

/-- A sound replacement string: non-empty, non-whitespace first character
and no embedded newline. -/
def goodReplB (s : Str) : Bool :=
  !s.isEmpty && goodHeadB s && !s.contains '\n'

theorem toNat_ofNat_lt (n : Nat) (h : n < 55296) : (Char.ofNat n).toNat = n := by
  have hv : n.isValidChar := Or.inl h
  rw [Char.ofNat, dif_pos hv]
  rfl

theorem jsIsSpace_upperChar (c : Char) (h : jsIsSpace c = false) :
    jsIsSpace (upperChar c) = false := by
  rw [upperChar]
  split
  · rename_i hc
    rw [jsIsSpace, toNat_ofNat_lt _ (by omega)]
    rw [jsIsSpace] at h
    simp only [Bool.or_eq_false_iff, beq_eq_false_iff_ne, ne_eq,
      Bool.and_eq_false_iff, decide_eq_false_iff_not, not_le] at h ⊢
    omega
  · split
    · rename_i hc
      rw [jsIsSpace, toNat_ofNat_lt _ (by omega)]
      rw [jsIsSpace] at h
      simp only [Bool.or_eq_false_iff, beq_eq_false_iff_ne, ne_eq,
        Bool.and_eq_false_iff, decide_eq_false_iff_not, not_le] at h ⊢
      omega
    · exact h

theorem upperChar_eq_nl (c : Char) (h : upperChar c = '\n') : c = '\n' := by
  rw [upperChar] at h
  split at h
  · rename_i hc
    have := congrArg Char.toNat h
    rw [toNat_ofNat_lt _ (by omega), show Char.toNat '\n' = 10 from rfl] at this
    omega
  · split at h
    · rename_i hc
      have := congrArg Char.toNat h
      rw [toNat_ofNat_lt _ (by omega), show Char.toNat '\n' = 10 from rfl] at this
      omega
    · exact h

theorem lowerChar_eq_nl (c : Char) (h : lowerChar c = '\n') : c = '\n' := by
  rw [lowerChar] at h
  split at h
  · rename_i hc
    have := congrArg Char.toNat h
    rw [toNat_ofNat_lt _ (by omega), show Char.toNat '\n' = 10 from rfl] at this
    omega
  · split at h
    · rename_i hc
      have := congrArg Char.toNat h
      rw [toNat_ofNat_lt _ (by omega), show Char.toNat '\n' = 10 from rfl] at this
      omega
    · exact h

theorem isTermPunct_not_ws (c : Char) (h : isTermPunct c = true) :
    jsIsSpace c = false := by
  rw [isTermPunct] at h
  rw [jsIsSpace]
  simp only [Bool.or_eq_true, beq_iff_eq] at h
  simp only [Bool.or_eq_false_iff, beq_eq_false_iff_ne, ne_eq,
    Bool.and_eq_false_iff, decide_eq_false_iff_not, not_le]
  omega

theorem nl_is_ws : jsIsSpace '\n' = true := by decide

/- head / last structure lemmas -/

theorem head?_dropWhile {p : Char → Bool} {s : Str} {c : Char}
    (h : (s.dropWhile p).head? = some c) : p c = false := by
  induction s with
  | nil => simp [List.dropWhile] at h
  | cons x t ih =>
    rw [List.dropWhile_cons] at h
    split at h
    · exact ih h
    · rename_i hx
      rw [List.head?_cons, Option.some.injEq] at h
      subst h
      exact Bool.of_not_eq_true hx

theorem head?_of_prefix {x w : Str} {c : Char} (hp : x <+: w)
    (h : x.head? = some c) : w.head? = some c := by
  obtain ⟨t, rfl⟩ := hp
  cases x with
  | nil => simp at h
  | cons a b => simpa using h

theorem trimJS_pref (s : Str) : trimJS s <+: s.dropWhile jsIsSpace := by
  rw [trimJS]
  have h1 : ((s.dropWhile jsIsSpace).reverse.dropWhile jsIsSpace) <:+
      (s.dropWhile jsIsSpace).reverse := List.dropWhile_suffix _
  have h2 := h1.reverse
  rwa [List.reverse_reverse] at h2

theorem goodHead_trimJS (s : Str) : goodHeadB (trimJS s) = true := by
  rw [goodHeadB]
  split
  · rename_i c hc
    have h2 := head?_of_prefix (trimJS_pref s) hc
    rw [head?_dropWhile h2]
    rfl
  · rfl

theorem goodLast_trimJS (s : Str) (c : Char)
    (h : (trimJS s).getLast? = some c) : jsIsSpace c = false := by
  rw [trimJS, List.getLast?_reverse] at h
  exact head?_dropWhile h

theorem mem_trimJS {s : Str} {c : Char} (h : c ∈ trimJS s) : c ∈ s := by
  rw [trimJS, List.mem_reverse] at h
  have h2 := (List.dropWhile_sublist (l := (s.dropWhile jsIsSpace).reverse)
    (p := jsIsSpace)).subset h
  rw [List.mem_reverse] at h2
  exact (List.dropWhile_sublist _).subset h2

theorem trimJS_ne_nil {s : Str} {c : Char} (hc : c ∈ s)
    (hws : jsIsSpace c = false) : trimJS s ≠ [] := by
  intro he
  rw [trimJS, List.reverse_eq_nil_iff] at he
  have h1 := List.dropWhile_eq_nil_iff.mp he
  have h2 : ∀ x ∈ s.dropWhile jsIsSpace, jsIsSpace x = true := by
    intro x hx
    have := h1 x (by rwa [List.mem_reverse])
    exact this
  rcases List.mem_append.mp
    ((List.takeWhile_append_dropWhile (p := jsIsSpace) (l := s)) ▸ hc) with h | h
  · rw [List.mem_takeWhile_imp h] at hws
    cases hws
  · rw [h2 c h] at hws
    cases hws

theorem takeWhile_append_all {p : Char → Bool} {a : Str} (b : Str)
    (h : ∀ c ∈ a, p c = true) :
    (a ++ b).takeWhile p = a ++ b.takeWhile p := by
  induction a with
  | nil => rfl
  | cons x t ih =>
    rw [List.cons_append, List.takeWhile_cons, if_pos (h x (by simp)),
      ih (fun c hc => h c (List.mem_cons_of_mem x hc)), List.cons_append]

theorem takeWhile_cons_neg {p : Char → Bool} {c : Char} (t : Str)
    (h : p c = false) : (c :: t).takeWhile p = [] := by
  rw [List.takeWhile_cons, if_neg (by simp [h])]

theorem goodHead_append {a b : Str} (ha : goodHeadB a = true)
    (hb : goodHeadB b = true) : goodHeadB (a ++ b) = true := by
  cases a with
  | nil => simpa using hb
  | cons c t =>
    rw [goodHeadB] at ha ⊢
    simpa using ha

theorem goodHead_cons {c : Char} {t : Str} (h : jsIsSpace c = false) :
    goodHeadB (c :: t) = true := by
  rw [goodHeadB]
  simpa using h

theorem goodHead_capitalize {s : Str} (h : goodHeadB s = true) :
    goodHeadB (capitalize s) = true := by
  cases s with
  | nil => rfl
  | cons c t =>
    rw [goodHeadB] at h
    simp only [List.head?_cons, Bool.not_eq_true'] at h
    exact goodHead_cons (jsIsSpace_upperChar c h)

theorem noNL_capitalize {s : Str} (h : '\n' ∉ s) : '\n' ∉ capitalize s := by
  cases s with
  | nil => simp [capitalize]
  | cons c t =>
    rw [capitalize]
    intro hx
    rcases List.mem_cons.mp hx with hx | hx
    · exact (h (by rw [upperChar_eq_nl c hx.symm]; exact List.mem_cons_self _ _)).elim
    · exact h (List.mem_cons_of_mem c hx)

theorem noNL_trimJS {s : Str} (h : '\n' ∉ s) : '\n' ∉ trimJS s :=
  fun hx => h (mem_trimJS hx)

theorem goodLast_append {a b : Str} {c : Char}
    (hb : ∀ x, b.getLast? = some x → jsIsSpace x = false)
    (ha : ∀ x, a.getLast? = some x → jsIsSpace x = false)
    (h : (a ++ b).getLast? = some c) : jsIsSpace c = false := by
  cases hb2 : b with
  | nil =>
    subst hb2
    rw [List.append_nil] at h
    exact ha c h
  | cons x t =>
    subst hb2
    rw [List.getLast?_append] at h
    cases hgl : (x :: t).getLast? with
    | none =>
      rw [List.getLast?_eq_none_iff] at hgl
      exact (List.cons_ne_nil x t hgl).elim
    | some y =>
      rw [hgl] at h
      have h2 : some y = some c := h
      cases h2
      exact hb c hgl

/- drop / takeWhile structure -/

theorem drop_takeWhile_length (p : Char → Bool) (s : Str) :
    s.drop (s.takeWhile p).length = s.dropWhile p := by
  calc s.drop (s.takeWhile p).length
      = (s.takeWhile p ++ s.dropWhile p).drop (s.takeWhile p).length := by
        rw [List.takeWhile_append_dropWhile]
    _ = s.dropWhile p := List.drop_left _ _

theorem take_takeWhile_length (p : Char → Bool) (s : Str) :
    s.take (s.takeWhile p).length = s.takeWhile p := by
  calc s.take (s.takeWhile p).length
      = (s.takeWhile p ++ s.dropWhile p).take (s.takeWhile p).length := by
        rw [List.takeWhile_append_dropWhile]
    _ = s.takeWhile p := List.take_left _ _

theorem getLast?_drop_of_ne_nil {s : Str} {k : Nat} (h : s.drop k ≠ []) :
    (s.drop k).getLast? = s.getLast? := by
  conv_rhs => rw [← List.take_append_drop k s]
  rw [List.getLast?_append]
  cases hgl : (s.drop k).getLast? with
  | none =>
    rw [List.getLast?_eq_none_iff] at hgl
    exact (h hgl).elim
  | some y => rfl

/- joinSp -/

theorem mem_joinSp {ls : List Str} {c : Char} (h : c ∈ joinSp ls) :
    c = ' ' ∨ ∃ l ∈ ls, c ∈ l := by
  induction ls with
  | nil => simp [joinSp] at h
  | cons l rest ih =>
    cases rest with
    | nil =>
      rw [show joinSp [l] = l from rfl] at h
      exact Or.inr ⟨l, by simp, h⟩
    | cons l2 t =>
      rw [show joinSp (l :: l2 :: t) = l ++ ' ' :: joinSp (l2 :: t) from rfl] at h
      rcases List.mem_append.mp h with h | h
      · exact Or.inr ⟨l, by simp, h⟩
      · rcases List.mem_cons.mp h with h | h
        · exact Or.inl h
        · rcases ih h with h | ⟨x, hx, hc⟩
          · exact Or.inl h
          · exact Or.inr ⟨x, List.mem_cons_of_mem l hx, hc⟩

theorem joinSp_ne_nil {ls : List Str} (hne : ls ≠ [])
    (h : ∀ l ∈ ls, l ≠ []) : joinSp ls ≠ [] := by
  cases ls with
  | nil => exact (hne rfl).elim
  | cons l rest =>
    cases rest with
    | nil => exact h l (by simp)
    | cons l2 t =>
      rw [show joinSp (l :: l2 :: t) = l ++ ' ' :: joinSp (l2 :: t) from rfl]
      simp

theorem goodHead_joinSp {ls : List Str}
    (h : ∀ l ∈ ls, l ≠ [] ∧ goodHeadB l = true) :
    goodHeadB (joinSp ls) = true := by
  cases ls with
  | nil => rfl
  | cons l rest =>
    cases rest with
    | nil => exact (h l (by simp)).2
    | cons l2 t =>
      rw [show joinSp (l :: l2 :: t) = l ++ ' ' :: joinSp (l2 :: t) from rfl]
      cases hl : l with
      | nil => exact ((h l (by simp)).1 hl).elim
      | cons c t2 =>
        have := (h l (by simp)).2
        rw [hl] at this
        rw [goodHeadB] at this ⊢
        simpa using this

theorem goodLast_joinSp {ls : List Str}
    (h : ∀ l ∈ ls, l ≠ [] ∧ ∀ x, l.getLast? = some x → jsIsSpace x = false) :
    ∀ x, (joinSp ls).getLast? = some x → jsIsSpace x = false := by
  induction ls with
  | nil => intro x hx; simp [joinSp] at hx
  | cons l rest ih =>
    cases rest with
    | nil =>
      intro x hx
      exact (h l (by simp)).2 x hx
    | cons l2 t =>
      intro x hx
      rw [show joinSp (l :: l2 :: t) = l ++ ' ' :: joinSp (l2 :: t) from rfl,
        List.getLast?_append] at hx
      have hjne : joinSp (l2 :: t) ≠ [] :=
        joinSp_ne_nil (by simp) (fun y hy => (h y (List.mem_cons_of_mem l hy)).1)
      cases hj : joinSp (l2 :: t) with
      | nil => exact (hjne hj).elim
      | cons a b =>
        rw [List.getLast?_cons, hj] at hx
        cases hg : (a :: b).getLast? with
        | none =>
          rw [List.getLast?_eq_none_iff] at hg
          exact (List.cons_ne_nil a b hg).elim
        | some y =>
          rw [hg] at hx
          have h2 : some y = some x := hx
          cases h2
          have := ih (fun y hy => h y (List.mem_cons_of_mem l hy)) x
          rw [hj] at this
          exact this hg

theorem noNL_joinSp {ls : List Str} (h : ∀ l ∈ ls, '\n' ∉ l) :
    '\n' ∉ joinSp ls := by
  intro hx
  rcases mem_joinSp hx with hx | ⟨l, hl, hc⟩
  · cases hx
  · exact h l hl hc

/- mapState -/

theorem mapState_length {α σ β : Type} (f : α → σ → β × σ) (xs : List α)
    (st : σ) : ((mapState f xs st).1).length = xs.length := by
  induction xs generalizing st with
  | nil => rfl
  | cons x t ih =>
    rw [mapState]
    simpa using ih (f x st).2

theorem mapState_mem {α σ β : Type} {f : α → σ → β × σ} {xs : List α}
    {st : σ} {y : β} (h : y ∈ (mapState f xs st).1) :
    ∃ x ∈ xs, ∃ st', y = (f x st').1 := by
  induction xs generalizing st with
  | nil => simp [mapState] at h
  | cons x t ih =>
    rw [mapState] at h
    rcases List.mem_cons.mp h with h | h
    · exact ⟨x, by simp, st, h⟩
    · obtain ⟨x2, hx2, st2, hy⟩ := ih h
      exact ⟨x2, List.mem_cons_of_mem x hx2, st2, hy⟩

theorem mapState_getD {α σ β : Type} (f : α → σ → β × σ) (xs : List α)
    (st : σ) (i : Nat) (hi : i < xs.length) (dx : α) (dy : β) :
    ∃ st', ((mapState f xs st).1).getD i dy = (f (xs.getD i dx) st').1 := by
  induction xs generalizing st i with
  | nil => simp at hi
  | cons x t ih =>
    cases i with
    | zero =>
      exact ⟨st, by rw [mapState]; simp⟩
    | succ n =>
      rw [List.length_cons, Nat.succ_lt_succ_iff] at hi
      obtain ⟨st', hst⟩ := ih (f x st).2 n hi
      exact ⟨st', by rw [mapState]; simpa using hst⟩

/- splitOnChar / splitConj / intercalate / evens membership -/

theorem mem_splitOnChar {sep : Char} {s : Str} {x : Str}
    (h : x ∈ splitOnChar sep s) : ∀ c ∈ x, c ∈ s := by
  induction s generalizing x with
  | nil =>
    rw [splitOnChar] at h
    rcases List.mem_singleton.mp h with rfl
    simp
  | cons a t ih =>
    rw [splitOnChar] at h
    split at h
    · rcases List.mem_cons.mp h with rfl | h
      · simp
      · exact fun c hc => List.mem_cons_of_mem a (ih h c hc)
    · rename_i ha
      cases hsp : splitOnChar sep t with
      | nil =>
        rw [hsp] at h
        rcases List.mem_singleton.mp h with rfl
        intro c hc
        rcases List.mem_singleton.mp hc with rfl
        simp
      | cons l ls =>
        rw [hsp] at h
        have hl : l ∈ splitOnChar sep t := by rw [hsp]; simp
        rcases List.mem_cons.mp h with rfl | h
        · intro c hc
          rcases List.mem_cons.mp hc with rfl | hc
          · simp
          · exact List.mem_cons_of_mem a (ih hl c hc)
        · have hx : x ∈ splitOnChar sep t := by
            rw [hsp]; exact List.mem_cons_of_mem l h
          exact fun c hc => List.mem_cons_of_mem a (ih hx c hc)

theorem conjSepAt_sub {ws : List Str} {s : Str} {L : Nat} {w : Str}
    (h : conjSepAt ws s = some (L, w)) : ∀ c ∈ w, c ∈ s := by
  simp only [conjSepAt] at h
  split at h
  · cases h
  · split at h
    · cases h
      intro c hc
      exact List.drop_subset _ s (List.take_subset _ _ hc)
    · cases h

theorem mem_splitConjF {ws : List Str} (fuel : Nat) (acc s : Str) (x : Str)
    (h : x ∈ splitConjF ws fuel acc s) : ∀ c ∈ x, c ∈ acc ∨ c ∈ s := by
  induction fuel generalizing acc s x with
  | zero =>
    rw [splitConjF] at h
    rcases List.mem_singleton.mp h with rfl
    exact fun c hc => List.mem_append.mp hc
  | succ n ih =>
    cases s with
    | nil =>
      rw [splitConjF] at h
      rcases List.mem_singleton.mp h with rfl
      exact fun c hc => Or.inl hc
    | cons a t =>
      rw [splitConjF] at h
      cases hc : conjSepAt ws (a :: t) with
      | some Lw =>
        obtain ⟨L, w⟩ := Lw
        rw [hc] at h
        simp only [Option.elim] at h
        rcases List.mem_cons.mp h with rfl | h
        · exact fun c hcc => Or.inl hcc
        · rcases List.mem_cons.mp h with rfl | h
          · exact fun c hcc => Or.inr (conjSepAt_sub hc c hcc)
          · intro c hcc
            rcases ih [] _ x h c hcc with h2 | h2
            · cases h2
            · exact Or.inr (List.drop_subset _ _ h2)
      | none =>
        rw [hc] at h
        simp only [Option.elim] at h
        intro c hcc
        rcases ih (acc ++ [a]) t x h c hcc with h2 | h2
        · rcases List.mem_append.mp h2 with h3 | h3
          · exact Or.inl h3
          · rcases List.mem_singleton.mp h3 with rfl
            exact Or.inr (by simp)
        · exact Or.inr (List.mem_cons_of_mem a h2)

theorem mem_intersperse {α : Type} {sep : List α} {xs : List (List α)}
    {l : List α} (h : l ∈ List.intersperse sep xs) : l = sep ∨ l ∈ xs := by
  induction xs with
  | nil => simp [List.intersperse] at h
  | cons x t ih =>
    cases t with
    | nil =>
      rw [show List.intersperse sep [x] = [x] from rfl] at h
      exact Or.inr h
    | cons y t2 =>
      rw [show List.intersperse sep (x :: y :: t2) =
        x :: sep :: List.intersperse sep (y :: t2) from rfl] at h
      rcases List.mem_cons.mp h with rfl | h
      · exact Or.inr (by simp)
      · rcases List.mem_cons.mp h with rfl | h
        · exact Or.inl rfl
        · rcases ih h with h2 | h2
          · exact Or.inl h2
          · exact Or.inr (List.mem_cons_of_mem x h2)

theorem mem_intercalate {α : Type} {sep : List α} {xs : List (List α)}
    {c : α} (h : c ∈ List.intercalate sep xs) :
    c ∈ sep ∨ ∃ l ∈ xs, c ∈ l := by
  rw [List.intercalate] at h
  obtain ⟨l, hl, hc⟩ := List.mem_flatten.mp h
  rcases mem_intersperse hl with rfl | hl2
  · exact Or.inl hc
  · exact Or.inr ⟨l, hl2, hc⟩

theorem mem_evens {α : Type} {xs : List α} {x : α} (h : x ∈ evens xs) :
    x ∈ xs := by
  induction xs using evens.induct with
  | case1 => simpa [evens] using h
  | case2 y => simpa [evens] using h
  | case3 y z t ih =>
    rw [show evens (y :: z :: t) = y :: evens t from rfl] at h
    rcases List.mem_cons.mp h with rfl | h
    · simp
    · exact List.mem_cons_of_mem y (List.mem_cons_of_mem z (ih h))

theorem headI_mem {α : Type} [Inhabited α] {xs : List α} (h : xs ≠ []) :
    xs.headI ∈ xs := by
  cases xs with
  | nil => exact (h rfl).elim
  | cons x t => simp [List.headI]

/- splitLinesJS membership and roundtrip -/

theorem mem_splitLinesJS {s : Str} {l : Str} (h : l ∈ splitLinesJS s) :
    ∀ c ∈ l, c ∈ s := by
  induction s using splitLinesJS.induct generalizing l with
  | case1 =>
    rw [splitLinesJS] at h
    rcases List.mem_singleton.mp h with rfl
    simp
  | case2 t ih =>
    rw [splitLinesJS] at h
    rcases List.mem_cons.mp h with rfl | h
    · simp
    · exact fun c hc => by
        simpa using Or.inr (Or.inr (ih h c hc))
  | case3 t hr ih =>
    rw [splitLines_cons_nl] at h
    rcases List.mem_cons.mp h with rfl | h
    · simp
    · exact fun c hc => List.mem_cons_of_mem _ (ih h c hc)
  | case4 c t hr hn hnil ih => exact (splitLinesJS_ne_nil t hnil).elim
  | case5 c t hr hn l2 ls heq ih =>
    rw [splitLines_cons_other c t l2 ls hr hn heq] at h
    have hl2 : l2 ∈ splitLinesJS t := by rw [heq]; simp
    rcases List.mem_cons.mp h with rfl | h
    · intro x hx
      rcases List.mem_cons.mp hx with rfl | hx
      · simp
      · exact List.mem_cons_of_mem _ (ih hl2 x hx)
    · have hmem : l ∈ splitLinesJS t := by
        rw [heq]; exact List.mem_cons_of_mem l2 h
      exact fun x hx => List.mem_cons_of_mem _ (ih hmem x hx)

theorem noNL_splitLinesJS {s : Str} {l : Str} (h : l ∈ splitLinesJS s) :
    '\n' ∉ l := by
  induction s using splitLinesJS.induct generalizing l with
  | case1 =>
    rcases List.mem_singleton.mp h with rfl
    simp
  | case2 t ih =>
    rw [splitLinesJS] at h
    rcases List.mem_cons.mp h with rfl | h
    · simp
    · exact ih h
  | case3 t hr ih =>
    rw [splitLines_cons_nl] at h
    rcases List.mem_cons.mp h with rfl | h
    · simp
    · exact ih h
  | case4 c t hr hn hnil ih => exact (splitLinesJS_ne_nil t hnil).elim
  | case5 c t hr hn l2 ls heq ih =>
    rw [splitLines_cons_other c t l2 ls hr hn heq] at h
    have hl2 : l2 ∈ splitLinesJS t := by rw [heq]; simp
    rcases List.mem_cons.mp h with rfl | h
    · intro hx
      rcases List.mem_cons.mp hx with h2 | h2
      · exact hn h2.symm
      · exact ih hl2 h2
    · exact ih (by rw [heq]; exact List.mem_cons_of_mem l2 h)

theorem splitLinesJS_no_nl {s : Str} (h : '\n' ∉ s) : splitLinesJS s = [s] := by
  induction s using splitLinesJS.induct with
  | case1 => rfl
  | case2 t ih => exact absurd (by simp) h
  | case3 t hr ih => exact absurd (by simp) h
  | case4 c t hr hn hnil ih => exact (splitLinesJS_ne_nil t hnil).elim
  | case5 c t hr hn l ls heq ih =>
    have h2 : '\n' ∉ t := fun hx => h (List.mem_cons_of_mem c hx)
    rw [splitLines_cons_other c t l ls hr hn heq]
    rw [ih h2] at heq
    injection heq with h3 h4
    rw [h3, h4]

theorem splitLinesJS_append_nl {x : Str} (rest : Str) (hnl : '\n' ∉ x)
    (hcr : x.getLast? ≠ some '\r') :
    splitLinesJS (x ++ '\n' :: rest) = x :: splitLinesJS rest := by
  induction x with
  | nil => exact splitLines_cons_nl rest
  | cons c t ih =>
    have hnl2 : '\n' ∉ t := fun hx => hnl (List.mem_cons_of_mem c hx)
    have hcn : c ≠ '\n' := fun hx => hnl (hx ▸ List.mem_cons_self c t)
    cases ht : t with
    | nil =>
      have hcr2 : c ≠ '\r' := by
        intro hx
        rw [ht] at hcr
        exact hcr (by rw [hx]; rfl)
      subst ht
      rw [List.cons_append, List.nil_append]
      rw [splitLines_cons_other c ('\n' :: rest) [] (splitLinesJS rest)
        (fun t2 hc _ => hcr2 hc) hcn (splitLines_cons_nl rest)]
    | cons d t2 =>
      subst ht
      have hcr3 : (d :: t2).getLast? ≠ some '\r' := by
        rw [List.getLast?_cons_cons] at hcr
        exact hcr
      have := ih hnl2 hcr3
      rw [List.cons_append]
      rw [splitLines_cons_other c ((d :: t2) ++ '\n' :: rest) (d :: t2)
        (splitLinesJS rest) ?hr hcn this]
      case hr =>
        intro u hc hu
        rw [List.cons_append] at hu
        injection hu with h1 _
        exact hnl2 (h1 ▸ List.mem_cons_self d t2)

theorem splitLinesJS_joinLines {ls : List Str} (hne : ls ≠ [])
    (h : ∀ l ∈ ls, '\n' ∉ l ∧ l.getLast? ≠ some '\r') :
    splitLinesJS (joinLines ls) = ls := by
  induction ls with
  | nil => exact (hne rfl).elim
  | cons l rest ih =>
    cases rest with
    | nil =>
      rw [show joinLines [l] = l from rfl]
      exact splitLinesJS_no_nl (h l (by simp)).1
    | cons l2 t =>
      rw [show joinLines (l :: l2 :: t) = l ++ '\n' :: joinLines (l2 :: t) from rfl]
      rw [splitLinesJS_append_nl _ (h l (by simp)).1 (h l (by simp)).2]
      rw [ih (by simp) (fun x hx => h x (List.mem_cons_of_mem l hx))]

/- sentence segmentation: every match trims non-empty, members are drawn
from the scanned text -/

theorem getLast?_cons_of_ne_nil {α : Type} {a : α} {l : List α}
    (h : l ≠ []) : (a :: l).getLast? = l.getLast? := by
  rw [List.getLast?_cons]
  cases hgl : l.getLast? with
  | none =>
    rw [List.getLast?_eq_none_iff] at hgl
    exact (h hgl).elim
  | some y => rfl

theorem getLast?_append_right {α : Type} {a b : List α} (h : b ≠ []) :
    (a ++ b).getLast? = b.getLast? := by
  rw [List.getLast?_append]
  cases hgl : b.getLast? with
  | none =>
    rw [List.getLast?_eq_none_iff] at hgl
    exact (h hgl).elim
  | some y => rfl

theorem mem_sentMatchesF (fuel : Nat) {s : Str} {m : Str}
    (h : m ∈ sentMatchesF fuel s) : ∀ c ∈ m, c ∈ s := by
  induction fuel generalizing s m with
  | zero => simp [sentMatchesF] at h
  | succ n ih =>
    cases s with
    | nil => simp [sentMatchesF] at h
    | cons c t =>
      rw [sentMatchesF] at h
      split at h
      · exact fun d hd => List.mem_cons_of_mem c (ih h d hd)
      · rename_i hterm
        cases hdr : t.drop ((t.takeWhile (fun x => !isTermPunct x)).length) with
        | cons p r2 =>
          rw [hdr] at h
          have htw : ∀ d ∈ t.takeWhile (fun x => !isTermPunct x), d ∈ t :=
            fun d hd => (List.takeWhile_sublist _).subset hd
          have hsub : ∀ d ∈ p :: r2, d ∈ t := by
            intro d hd
            rw [← hdr] at hd
            exact List.drop_subset _ t hd
          rcases List.mem_cons.mp h with rfl | h
          · intro d hd
            rcases List.mem_cons.mp hd with rfl | hd
            · simp
            · rcases List.mem_append.mp hd with hd | hd
              · exact List.mem_cons_of_mem c (htw d hd)
              · rcases List.mem_singleton.mp hd with rfl
                exact List.mem_cons_of_mem c (hsub d (by simp))
          · intro d hd
            exact List.mem_cons_of_mem c
              (hsub d (List.mem_cons_of_mem p (ih h d hd)))
        | nil =>
          rw [hdr] at h
          rcases List.mem_singleton.mp h with rfl
          intro d hd
          rcases List.mem_cons.mp hd with rfl | hd
          · simp
          · exact List.mem_cons_of_mem c ((List.takeWhile_sublist _).subset hd)

theorem sentMatchesF_nil (fuel : Nat) : sentMatchesF fuel [] = [] := by
  cases fuel <;> rfl

theorem sentMatchesF_trim_ne {fuel : Nat} {s : Str}
    (hlast : ∀ x, s.getLast? = some x → jsIsSpace x = false) :
    ∀ m ∈ sentMatchesF fuel s, trimJS m ≠ [] := by
  induction fuel generalizing s with
  | zero => simp [sentMatchesF]
  | succ n ih =>
    cases s with
    | nil => simp [sentMatchesF]
    | cons c t =>
      rw [sentMatchesF]
      split
      · rename_i hterm
        cases hte : t with
        | nil => simp [sentMatchesF_nil]
        | cons d t2 =>
          subst hte
          apply ih
          intro x hx
          rw [← getLast?_cons_of_ne_nil (a := c) (List.cons_ne_nil d t2)] at hx
          exact hlast x hx
      · rename_i hterm
        cases hdr : t.drop ((t.takeWhile (fun x => !isTermPunct x)).length) with
        | cons p r2 =>
          have hp : isTermPunct p = true := by
            have h1 := drop_takeWhile_length (fun x => !isTermPunct x) t
            rw [hdr] at h1
            have h2 := head?_dropWhile (p := fun x => !isTermPunct x)
              (s := t) (c := p) (by rw [← h1]; rfl)
            simpa using h2
          intro m hm
          rcases List.mem_cons.mp hm with rfl | hm
          · exact trimJS_ne_nil (c := p) (by simp) (isTermPunct_not_ws p hp)
          · apply ih ?hl m hm
            case hl =>
              intro x hx
              cases hr2 : r2 with
              | nil => rw [hr2] at hx; cases hx
              | cons e r3 =>
                subst hr2
                have hchain : (c :: t).getLast? = (e :: r3).getLast? := by
                  have ht : t = t.takeWhile (fun x => !isTermPunct x) ++
                      (p :: e :: r3) := by
                    conv_lhs => rw [← List.take_append_drop
                      ((t.takeWhile (fun x => !isTermPunct x)).length) t]
                    rw [take_takeWhile_length, hdr]
                  rw [getLast?_cons_of_ne_nil (by rw [ht]; simp), ht,
                    getLast?_append_right (List.cons_ne_nil _ _),
                    getLast?_cons_of_ne_nil (List.cons_ne_nil _ _)]
                rw [← hchain] at hx
                exact hlast x hx
        | nil =>
          intro m hm
          rcases List.mem_singleton.mp hm with rfl
          have ht : t.takeWhile (fun x => !isTermPunct x) = t := by
            have h1 := List.take_append_drop
              ((t.takeWhile (fun x => !isTermPunct x)).length) t
            rw [hdr, List.append_nil, take_takeWhile_length] at h1
            exact h1
          rw [ht]
          cases hgl : (c :: t).getLast? with
          | none =>
            rw [List.getLast?_eq_none_iff] at hgl
            cases hgl
          | some x =>
            have hx := hlast x hgl
            have hmem : x ∈ c :: t := List.mem_of_getLast?_eq_some hgl
            exact trimJS_ne_nil hmem hx

theorem splitSentences_ne_nil {core : Str} (hne : core ≠ [])
    (hlast : ∀ x, core.getLast? = some x → jsIsSpace x = false) :
    splitSentences core ≠ [] := by
  simp only [splitSentences]
  cases hms : sentMatches core with
  | nil => simp
  | cons m0 ms2 =>
    simp only [List.isEmpty_cons, if_false, Bool.false_eq_true]
    intro hfe
    have h1 := List.filter_eq_nil_iff.mp hfe (trimJS m0)
      (List.mem_map_of_mem trimJS (by simp))
    have h2 : trimJS m0 ≠ [] := sentMatchesF_trim_ne hlast m0 (by
      rw [show sentMatchesF core.length core = sentMatches core from rfl, hms]
      simp)
    have h3 : trimJS m0 = [] := by simpa using h1
    exact h2 h3

theorem splitSentences_spec {core : Str} (hne : core ≠ [])
    (hhead : goodHeadB core = true) (x : Str)
    (hx : x ∈ splitSentences core) :
    x ≠ [] ∧ goodHeadB x = true ∧ ∀ c ∈ x, c ∈ core := by
  simp only [splitSentences] at hx
  split at hx
  · rcases List.mem_singleton.mp hx with rfl
    exact ⟨hne, hhead, fun c hc => hc⟩
  · have h1 := List.of_mem_filter hx
    have h2 := List.mem_of_mem_filter hx
    obtain ⟨m, hm, rfl⟩ := List.mem_map.mp h2
    have h1b : trimJS m ≠ [] := by simpa using h1
    exact ⟨h1b, goodHead_trimJS m,
      fun c hc => mem_sentMatchesF core.length hm c (mem_trimJS hc)⟩

/- placeholder digits -/

theorem digitChar_ne_nl (m : Nat) : Nat.digitChar m ≠ '\n' := by
  rcases Nat.lt_or_ge m 16 with h | h
  · interval_cases m <;> decide
  · have h16 : Nat.digitChar m = '*' := by
      simp only [Nat.digitChar, show m ≠ 0 by omega, show m ≠ 1 by omega,
        show m ≠ 2 by omega, show m ≠ 3 by omega, show m ≠ 4 by omega,
        show m ≠ 5 by omega, show m ≠ 6 by omega, show m ≠ 7 by omega,
        show m ≠ 8 by omega, show m ≠ 9 by omega, show m ≠ 10 by omega,
        show m ≠ 11 by omega, show m ≠ 12 by omega, show m ≠ 13 by omega,
        show m ≠ 14 by omega, show m ≠ 15 by omega, if_false, ite_false]
    rw [h16]
    decide

theorem toDigitsCore_mem {b : Nat} (fuel : Nat) :
    ∀ (n : Nat) (acc : List Char) (c : Char),
      c ∈ Nat.toDigitsCore b fuel n acc → c ∈ acc ∨ ∃ m, c = Nat.digitChar m := by
  induction fuel with
  | zero => exact fun n acc c h => Or.inl h
  | succ fu ih =>
    intro n acc c h
    rw [Nat.toDigitsCore] at h
    split at h
    · rcases List.mem_cons.mp h with rfl | h
      · exact Or.inr ⟨n % b, rfl⟩
      · exact Or.inl h
    · rcases ih (n / b) (Nat.digitChar (n % b) :: acc) c h with h2 | h2
      · rcases List.mem_cons.mp h2 with rfl | h2
        · exact Or.inr ⟨n % b, rfl⟩
        · exact Or.inl h2
      · exact Or.inr h2

theorem natToDec_no_nl (n : Nat) : '\n' ∉ natToDec n := by
  intro h
  rcases toDigitsCore_mem _ _ _ _ h with h2 | ⟨m, h2⟩
  · simp at h2
  · exact digitChar_ne_nl m h2.symm

theorem placeholderStr_goodHead (tag : Str) (n : Nat) :
    goodHeadB (placeholderStr tag n) = true := by
  rw [placeholderStr]
  exact goodHead_cons (by decide)

theorem placeholderStr_no_nl {tag : Str} (h : '\n' ∉ tag) (n : Nat) :
    '\n' ∉ placeholderStr tag n := by
  rw [placeholderStr]
  intro hx
  rcases List.mem_append.mp hx with hx | hx
  · rcases List.mem_append.mp hx with hx | hx
    · rcases List.mem_append.mp hx with hx | hx
      · rcases List.mem_append.mp hx with hx | hx
        · simp at hx
        · exact h hx
      · simp at hx
    · exact natToDec_no_nl n hx
  · simp at hx

/- preserveCase preserves replacement soundness -/

theorem noNL_upperStr {s : Str} (h : '\n' ∉ s) : '\n' ∉ upperStr s := by
  rw [upperStr]
  intro hx
  obtain ⟨c, hc, he⟩ := List.mem_map.mp hx
  exact h (upperChar_eq_nl c he ▸ hc)

theorem noNL_lowerStr {s : Str} (h : '\n' ∉ s) : '\n' ∉ lowerStr s := by
  rw [lowerStr]
  intro hx
  obtain ⟨c, hc, he⟩ := List.mem_map.mp hx
  exact h (lowerChar_eq_nl c he ▸ hc)

theorem goodReplB_iff (s : Str) :
    goodReplB s = true ↔ s ≠ [] ∧ goodHeadB s = true ∧ '\n' ∉ s := by
  rw [goodReplB]
  simp [List.isEmpty_iff, and_assoc]

theorem goodHead_upperStr {s : Str} (h : goodHeadB s = true) :
    goodHeadB (upperStr s) = true := by
  cases s with
  | nil => rfl
  | cons c t =>
    rw [goodHeadB] at h
    simp only [List.head?_cons, Bool.not_eq_true'] at h
    rw [upperStr, List.map_cons]
    exact goodHead_cons (jsIsSpace_upperChar c h)

theorem preserveCase_goodRepl (src : Str) {dest : Str}
    (h : goodReplB dest = true) : goodReplB (preserveCase src dest) = true := by
  obtain ⟨h1, h2, h3⟩ := (goodReplB_iff dest).mp h
  cases src with
  | nil => exact h
  | cons c t =>
    rw [show preserveCase (c :: t) dest =
      (if isAllCaps (c :: t) then upperStr dest
       else if c = upperChar c then capitalize dest else dest) from rfl]
    split
    · rw [goodReplB_iff]
      refine ⟨by simpa [upperStr] using h1, goodHead_upperStr h2, noNL_upperStr h3⟩
    · split
      · rw [goodReplB_iff]
        refine ⟨?_, goodHead_capitalize h2, noNL_capitalize h3⟩
        cases dest with
        | nil => exact (h1 rfl).elim
        | cons d t2 => simp [capitalize]
      · exact h

theorem noNL_preserveCase (src : Str) {dest : Str} (h : '\n' ∉ dest) :
    '\n' ∉ preserveCase src dest := by
  cases src with
  | nil => exact h
  | cons c t =>
    rw [show preserveCase (c :: t) dest =
      (if isAllCaps (c :: t) then upperStr dest
       else if c = upperChar c then capitalize dest else dest) from rfl]
    split
    · exact noNL_upperStr h
    · split
      · exact noNL_capitalize h
      · exact h

/- the floor bound of choose -/

theorem ratFloor_eq_floor (q : ℚ) : q.floor = ⌊q⌋ := by
  rw [Rat.floor_def, Rat.floor]
  split
  · rename_i h
    rw [h]
    simp
  · rfl

theorem natQ_eq (n : Nat) : natQ n = (n : ℚ) := by
  rw [natQ, Rat.mkRat_one]
  simp

theorem rndQ_nonneg (s : Nat) : 0 ≤ rndQ s := by
  rw [rndQ, Rat.mkRat_eq_div]
  positivity

theorem rndQ_lt_one (s : Nat) : rndQ s < 1 := by
  rw [rndQ, Rat.mkRat_eq_div]
  rw [div_lt_one (by norm_num)]
  have h := Nat.mod_lt (nextState s) (y := 1000000) (by norm_num)
  exact_mod_cast h

theorem chooseIdx_lt (st1 : Nat) {n : Nat} (hn : 0 < n) :
    (qmul (rndQ st1) (natQ n)).floor.toNat < n := by
  rw [qmul_eq_mul, ratFloor_eq_floor]
  have h0 : (0 : ℚ) ≤ rndQ st1 * natQ n := by
    apply mul_nonneg (rndQ_nonneg st1)
    rw [natQ_eq]
    positivity
  have h1 : rndQ st1 * natQ n < (n : ℚ) := by
    rw [natQ_eq]
    calc rndQ st1 * (n : ℚ) < 1 * (n : ℚ) :=
          mul_lt_mul_of_pos_right (rndQ_lt_one st1) (by exact_mod_cast hn)
    _ = (n : ℚ) := one_mul _
  have h2 : ⌊rndQ st1 * natQ n⌋ < (n : ℤ) := by
    apply Int.floor_lt.mpr
    push_cast
    exact h1
  rw [Int.toNat_lt (Int.floor_nonneg.mpr h0)]
  exact h2

theorem chooseJS_mem {arr : List Str} (prob : ℚ) (st : Nat) (h : arr ≠ []) :
    (chooseJS arr prob st).1 ∈ arr := by
  simp only [chooseJS]
  split
  · rename_i he
    rw [List.isEmpty_iff] at he
    exact (h he).elim
  · split
    · exact headI_mem h
    · have hlt := chooseIdx_lt (nextState st) (List.length_pos.mpr h)
      rw [List.getD_eq_getElem _ _ hlt]
      exact List.getElem_mem hlt

/- word-boundary scan: soundness of the output -/

theorem head?_append_left {α : Type} {a : List α} (b : List α) (h : a ≠ []) :
    (a ++ b).head? = a.head? := by
  cases a with
  | nil => exact (h rfl).elim
  | cons x t => rfl

theorem goodHead_append_left {a : Str} (b : Str) (hne : a ≠ [])
    (ha : goodHeadB a = true) : goodHeadB (a ++ b) = true := by
  rw [goodHeadB] at ha ⊢
  rw [head?_append_left b hne]
  exact ha

theorem goodHead_cons_elim {c : Char} {t : Str}
    (h : goodHeadB (c :: t) = true) : jsIsSpace c = false := by
  rw [goodHeadB] at h
  simpa using h

theorem findWBKey_spec {keys : List Str} {prevW : Bool} {s : Str} {k : Str}
    (h : findWBKey keys prevW s = some k) : wbMatchAt k prevW s = true := by
  rw [findWBKey] at h
  exact List.find?_some (p := fun k2 => wbMatchAt k2 prevW s) h

theorem take_key_cons {k : Str} (hk : k ≠ []) (c : Char) (t : Str) :
    (c :: t).take k.length = c :: t.take (k.length - 1) := by
  cases hkl : k.length with
  | zero => exact absurd (List.length_eq_zero.mp hkl) hk
  | succ kl => rw [List.take_succ_cons]; simp

theorem replaceWBF_noNL {σ : Type} (keys : List Str) (cb : Str → σ → Str × σ)
    (hcb : ∀ m st, '\n' ∉ m → '\n' ∉ (cb m st).1) :
    ∀ fuel prevW (s : Str) (st : σ), '\n' ∉ s →
      '\n' ∉ (replaceWBF keys cb fuel prevW s st).1 := by
  intro fuel
  induction fuel with
  | zero => exact fun prevW s st hn => hn
  | succ n ih =>
    intro prevW s st hn
    cases s with
    | nil => simp [replaceWBF]
    | cons c t =>
      cases hfk : findWBKey keys prevW (c :: t) with
      | some k =>
        simp only [replaceWBF, hfk]
        intro hx
        rcases List.mem_append.mp hx with hx | hx
        · exact hcb _ st (fun hm => hn (List.take_subset _ _ hm)) hx
        · exact ih _ _ _ (fun hm => hn (List.drop_subset _ _ hm)) hx
      | none =>
        simp only [replaceWBF, hfk]
        intro hx
        rcases List.mem_cons.mp hx with hx | hx
        · exact hn (by rw [hx]; exact List.mem_cons_self _ _)
        · exact ih _ _ _ (fun hm => hn (List.mem_cons_of_mem c hm)) hx

theorem replaceWBF_goodHead {σ : Type} (keys : List Str)
    (cb : Str → σ → Str × σ)
    (hcb : ∀ m st, (cb m st).1 = m ∨ goodReplB (cb m st).1 = true)
    (fuel : Nat) (prevW : Bool) (s : Str) (st : σ)
    (hh : goodHeadB s = true) :
    goodHeadB (replaceWBF keys cb fuel prevW s st).1 = true := by
  cases fuel with
  | zero => exact hh
  | succ n =>
    cases s with
    | nil => rfl
    | cons c t =>
      cases hfk : findWBKey keys prevW (c :: t) with
      | some k =>
        simp only [replaceWBF, hfk]
        have hk := findWBKey_spec hfk
        have hkne : k ≠ [] := wbMatchAt_ne_nil hk
        have hcns := goodHead_cons_elim hh
        rcases hcb ((c :: t).take k.length) st with hr | hr
        · rw [hr, take_key_cons hkne]
          exact goodHead_append_left _ (by simp) (goodHead_cons hcns)
        · obtain ⟨h1, h2, _⟩ := (goodReplB_iff _).mp hr
          exact goodHead_append_left _ h1 h2
      | none =>
        simp only [replaceWBF, hfk]
        exact goodHead_cons (goodHead_cons_elim hh)

/- key membership through the length sort and the table lookup -/

theorem mem_insertByLen {x y : Str} {l : List Str}
    (h : y ∈ insertByLen x l) : y = x ∨ y ∈ l := by
  induction l with
  | nil => simpa [insertByLen] using h
  | cons z t ih =>
    rw [insertByLen] at h
    split at h
    · rcases List.mem_cons.mp h with rfl | h
      · exact Or.inl rfl
      · exact Or.inr h
    · rcases List.mem_cons.mp h with rfl | h
      · exact Or.inr (by simp)
      · rcases ih h with h2 | h2
        · exact Or.inl h2
        · exact Or.inr (List.mem_cons_of_mem z h2)

theorem mem_sortByLenDesc {x : Str} {l : List Str}
    (h : x ∈ sortByLenDesc l) : x ∈ l := by
  induction l with
  | nil => simpa [sortByLenDesc] using h
  | cons z t ih =>
    rw [sortByLenDesc, List.foldr_cons] at h
    rcases mem_insertByLen h with rfl | h2
    · simp
    · exact List.mem_cons_of_mem z (ih h2)

theorem lookup_mem {α β : Type} [BEq α] [LawfulBEq α] {l : List (α × β)}
    {k : α} (h : k ∈ l.map Prod.fst) :
    ∃ v, l.lookup k = some v ∧ (k, v) ∈ l := by
  induction l with
  | nil => simp at h
  | cons kv t ih =>
    obtain ⟨k1, v1⟩ := kv
    rw [List.map_cons] at h
    by_cases hk : k = k1
    · subst hk
      exact ⟨v1, by simp [List.lookup], by simp⟩
    · rcases List.mem_cons.mp h with h2 | h2
      · exact (hk h2).elim
      · obtain ⟨v, hv1, hv2⟩ := ih h2
        refine ⟨v, ?_, List.mem_cons_of_mem _ hv2⟩
        rw [List.lookup]
        rw [show (k == k1) = false from beq_eq_false_iff_ne.mpr hk]
        exact hv1

/- the synonym callback and key loop -/

theorem synCb_noNL (prob : ℚ) {opts : List Str}
    (hno : ∀ o ∈ opts, '\n' ∉ o) :
    ∀ m cs, '\n' ∉ m → '\n' ∉ (synCb prob opts m cs).1 := by
  intro m cs hm
  simp only [synCb]
  split
  · exact hm
  · apply noNL_preserveCase
    cases hop : opts with
    | nil => simp [chooseJS]
    | cons o t =>
      apply hno
      rw [← hop]
      exact chooseJS_mem _ _ (by rw [hop]; simp)

theorem synCb_goodRepl (prob : ℚ) {opts : List Str} (hne : opts ≠ [])
    (hgood : ∀ o ∈ opts, goodReplB o = true) :
    ∀ m cs, (synCb prob opts m cs).1 = m ∨
      goodReplB (synCb prob opts m cs).1 = true := by
  intro m cs
  simp only [synCb]
  split
  · exact Or.inl rfl
  · exact Or.inr (preserveCase_goodRepl _
      (hgood _ (chooseJS_mem _ _ hne)))

theorem synLoop_mid {prob : ℚ} {cap : Nat} {table : List (Str × List Str)}
    (htab : ∀ kv ∈ table, kv.2 ≠ [] ∧ ∀ o ∈ kv.2, goodReplB o = true) :
    ∀ (keys : List Str) (s : Str) (cnt st : Nat),
      (∀ k ∈ keys, k ∈ table.map Prod.fst) →
      goodHeadB s = true → '\n' ∉ s →
      goodHeadB (synLoop prob cap table keys s cnt st).1 = true ∧
      '\n' ∉ (synLoop prob cap table keys s cnt st).1 := by
  intro keys
  induction keys with
  | nil => exact fun s cnt st hk hh hn => ⟨hh, hn⟩
  | cons k ks ih =>
    intro s cnt st hk hh hn
    rw [synLoop]
    split
    · exact ⟨hh, hn⟩
    · obtain ⟨v, hlk, hkv⟩ := lookup_mem (hk k (by simp))
      simp only [hlk, Option.getD_some]
      obtain ⟨hv1, hv2⟩ := htab (k, v) hkv
      have hvn : ∀ o ∈ v, '\n' ∉ o :=
        fun o ho => ((goodReplB_iff o).mp (hv2 o ho)).2.2
      have hh2 := replaceWBF_goodHead [k] (synCb prob v)
        (synCb_goodRepl prob hv1 hv2) s.length false s (cnt, st) hh
      have hn2 := replaceWBF_noNL [k] (synCb prob v)
        (synCb_noNL prob hvn) s.length false s (cnt, st) hn
      exact ih _ _ _ (fun k2 hk2 => hk k2 (List.mem_cons_of_mem k hk2))
        hh2 hn2

/- the protection and restoration scans -/

theorem urlMatchLen_eq_run {s : Str} {L : Nat} (h : urlMatchLen s = some L) :
    L = (maxNonWS s).length := by
  simp only [urlMatchLen] at h
  split at h
  · cases h; rfl
  · split at h
    · cases h; rfl
    · split at h
      · cases h; rfl
      · cases h

theorem protectScanF_noNL {tag : Str} (htag : '\n' ∉ tag) :
    ∀ fuel (s : Str) (acc : List Str), '\n' ∉ s →
      '\n' ∉ (protectScanF tag fuel s acc).1 := by
  intro fuel
  induction fuel with
  | zero => exact fun s acc hn => hn
  | succ n ih =>
    intro s acc hn
    cases s with
    | nil => simp [protectScanF]
    | cons c t =>
      cases hu : urlMatchLen (c :: t) with
      | some L =>
        simp only [protectScanF, hu]
        intro hx
        rcases List.mem_append.mp hx with hx | hx
        · exact placeholderStr_no_nl htag _ hx
        · exact ih _ _ (fun hm => hn (List.drop_subset _ _ hm)) hx
      | none =>
        simp only [protectScanF, hu]
        intro hx
        rcases List.mem_cons.mp hx with hx | hx
        · exact hn (by rw [hx]; exact List.mem_cons_self _ _)
        · exact ih _ _ (fun hm => hn (List.mem_cons_of_mem c hm)) hx

theorem protectScanF_goodHead (tag : Str) (fuel : Nat) (s : Str)
    (acc : List Str) (hh : goodHeadB s = true) :
    goodHeadB (protectScanF tag fuel s acc).1 = true := by
  cases fuel with
  | zero => exact hh
  | succ n =>
    cases s with
    | nil => rfl
    | cons c t =>
      cases hu : urlMatchLen (c :: t) with
      | some L =>
        simp only [protectScanF, hu]
        exact goodHead_append_left _ (by simp [placeholderStr])
          (placeholderStr_goodHead tag acc.length)
      | none =>
        simp only [protectScanF, hu]
        exact goodHead_cons (goodHead_cons_elim hh)

theorem protectScanF_acc {tag : Str} :
    ∀ fuel (s : Str) (acc : List Str) m,
      m ∈ (protectScanF tag fuel s acc).2 →
      m ∈ acc ∨ (m ≠ [] ∧ ∀ c ∈ m, jsIsSpace c = false) := by
  intro fuel
  induction fuel with
  | zero => exact fun s acc m hm => Or.inl hm
  | succ n ih =>
    intro s acc m hm
    cases s with
    | nil => exact Or.inl hm
    | cons c t =>
      cases hu : urlMatchLen (c :: t) with
      | some L =>
        simp only [protectScanF, hu] at hm
        rcases ih _ _ m hm with h2 | h2
        · rcases List.mem_append.mp h2 with h3 | h3
          · exact Or.inl h3
          · rcases List.mem_singleton.mp h3 with rfl
            refine Or.inr ⟨?_, ?_⟩
            · have hL := urlMatchLen_pos hu
              intro he
              have := congrArg List.length he
              simp only [List.length_take, List.length_nil] at this
              simp only [List.length_cons] at this
              omega
            · intro d hd
              rw [urlMatchLen_eq_run hu, maxNonWS,
                take_takeWhile_length] at hd
              have := List.mem_takeWhile_imp hd
              simpa using this
        · exact Or.inr h2
      | none =>
        simp only [protectScanF, hu] at hm
        exact ih _ _ m hm

theorem restoreScanF_noNL {tag : Str} {ph : List Str}
    (hph : ∀ p ∈ ph, ∀ c ∈ p, jsIsSpace c = false) :
    ∀ fuel (s : Str), '\n' ∉ s → '\n' ∉ restoreScanF tag ph fuel s := by
  intro fuel
  induction fuel with
  | zero => exact fun s hn => hn
  | succ n ih =>
    intro s hn
    cases s with
    | nil => simp [restoreScanF]
    | cons c t =>
      cases hr : restoreMatchAt tag (c :: t) with
      | some Ld =>
        simp only [restoreScanF, hr]
        intro hx
        rcases List.mem_append.mp hx with hx | hx
        · split at hx
          · rename_i hcan
            cases hg : ph.get? (decOfDigits Ld.2) with
            | some orig =>
              rw [hg] at hx
              have horig : orig ∈ ph := List.get?_mem hg
              have := hph orig horig '\n' hx
              rw [nl_is_ws] at this
              cases this
            | none =>
              rw [hg] at hx
              exact hn (List.take_subset _ _ hx)
          · exact hn (List.take_subset _ _ hx)
        · exact ih _ (fun hm => hn (List.drop_subset _ _ hm)) hx
      | none =>
        simp only [restoreScanF, hr]
        intro hx
        rcases List.mem_cons.mp hx with hx | hx
        · exact hn (by rw [hx]; exact List.mem_cons_self _ _)
        · exact ih _ (fun hm => hn (List.mem_cons_of_mem c hm)) hx

theorem goodHead_of_all {s : Str} (h : ∀ c ∈ s, jsIsSpace c = false) :
    goodHeadB s = true := by
  cases s with
  | nil => rfl
  | cons c t => exact goodHead_cons (h c (by simp))

theorem restoreScanF_goodHead {tag : Str} {ph : List Str}
    (hph : ∀ p ∈ ph, p ≠ [] ∧ ∀ c ∈ p, jsIsSpace c = false)
    (fuel : Nat) (s : Str) (hh : goodHeadB s = true) :
    goodHeadB (restoreScanF tag ph fuel s) = true := by
  cases fuel with
  | zero => exact hh
  | succ n =>
    cases s with
    | nil => rfl
    | cons c t =>
      cases hr : restoreMatchAt tag (c :: t) with
      | some Ld =>
        simp only [restoreScanF, hr]
        have hL : 0 < Ld.1 := restoreMatchAt_pos (L := Ld.1) (d := Ld.2)
          (by rwa [Prod.mk.eta])
        obtain ⟨m_ne, m_gh⟩ : (c :: t).take Ld.1 ≠ [] ∧
            goodHeadB ((c :: t).take Ld.1) = true := by
          cases hld : Ld.1 with
          | zero => omega
          | succ n2 =>
            rw [List.take_succ_cons]
            exact ⟨by simp, goodHead_cons (goodHead_cons_elim hh)⟩
        split
        · cases hg : ph.get? (decOfDigits Ld.2) with
          | some orig =>
            obtain ⟨ho1, ho2⟩ := hph orig (List.get?_mem hg)
            exact goodHead_append_left _ ho1 (goodHead_of_all ho2)
          | none => exact goodHead_append_left _ m_ne m_gh
        · exact goodHead_append_left _ m_ne m_gh
      | none =>
        simp only [restoreScanF, hr]
        exact goodHead_cons (goodHead_cons_elim hh)

/- specification of the passive-pattern matcher: the final group is a
non-empty suffix of the scanned text, non-whitespace-headed unless it is an
all-whitespace backtracking remainder; the other groups draw their
characters from the scanned text -/

theorem mem_of_head? {α : Type} {l : List α} {c : α} (h : l.head? = some c) :
    c ∈ l := by
  cases l with
  | nil => cases h
  | cons x t =>
    rw [List.head?_cons, Option.some.injEq] at h
    rw [h]
    simp

theorem goodHead_dropWhile (s : Str) :
    goodHeadB (s.dropWhile jsIsSpace) = true := by
  rw [goodHeadB]
  split
  · rename_i c hc
    rw [head?_dropWhile hc]
    rfl
  · rfl

theorem takeWhile_all_of_length {p : Char → Bool} {l : Str}
    (h : (l.takeWhile p).length = l.length) : ∀ c ∈ l, p c = true := by
  have heq : l.takeWhile p = l :=
    (List.takeWhile_prefix p).eq_of_length h
  intro c hc
  rw [← heq] at hc
  exact List.mem_takeWhile_imp hc

theorem tailByMatch_spec {byW u g3 : Str} (h : tailByMatch byW u = some g3) :
    g3 ≠ [] ∧ ∃ k, g3 = u.drop k ∧
      (goodHeadB g3 = true ∨ ∀ c ∈ g3, jsIsSpace c = true) := by
  simp only [tailByMatch] at h
  split at h
  · cases h
  · split at h
    · split at h
      · cases h
      · rename_i hw3 hpre hw4
        set u3 := (u.drop (wsRunLen u)).drop byW.length with hu3
        split at h
        · rename_i hg3e
          split at h
          · rename_i hw42
            cases h
            have hde : u3.drop (wsRunLen u3) = [] := by
              simpa [List.isEmpty_iff] using hg3e
            have hlen : wsRunLen u3 ≤ u3.length := by
              rw [wsRunLen]
              exact (List.takeWhile_sublist _).length_le
            have hlen2 := congrArg List.length hde
            simp only [List.length_drop, List.length_nil] at hlen2
            have hall : ∀ c ∈ u3, jsIsSpace c = true := by
              apply takeWhile_all_of_length
              have h6 : (u3.takeWhile jsIsSpace).length ≤ u3.length :=
                (List.takeWhile_sublist _).length_le
              have h7 := hlen2
              rw [wsRunLen] at h7
              omega
            have hex : ∃ k, List.drop (wsRunLen u3 - 1) u3 = u.drop k :=
              ⟨_, by rw [hu3, List.drop_drop, List.drop_drop]⟩
            obtain ⟨k, hk⟩ := hex
            refine ⟨?_, ⟨k, hk, Or.inr ?_⟩⟩
            · intro he
              have h5 := congrArg List.length he
              simp only [List.length_drop, List.length_nil] at h5
              omega
            · intro c hc
              exact hall c (List.drop_subset _ _ hc)
          · cases h
        · rename_i hg3e
          cases h
          have hex : ∃ k, List.drop (wsRunLen u3) u3 = u.drop k :=
            ⟨_, by rw [hu3, List.drop_drop, List.drop_drop]⟩
          obtain ⟨k, hk⟩ := hex
          refine ⟨by simpa [List.isEmpty_iff] using hg3e, ⟨k, hk, Or.inl ?_⟩⟩
          rw [wsRunLen, drop_takeWhile_length]
          exact goodHead_dropWhile u3
    · cases h

theorem lazyG2By_spec {byW rest g2 g3 : Str}
    (h : lazyG2By byW rest = some (g2, g3)) :
    (∀ c ∈ g2, c ∈ rest) ∧ g3 ≠ [] ∧ ∃ k, g3 = rest.drop k ∧
      (goodHeadB g3 = true ∨ ∀ c ∈ g3, jsIsSpace c = true) := by
  rw [lazyG2By] at h
  obtain ⟨j, hj, hf⟩ := List.exists_of_findSome?_eq_some h
  cases ht : tailByMatch byW (rest.drop j) with
  | none => rw [ht] at hf; cases hf
  | some g3x =>
    rw [ht] at hf
    have hf2 : some (rest.take j, g3x) = some (g2, g3) := hf
    injection hf2 with hf3
    injection hf3 with hf4 hf5
    subst hf4
    subst hf5
    obtain ⟨h1, k, h2, h3⟩ := tailByMatch_spec ht
    exact ⟨fun c hc => List.take_subset _ _ hc, h1,
      ⟨_, by rw [h2, List.drop_drop], h3⟩⟩

theorem auxTailLazy_spec {byW t4 g2 g3 : Str}
    (h : auxTailLazy byW t4 = some (g2, g3)) :
    (∀ c ∈ g2, c ∈ t4) ∧ g3 ≠ [] ∧ ∃ k, g3 = t4.drop k ∧
      (goodHeadB g3 = true ∨ ∀ c ∈ g3, jsIsSpace c = true) := by
  simp only [auxTailLazy] at h
  split at h
  · cases h
  · obtain ⟨w2, hw2, hf⟩ := List.exists_of_findSome?_eq_some h
    obtain ⟨h1, h2, k, h3, h4⟩ := lazyG2By_spec hf
    exact ⟨fun c hc => List.drop_subset _ _ (h1 c hc), h2,
      ⟨_, by rw [h3, List.drop_drop], h4⟩⟩

theorem auxTailMatch_spec {mid : Option Str} {byW t3 g2 g3 : Str}
    (h : auxTailMatch mid byW t3 = some (g2, g3)) :
    (∀ c ∈ g2, c ∈ t3) ∧ g3 ≠ [] ∧ ∃ k, g3 = t3.drop k ∧
      (goodHeadB g3 = true ∨ ∀ c ∈ g3, jsIsSpace c = true) := by
  cases mid with
  | none => exact auxTailLazy_spec h
  | some w =>
    have h2 : (if wsRunLen t3 = 0 then none
        else if ciIsPrefix w (t3.drop (wsRunLen t3)) then
          auxTailLazy byW ((t3.drop (wsRunLen t3)).drop w.length)
        else none) = some (g2, g3) := h
    split at h2
    · cases h2
    · split at h2
      · obtain ⟨h1, h3, k, h4, h5⟩ := auxTailLazy_spec h2
        refine ⟨?_, h3, ⟨_, by rw [h4, List.drop_drop, List.drop_drop], h5⟩⟩
        intro c hc
        exact List.drop_subset _ _ (List.drop_subset _ _ (h1 c hc))
      · cases h2

theorem matchPassive_spec {auxs : List Str} {mid : Option Str}
    {byW core g1 a g2 g3 : Str}
    (h : matchPassive auxs mid byW core = some (g1, a, g2, g3)) :
    (∀ c ∈ g1, c ∈ core) ∧ (∀ c ∈ a, c ∈ core) ∧ (∀ c ∈ g2, c ∈ core) ∧
      g3 ≠ [] ∧ ∃ k, g3 = core.drop k ∧
      (goodHeadB g3 = true ∨ ∀ c ∈ g3, jsIsSpace c = true) := by
  rw [matchPassive] at h
  obtain ⟨i, hi, hf⟩ := List.exists_of_findSome?_eq_some h
  simp only [] at hf
  split at hf
  · cases hf
  · obtain ⟨aux, haux, hf2⟩ := List.exists_of_findSome?_eq_some hf
    split at hf2
    · cases hat : auxTailMatch mid byW
        (((core.drop i).drop (wsRunLen (core.drop i))).drop aux.length) with
      | none => rw [hat] at hf2; cases hf2
      | some g23 =>
        rw [hat] at hf2
        have hf3 : some (core.take i, ((core.drop i).drop
            (wsRunLen (core.drop i))).take aux.length, g23.1, g23.2) =
            some (g1, a, g2, g3) := hf2
        injection hf3 with hf4
        injection hf4 with hg1 hf5
        injection hf5 with ha hf6
        injection hf6 with hg2 hg3
        subst hg1
        subst ha
        subst hg2
        subst hg3
        have hat2 : auxTailMatch mid byW
            (((core.drop i).drop (wsRunLen (core.drop i))).drop aux.length) =
            some (g23.1, g23.2) := by rw [hat]
        obtain ⟨h1, h2, k, h3, h4⟩ := auxTailMatch_spec hat2
        refine ⟨fun c hc => List.take_subset _ _ hc, ?_, ?_, h2,
          ⟨_, by rw [h3, List.drop_drop, List.drop_drop, List.drop_drop], h4⟩⟩
        · intro c hc
          exact List.drop_subset _ _ (List.drop_subset _ _
            (List.take_subset _ _ hc))
        · intro c hc
          exact List.drop_subset _ _ (List.drop_subset _ _
            (List.drop_subset _ _ (h1 c hc)))
    · cases hf2

/- passive-to-active rewrites preserve the invariant -/

theorem noNL_append {a b : Str} (ha : '\n' ∉ a) (hb : '\n' ∉ b) :
    '\n' ∉ a ++ b := by
  intro hx
  rcases List.mem_append.mp hx with h | h
  · exact ha h
  · exact hb h

theorem noNL_cons {c : Char} {t : Str} (hc : c ≠ '\n') (ht : '\n' ∉ t) :
    '\n' ∉ c :: t := by
  intro hx
  rcases List.mem_cons.mp hx with h | h
  · exact hc h.symm
  · exact ht h

theorem mem_dropTrailTerm {s : Str} {c : Char} (h : c ∈ dropTrailTerm s) :
    c ∈ s := by
  rw [dropTrailTerm, List.mem_reverse] at h
  have h2 := (List.dropWhile_sublist _).subset h
  rwa [List.mem_reverse] at h2

theorem trailTermRun_no_nl (s : Str) : '\n' ∉ trailTermRun s := by
  rw [trailTermRun]
  intro hx
  rw [List.mem_reverse] at hx
  have h2 := List.mem_takeWhile_imp hx
  rw [show isTermPunct '\n' = false from rfl] at h2
  cases h2

theorem capitalize_ne_nil {s : Str} (h : s ≠ []) : capitalize s ≠ [] := by
  cases s with
  | nil => exact (h rfl).elim
  | cons c t => simp [capitalize]

theorem trimJS_ne_nil_of_goodHead {s : Str} (hne : s ≠ [])
    (hh : goodHeadB s = true) : trimJS s ≠ [] := by
  cases s with
  | nil => exact (hne rfl).elim
  | cons c t =>
    exact trimJS_ne_nil (List.mem_cons_self c t) (goodHead_cons_elim hh)

theorem splitOnChar_ne_nil (sep : Char) (s : Str) : splitOnChar sep s ≠ [] := by
  cases s with
  | nil => simp [splitOnChar]
  | cons c t =>
    rw [splitOnChar]
    split
    · simp
    · cases hsp : splitOnChar sep t with
      | nil => simp
      | cons l ls => simp

theorem noNL_verbIngOf {verb : Str} (h : '\n' ∉ verb) :
    '\n' ∉ verbIngOf verb := by
  simp only [verbIngOf]
  have hbase : ∀ c ∈ (splitOnChar ' ' verb).getLastD [], c ∈ verb := by
    intro c hc
    have hne := splitOnChar_ne_nil ' ' verb
    rw [List.getLastD_eq_getLast?] at hc
    cases hgl : (splitOnChar ' ' verb).getLast? with
    | none =>
      rw [List.getLast?_eq_none_iff] at hgl
      exact (hne hgl).elim
    | some x =>
      rw [hgl, Option.getD_some] at hc
      exact mem_splitOnChar (List.mem_of_getLast?_eq_some hgl) c hc
  split
  · apply noNL_append
    · intro hx
      exact h (hbase '\n' ((List.dropLast_sublist _).subset
        ((List.dropLast_sublist _).subset hx)))
    · decide
  · split
    · exact h
    · exact noNL_append h (by decide)

theorem g3_goodHead {core g3 : Str}
    (hlast : ∀ x, core.getLast? = some x → jsIsSpace x = false)
    (hne : g3 ≠ []) {k : Nat} (hk : g3 = core.drop k)
    (halt : goodHeadB g3 = true ∨ ∀ c ∈ g3, jsIsSpace c = true) :
    goodHeadB g3 = true := by
  rcases halt with h | h
  · exact h
  · exfalso
    cases hgl : g3.getLast? with
    | none =>
      rw [List.getLast?_eq_none_iff] at hgl
      exact hne hgl
    | some x =>
      have hgl2 : core.getLast? = some x := by
        rw [← getLast?_drop_of_ne_nil (k := k) (by rw [← hk]; exact hne),
          ← hk]
        exact hgl
      have hws := hlast x hgl2
      have := h x (List.mem_of_getLast?_eq_some hgl)
      rw [hws] at this
      cases this

theorem built1_mid {g1 g2 g3 trail : Str} (hg3ne : trimJS g3 ≠ [])
    (h1 : '\n' ∉ g1) (h2 : '\n' ∉ g2) (h3 : '\n' ∉ g3) (ht : '\n' ∉ trail) :
    goodHeadB (capitalize (trimJS g3) ++ [' '] ++ trimJS g2 ++ [' '] ++
      trimJS g1 ++ trail) = true ∧
    '\n' ∉ (capitalize (trimJS g3) ++ [' '] ++ trimJS g2 ++ [' '] ++
      trimJS g1 ++ trail) := by
  have hcne : capitalize (trimJS g3) ≠ [] := capitalize_ne_nil hg3ne
  have hcgh : goodHeadB (capitalize (trimJS g3)) = true :=
    goodHead_capitalize (goodHead_trimJS g3)
  constructor
  · apply goodHead_append_left _ (by simp [hcne])
    apply goodHead_append_left _ (by simp [hcne])
    apply goodHead_append_left _ (by simp [hcne])
    apply goodHead_append_left _ (by simp [hcne])
    exact goodHead_append_left _ hcne hcgh
  · exact noNL_append (noNL_append (noNL_append (noNL_append (noNL_append
      (noNL_capitalize (noNL_trimJS h3)) (by decide)) (noNL_trimJS h2))
      (by decide)) (noNL_trimJS h1)) ht

theorem built2_mid {g1 a g2 g3 trail : Str} (hg3ne : trimJS g3 ≠ [])
    (h1 : '\n' ∉ g1) (ha : '\n' ∉ a) (h2 : '\n' ∉ g2) (h3 : '\n' ∉ g3)
    (ht : '\n' ∉ trail) :
    goodHeadB (capitalize (trimJS g3) ++ [' '] ++ lowerStr a ++ [' '] ++
      verbIngOf (trimJS g2) ++ [' '] ++ trimJS g1 ++ trail) = true ∧
    '\n' ∉ (capitalize (trimJS g3) ++ [' '] ++ lowerStr a ++ [' '] ++
      verbIngOf (trimJS g2) ++ [' '] ++ trimJS g1 ++ trail) := by
  have hcne : capitalize (trimJS g3) ≠ [] := capitalize_ne_nil hg3ne
  have hcgh : goodHeadB (capitalize (trimJS g3)) = true :=
    goodHead_capitalize (goodHead_trimJS g3)
  constructor
  · apply goodHead_append_left _ (by simp [hcne])
    apply goodHead_append_left _ (by simp [hcne])
    apply goodHead_append_left _ (by simp [hcne])
    apply goodHead_append_left _ (by simp [hcne])
    apply goodHead_append_left _ (by simp [hcne])
    apply goodHead_append_left _ (by simp [hcne])
    exact goodHead_append_left _ hcne hcgh
  · exact noNL_append (noNL_append (noNL_append (noNL_append (noNL_append
      (noNL_append (noNL_append (noNL_capitalize (noNL_trimJS h3))
      (by decide)) (noNL_lowerStr ha)) (by decide))
      (noNL_verbIngOf (noNL_trimJS h2))) (by decide)) (noNL_trimJS h1)) ht

theorem passiveToActiveEn_mid {sent : Str} (hh : goodHeadB sent = true)
    (hn : '\n' ∉ sent) :
    goodHeadB (passiveToActiveEn sent) = true ∧
    '\n' ∉ passiveToActiveEn sent := by
  simp only [passiveToActiveEn]
  have hlast := goodLast_trimJS (dropTrailTerm (trimJS sent))
  have hmem : ∀ c ∈ trimJS (dropTrailTerm (trimJS sent)), c ∈ sent :=
    fun c hc => mem_trimJS (mem_dropTrailTerm (mem_trimJS hc))
  have htr : '\n' ∉ trailTermRun (trimJS sent) := trailTermRun_no_nl _
  cases hm1 : matchPassive enAux1 none "by".data
      (trimJS (dropTrailTerm (trimJS sent))) with
  | some r =>
    obtain ⟨g1, a2, g2, g3⟩ := r
    obtain ⟨s1, s2, s3, s4, k, s5, s6⟩ := matchPassive_spec hm1
    have hg3h : goodHeadB g3 = true := g3_goodHead hlast s4 s5 s6
    have hg3ne : trimJS g3 ≠ [] := trimJS_ne_nil_of_goodHead s4 hg3h
    exact built1_mid hg3ne (fun hx => hn (hmem _ (s1 '\n' hx)))
      (fun hx => hn (hmem _ (s3 '\n' hx)))
      (fun hx => hn (hmem _ (by rw [s5] at hx; exact List.drop_subset _ _ hx)))
      htr
  | none =>
    cases hm2 : matchPassive ["is".data, "are".data, "was".data, "were".data]
        (some "being".data) "by".data
        (trimJS (dropTrailTerm (trimJS sent))) with
    | some r =>
      obtain ⟨g1, a2, g2, g3⟩ := r
      obtain ⟨s1, s2, s3, s4, k, s5, s6⟩ := matchPassive_spec hm2
      have hg3h : goodHeadB g3 = true := g3_goodHead hlast s4 s5 s6
      have hg3ne : trimJS g3 ≠ [] := trimJS_ne_nil_of_goodHead s4 hg3h
      exact built2_mid hg3ne (fun hx => hn (hmem _ (s1 '\n' hx)))
        (fun hx => hn (hmem _ (s2 '\n' hx)))
        (fun hx => hn (hmem _ (s3 '\n' hx)))
        (fun hx => hn (hmem _ (by rw [s5] at hx; exact List.drop_subset _ _ hx)))
        htr
    | none => exact ⟨hh, hn⟩

theorem passiveToActiveNlV2_mid {sent : Str} (hh : goodHeadB sent = true)
    (hn : '\n' ∉ sent) :
    goodHeadB (passiveToActiveNlV2 sent) = true ∧
    '\n' ∉ passiveToActiveNlV2 sent := by
  simp only [passiveToActiveNlV2]
  have hlast := goodLast_trimJS (dropTrailTerm (trimJS sent))
  have hmem : ∀ c ∈ trimJS (dropTrailTerm (trimJS sent)), c ∈ sent :=
    fun c hc => mem_trimJS (mem_dropTrailTerm (mem_trimJS hc))
  have htr : '\n' ∉ trailTermRun (trimJS sent) := trailTermRun_no_nl _
  cases hm1 : matchPassive nlAux1 none "door".data
      (trimJS (dropTrailTerm (trimJS sent))) with
  | some r =>
    obtain ⟨g1, a2, g2, g3⟩ := r
    obtain ⟨s1, s2, s3, s4, k, s5, s6⟩ := matchPassive_spec hm1
    have hg3h : goodHeadB g3 = true := g3_goodHead hlast s4 s5 s6
    have hg3ne : trimJS g3 ≠ [] := trimJS_ne_nil_of_goodHead s4 hg3h
    exact built1_mid hg3ne (fun hx => hn (hmem _ (s1 '\n' hx)))
      (fun hx => hn (hmem _ (s3 '\n' hx)))
      (fun hx => hn (hmem _ (by rw [s5] at hx; exact List.drop_subset _ _ hx)))
      htr
  | none => exact ⟨hh, hn⟩

/- whole-pass invariants -/

theorem replaceSynonymsCore_mid {tag : Str} {table : List (Str × List Str)}
    (htag : '\n' ∉ tag)
    (htab : ∀ kv ∈ table, kv.2 ≠ [] ∧ ∀ o ∈ kv.2, goodReplB o = true)
    (v : Vari) (strength : ℚ) (s : Str) (st : Nat)
    (hh : goodHeadB s = true) (hn : '\n' ∉ s) :
    goodHeadB (replaceSynonymsCore tag table v strength s st).1 = true ∧
    '\n' ∉ (replaceSynonymsCore tag table v strength s st).1 := by
  simp only [replaceSynonymsCore]
  have hph : ∀ p ∈ (protectScan tag s []).2,
      p ≠ [] ∧ ∀ c ∈ p, jsIsSpace c = false := by
    intro p hp
    rcases protectScanF_acc _ _ _ p hp with h2 | h2
    · simp at h2
    · exact h2
  have hpn : ∀ p ∈ (protectScan tag s []).2, ∀ c ∈ p, jsIsSpace c = false :=
    fun p hp => (hph p hp).2
  have hpgh : goodHeadB (protectScan tag s []).1 = true :=
    protectScanF_goodHead tag s.length s [] hh
  have hpnl : '\n' ∉ (protectScan tag s []).1 :=
    protectScanF_noNL htag s.length s [] hn
  have hkeys : ∀ k ∈ sortByLenDesc (table.map Prod.fst),
      k ∈ table.map Prod.fst := fun k hk => mem_sortByLenDesc hk
  obtain ⟨hlh, hln⟩ := synLoop_mid htab (sortByLenDesc (table.map Prod.fst))
    (protectScan tag s []).1 0 st hkeys hpgh hpnl
  exact ⟨restoreScanF_goodHead hph _ _ hlh, restoreScanF_noNL hpn _ _ hln⟩

theorem contrFold_mid {table : List (Str × Str)}
    (htab : ∀ kv ∈ table, goodReplB kv.2 = true) :
    ∀ (s : Str), goodHeadB s = true → '\n' ∉ s →
      goodHeadB (table.foldl (fun acc kv =>
        replaceWBs [kv.1] (fun m => preserveCase m kv.2) acc) s) = true ∧
      '\n' ∉ table.foldl (fun acc kv =>
        replaceWBs [kv.1] (fun m => preserveCase m kv.2) acc) s := by
  induction table with
  | nil => exact fun s hh hn => ⟨hh, hn⟩
  | cons kv t ih =>
    intro s hh hn
    rw [List.foldl_cons]
    have hkv := htab kv (by simp)
    have hh2 : goodHeadB (replaceWBs [kv.1]
        (fun m => preserveCase m kv.2) s) = true := by
      rw [replaceWBs, replaceWB]
      exact replaceWBF_goodHead _ _
        (fun m st => Or.inr (preserveCase_goodRepl m hkv)) _ _ _ _ hh
    have hn2 : '\n' ∉ replaceWBs [kv.1] (fun m => preserveCase m kv.2) s := by
      rw [replaceWBs, replaceWB]
      exact replaceWBF_noNL _ _
        (fun m st _ => noNL_preserveCase m
          (((goodReplB_iff _).mp hkv).2.2)) _ _ _ _ hn
    exact ih (fun kv2 hkv2 => htab kv2 (List.mem_cons_of_mem kv hkv2)) _ hh2 hn2

theorem contrTableV2_good (lang : EffLang) :
    ∀ kv ∈ contrTableV2 lang, goodReplB kv.2 = true := by
  cases lang <;> decide

theorem applyContractionsV2_mid {s : Str} (lang : EffLang) (enabled : Bool)
    (hh : goodHeadB s = true) (hn : '\n' ∉ s) :
    goodHeadB (applyContractionsV2 s lang enabled) = true ∧
    '\n' ∉ applyContractionsV2 s lang enabled := by
  rw [applyContractionsV2]
  split
  · exact ⟨hh, hn⟩
  · exact contrFold_mid (contrTableV2_good lang) s hh hn

theorem goodHead_pref {x s : Str} (hp : x <+: s)
    (hh : goodHeadB s = true) : goodHeadB x = true := by
  rw [goodHeadB]
  split
  · rename_i c hc
    have h2 := head?_of_prefix hp hc
    rw [goodHeadB, h2] at hh
    exact hh
  · rfl

theorem replaceEndPunct_mid {s rep : Str} (hh : goodHeadB s = true)
    (hn : '\n' ∉ s) (hr : goodReplB rep = true) :
    goodHeadB (replaceEndPunct s rep) = true ∧
    '\n' ∉ replaceEndPunct s rep := by
  obtain ⟨r1, r2, r3⟩ := (goodReplB_iff rep).mp hr
  rw [replaceEndPunct]
  split
  · refine ⟨goodHead_append (goodHead_pref (List.dropLast_prefix s) hh) r2,
      noNL_append (fun hx => hn ((List.dropLast_sublist s).subset hx)) r3⟩
  · exact ⟨goodHead_append hh r2, noNL_append hn r3⟩

theorem joinSp_mid {ls : List Str}
    (h : ∀ l ∈ ls, l ≠ [] ∧ goodHeadB l = true ∧ '\n' ∉ l) :
    goodHeadB (joinSp ls) = true ∧ '\n' ∉ joinSp ls :=
  ⟨goodHead_joinSp (fun l hl => ⟨(h l hl).1, (h l hl).2.1⟩),
    noNL_joinSp (fun l hl => (h l hl).2.2)⟩

theorem shortParts_mid {sep : Char} {s : Str} (hn : '\n' ∉ s) :
    ∀ l ∈ ((((splitOnChar sep s).map trimJS).filter
        (fun p => !p.isEmpty)).take 2).map
        (fun p => capitalize p ++ ['.']),
      l ≠ [] ∧ goodHeadB l = true ∧ '\n' ∉ l := by
  intro l hl
  obtain ⟨p, hp, rfl⟩ := List.mem_map.mp hl
  have hp2 := List.take_subset 2 _ hp
  have hpne : p ≠ [] := by
    have := List.of_mem_filter hp2
    simpa using this
  obtain ⟨q, hq, rfl⟩ := List.mem_map.mp (List.mem_of_mem_filter hp2)
  have hqn : '\n' ∉ trimJS q :=
    fun hx => hn (mem_splitOnChar hq '\n' (mem_trimJS hx))
  refine ⟨by simp, ?_, ?_⟩
  · exact goodHead_append_left _ (capitalize_ne_nil hpne)
      (goodHead_capitalize (goodHead_trimJS q))
  · exact noNL_append (noNL_capitalize hqn) (by decide)

theorem shortenSentence_mid {sent : Str} (lang : EffLang)
    (hh : goodHeadB sent = true) (hn : '\n' ∉ sent) :
    goodHeadB (shortenSentence sent lang) = true ∧
    '\n' ∉ shortenSentence sent lang := by
  have hcore : '\n' ∉ trimJS sent := noNL_trimJS hn
  simp only [shortenSentence]
  split
  · exact ⟨hh, hn⟩
  · split
    · exact joinSp_mid (shortParts_mid hcore)
    · split
      · exact joinSp_mid (shortParts_mid hcore)
      · have hparts : ∀ x ∈ splitConj (conjWords lang) (trimJS sent),
            '\n' ∉ x := by
          intro x hx hc
          rcases mem_splitConjF _ _ _ x hx '\n' hc with h2 | h2
          · cases h2
          · exact hcore h2
        split
        · have hhead : '\n' ∉ trimJS
              (splitConj (conjWords lang) (trimJS sent)).headI := by
            cases hpe : splitConj (conjWords lang) (trimJS sent) with
            | nil => simp [trimJS, List.dropWhile]
            | cons a b =>
              apply noNL_trimJS
              apply hparts
              rw [hpe]
              exact headI_mem (by simp)
          have hjoin : '\n' ∉ trimJS (joinSp
              ((splitConj (conjWords lang) (trimJS sent)).drop 2)) := by
            apply noNL_trimJS
            apply noNL_joinSp
            intro l hl
            exact hparts l (List.drop_subset _ _ hl)
          constructor
          · apply goodHead_append
            apply goodHead_append
            apply goodHead_append
            · exact goodHead_capitalize (goodHead_trimJS _)
            · decide
            · exact goodHead_capitalize (goodHead_trimJS _)
            · decide
          · exact noNL_append (noNL_append (noNL_append
              (noNL_capitalize hhead) (by decide))
              (noNL_capitalize hjoin)) (by decide)
        · constructor
          · exact goodHead_append (goodHead_trimJS _) (by decide)
          · exact noNL_append
              (noNL_trimJS (fun hx => hcore (List.take_subset _ _ hx)))
              (by decide)

/- the aggressive-rewrite stages -/

theorem aiPasStage_mid (lang : EffLang) (strength : ℚ) (p : Str × Nat)
    (hh : goodHeadB p.1 = true) (hn : '\n' ∉ p.1) :
    goodHeadB (aiPasStage lang strength p).1 = true ∧
    '\n' ∉ (aiPasStage lang strength p).1 := by
  simp only [aiPasStage]
  split
  · cases lang with
    | en => exact passiveToActiveEn_mid hh hn
    | nl => exact passiveToActiveNlV2_mid hh hn
  · exact ⟨hh, hn⟩

theorem synTableV2_good (lang : EffLang) :
    ∀ kv ∈ synTableV2 lang, kv.2 ≠ [] ∧ ∀ o ∈ kv.2, goodReplB o = true := by
  cases lang <;> decide

theorem replaceSynonymsV2_mid (lang : EffLang) (v : Vari) (strength : ℚ)
    (s : Str) (st : Nat) (hh : goodHeadB s = true) (hn : '\n' ∉ s) :
    goodHeadB (replaceSynonymsV2 lang v strength s st).1 = true ∧
    '\n' ∉ (replaceSynonymsV2 lang v strength s st).1 := by
  simp only [replaceSynonymsV2]
  exact replaceSynonymsCore_mid (by decide) (synTableV2_good lang)
    v strength s st hh hn

theorem aiSynStage_mid (lang : EffLang) (strength : ℚ) (p : Str × Nat)
    (hh : goodHeadB p.1 = true) (hn : '\n' ∉ p.1) :
    goodHeadB (aiSynStage lang strength p).1 = true ∧
    '\n' ∉ (aiSynStage lang strength p).1 :=
  replaceSynonymsV2_mid lang Vari.high strength p.1 p.2 hh hn

theorem sepLit_no_nl (lang : EffLang) : '\n' ∉ sepLit lang := by
  cases lang <;> decide

theorem reorder_and_built_mid {aw : List Str} {s : Str} {sep : Str}
    (hs : '\n' ∉ s) (hsep : '\n' ∉ sep) :
    goodHeadB (capitalize (trimJS (List.intercalate sep
        ((evens (splitConj aw s)).drop 1))) ++ ". ".data ++
      capitalize (trimJS (evens (splitConj aw s)).headI) ++ ['.']) = true ∧
    '\n' ∉ (capitalize (trimJS (List.intercalate sep
        ((evens (splitConj aw s)).drop 1))) ++ ". ".data ++
      capitalize (trimJS (evens (splitConj aw s)).headI) ++ ['.']) := by
  have hand : ∀ x ∈ evens (splitConj aw s), '\n' ∉ x := by
    intro x hx hc
    rcases mem_splitConjF _ _ _ x (mem_evens hx) '\n' hc with h2 | h2
    · cases h2
    · exact hs h2
  constructor
  · exact goodHead_append (goodHead_append (goodHead_append
      (goodHead_capitalize (goodHead_trimJS _)) (by decide))
      (goodHead_capitalize (goodHead_trimJS _))) (by decide)
  · refine noNL_append (noNL_append (noNL_append
      (noNL_capitalize (noNL_trimJS ?_)) (by decide))
      (noNL_capitalize (noNL_trimJS ?_))) (by decide)
    · intro hx
      rcases mem_intercalate hx with h2 | ⟨l, hl, hc⟩
      · exact hsep h2
      · exact hand l (List.drop_subset _ _ hl) hc
    · cases hpe : evens (splitConj aw s) with
      | nil => decide
      | cons a b =>
        apply hand
        rw [hpe]
        exact headI_mem (by simp)

theorem aiReorderStage_mid (lang : EffLang) (strength : ℚ) (p : Str × Nat)
    (hh : goodHeadB p.1 = true) (hn : '\n' ∉ p.1) :
    goodHeadB (aiReorderStage lang strength p).1 = true ∧
    '\n' ∉ (aiReorderStage lang strength p).1 := by
  have hcp : ∀ x ∈ splitOnChar ',' p.1, '\n' ∉ x :=
    fun x hx hc => hn (mem_splitOnChar hx '\n' hc)
  simp only [aiReorderStage]
  split
  · split
    · rename_i hcl
      split
      · constructor
        · exact goodHead_append (goodHead_append
            (goodHead_capitalize (goodHead_trimJS _)) (by decide))
            (goodHead_trimJS _)
        · refine noNL_append (noNL_append (noNL_capitalize (noNL_trimJS ?_))
            (by decide)) (noNL_trimJS ?_)
          · intro hx
            rcases mem_intercalate hx with h2 | ⟨l, hl, hc⟩
            · simp at h2
            · refine hcp l ?_ hc
              have := List.tail_sublist (splitOnChar ',' p.1)
              exact this.subset hl
          · cases hpe : splitOnChar ',' p.1 with
            | nil => decide
            | cons a b =>
              apply hcp
              rw [hpe]
              exact headI_mem (by simp)
      · exact ⟨hh, hn⟩
    · split
      · split
        · cases lang with
          | en => exact reorder_and_built_mid hn (by decide)
          | nl => exact reorder_and_built_mid hn (by decide)
        · exact ⟨hh, hn⟩
      · exact ⟨hh, hn⟩
  · exact ⟨hh, hn⟩

theorem aiSizeStage_mid (lang : EffLang) (strength : ℚ) (p : Str × Nat)
    (hh : goodHeadB p.1 = true) (hn : '\n' ∉ p.1) :
    goodHeadB (aiSizeStage lang strength p).1 = true ∧
    '\n' ∉ (aiSizeStage lang strength p).1 := by
  simp only [aiSizeStage]
  split
  · split
    · exact shortenSentence_mid lang hh hn
    · exact ⟨hh, hn⟩
  · split
    · split
      · apply replaceEndPunct_mid hh hn
        cases lang <;> decide
      · exact ⟨hh, hn⟩
    · exact ⟨hh, hn⟩

theorem aiToneStage_mid (lang : EffLang) (strength : ℚ) (p : Str × Nat)
    (hh : goodHeadB p.1 = true) (hn : '\n' ∉ p.1) :
    goodHeadB (aiToneStage lang strength p).1 = true ∧
    '\n' ∉ (aiToneStage lang strength p).1 := by
  cases lang with
  | en =>
    simp only [aiToneStage]
    split
    · split
      · split
        · constructor
          · rw [replaceWBs, replaceWB]
            exact replaceWBF_goodHead _ _ (fun m st => Or.inr
              (show goodReplB "it’s".data = true by decide)) _ _ _ _ hh
          · rw [replaceWBs, replaceWB]
            exact replaceWBF_noNL _ _ (fun m st _ =>
              show '\n' ∉ "it’s".data by decide) _ _ _ _ hn
        · exact ⟨hh, hn⟩
      · exact ⟨hh, hn⟩
    · exact ⟨hh, hn⟩
  | nl =>
    simp only [aiToneStage]
    split
    · split
      · split
        · constructor
          · rw [replaceWBs, replaceWB]
            exact replaceWBF_goodHead _ _ (fun m st => Or.inr
              (show goodReplB "het is".data = true by decide)) _ _ _ _ hh
          · rw [replaceWBs, replaceWB]
            exact replaceWBF_noNL _ _ (fun m st _ =>
              show '\n' ∉ "het is".data by decide) _ _ _ _ hn
        · exact ⟨hh, hn⟩
      · exact ⟨hh, hn⟩
    · exact ⟨hh, hn⟩

theorem aiFinalStage_mid (p : Str × Nat) (hn : '\n' ∉ p.1) :
    goodHeadB (aiFinalStage p).1 = true ∧ '\n' ∉ (aiFinalStage p).1 := by
  simp only [aiFinalStage]
  split
  · exact ⟨goodHead_trimJS _, noNL_trimJS hn⟩
  · exact ⟨goodHead_append (goodHead_trimJS _) (by decide),
      noNL_append (noNL_trimJS hn) (by decide)⟩

theorem aiRewriteSentenceV2_mid (lang : EffLang) (strength : ℚ) (sent : Str)
    (st : Nat) (hn : '\n' ∉ sent) :
    goodHeadB (aiRewriteSentenceV2 lang strength sent st).1 = true ∧
    '\n' ∉ (aiRewriteSentenceV2 lang strength sent st).1 := by
  rw [aiRewriteSentenceV2]
  have h0 : goodHeadB (trimJS sent) = true ∧ '\n' ∉ trimJS sent :=
    ⟨goodHead_trimJS sent, noNL_trimJS hn⟩
  have h1 := aiPasStage_mid lang strength (trimJS sent, st) h0.1 h0.2
  have h2 := aiSynStage_mid lang strength _ h1.1 h1.2
  have h3 := aiReorderStage_mid lang strength _ h2.1 h2.2
  have h4 := aiSizeStage_mid lang strength _ h3.1 h3.2
  have h5 := aiToneStage_mid lang strength _ h4.1 h4.2
  exact aiFinalStage_mid _ h5.2

/- the light-path stages of version 2 -/

theorem pasStageV2_mid (o : OptsV2) (lang : EffLang) (p : Str × Nat)
    (hh : goodHeadB p.1 = true) (hn : '\n' ∉ p.1) :
    goodHeadB (pasStageV2 o lang p).1 = true ∧
    '\n' ∉ (pasStageV2 o lang p).1 := by
  simp only [pasStageV2]
  split
  · cases lang with
    | en => exact passiveToActiveEn_mid hh hn
    | nl => exact passiveToActiveNlV2_mid hh hn
  · exact ⟨hh, hn⟩

theorem synStageV2_mid (o : OptsV2) (lang : EffLang) (p : Str × Nat)
    (hh : goodHeadB p.1 = true) (hn : '\n' ∉ p.1) :
    goodHeadB (synStageV2 o lang p).1 = true ∧
    '\n' ∉ (synStageV2 o lang p).1 :=
  replaceSynonymsV2_mid lang o.variability o.strength p.1 p.2 hh hn

theorem contrStageV2_mid (o : OptsV2) (lang : EffLang) (p : Str × Nat)
    (hh : goodHeadB p.1 = true) (hn : '\n' ∉ p.1) :
    goodHeadB (contrStageV2 o lang p).1 = true ∧
    '\n' ∉ (contrStageV2 o lang p).1 := by
  simp only [contrStageV2]
  split
  · exact applyContractionsV2_mid lang true hh hn
  · exact ⟨hh, hn⟩

theorem shortStage_mid (flag : Bool) (prob : ℚ) (lang : EffLang)
    (p : Str × Nat) (hh : goodHeadB p.1 = true) (hn : '\n' ∉ p.1) :
    goodHeadB (shortStage flag prob lang p).1 = true ∧
    '\n' ∉ (shortStage flag prob lang p).1 := by
  simp only [shortStage]
  split
  · split
    · exact shortenSentence_mid lang hh hn
    · exact ⟨hh, hn⟩
  · exact ⟨hh, hn⟩

theorem friendlyStageV2_mid (o : OptsV2) (lang : EffLang) (p : Str × Nat)
    (hh : goodHeadB p.1 = true) (hn : '\n' ∉ p.1) :
    goodHeadB (friendlyStageV2 o lang p).1 = true ∧
    '\n' ∉ (friendlyStageV2 o lang p).1 := by
  simp only [friendlyStageV2]
  split
  · split
    · cases lang with
      | en => exact replaceEndPunct_mid hh hn (by decide)
      | nl => exact replaceEndPunct_mid hh hn (by decide)
    · exact ⟨hh, hn⟩
  · exact ⟨hh, hn⟩

theorem ensureTermStage_good {p : Str × Nat} (hh : goodHeadB p.1 = true)
    (hn : '\n' ∉ p.1) :
    (ensureTermStage p).1 ≠ [] ∧ goodHeadB (ensureTermStage p).1 = true ∧
    '\n' ∉ (ensureTermStage p).1 ∧
    ∀ x, (ensureTermStage p).1.getLast? = some x → jsIsSpace x = false := by
  have het := endsTerm_ensure p.1
  simp only [ensureTermStage]
  refine ⟨?_, ?_, ?_, ?_⟩
  · intro he
    rw [he] at het
    simp [endsTerm] at het
  · split
    · exact hh
    · exact goodHead_append hh (by decide)
  · split
    · exact hn
    · exact noNL_append hn (by decide)
  · intro x hx
    rw [endsTerm, hx] at het
    exact isTermPunct_not_ws x het

theorem processSentenceV2_good (opts : OptsV2) (lang : EffLang) (sent : Str)
    (st : Nat) (hn : '\n' ∉ sent) :
    (processSentenceV2 opts lang sent st).1 ≠ [] ∧
    goodHeadB (processSentenceV2 opts lang sent st).1 = true ∧
    '\n' ∉ (processSentenceV2 opts lang sent st).1 ∧
    ∀ x, (processSentenceV2 opts lang sent st).1.getLast? = some x →
      jsIsSpace x = false := by
  rw [processSentenceV2]
  have h0 : goodHeadB (capitalize (trimJS sent)) = true ∧
      '\n' ∉ capitalize (trimJS sent) :=
    ⟨goodHead_capitalize (goodHead_trimJS sent),
      noNL_capitalize (noNL_trimJS hn)⟩
  split
  · have h1 := aiRewriteSentenceV2_mid lang opts.strength
      (capitalize (trimJS sent)) st h0.2
    exact ensureTermStage_good h1.1 h1.2
  · have h1 := pasStageV2_mid opts lang (capitalize (trimJS sent), st)
      h0.1 h0.2
    have h2 := synStageV2_mid opts lang _ h1.1 h1.2
    have h3 := contrStageV2_mid opts lang _ h2.1 h2.2
    have h4 := shortStage_mid opts.shorten
      (qmul (mkRat 9 10) (strengthOr1 opts.strength)) lang _ h3.1 h3.2
    have h5 := friendlyStageV2_mid opts lang _ h4.1 h4.2
    exact ensureTermStage_good h5.1 h5.2

/- assembling a processed line between the preserved whitespace -/

theorem mem_leadingWS {s : Str} {c : Char} (h : c ∈ leadingWS s) : c ∈ s := by
  rw [leadingWS] at h
  exact (List.takeWhile_sublist _).subset h

theorem mem_trailingWS {s : Str} {c : Char} (h : c ∈ trailingWS s) : c ∈ s := by
  rw [trailingWS, List.mem_reverse] at h
  have h2 := (List.takeWhile_sublist _).subset h
  rwa [List.mem_reverse] at h2

theorem leadingWS_all (s : Str) : ∀ c ∈ leadingWS s, jsIsSpace c = true :=
  fun _ hc => List.mem_takeWhile_imp hc

theorem trailingWS_all (s : Str) : ∀ c ∈ trailingWS s, jsIsSpace c = true := by
  intro c hc
  rw [trailingWS, List.mem_reverse] at hc
  exact List.mem_takeWhile_imp hc

theorem leadingWS_assemble {leading mid trailing : Str}
    (hl : ∀ c ∈ leading, jsIsSpace c = true)
    (hm_ne : mid ≠ []) (hm_gh : goodHeadB mid = true) :
    leadingWS (leading ++ mid ++ trailing) = leading := by
  rw [leadingWS, List.append_assoc, takeWhile_append_all _ hl]
  cases mid with
  | nil => exact (hm_ne rfl).elim
  | cons c t =>
    rw [List.cons_append,
      takeWhile_cons_neg _ (goodHead_cons_elim hm_gh), List.append_nil]

theorem trailingWS_assemble {leading mid trailing : Str}
    (ht : ∀ c ∈ trailing, jsIsSpace c = true) (hm_ne : mid ≠ [])
    (hm_gl : ∀ x, mid.getLast? = some x → jsIsSpace x = false) :
    trailingWS (leading ++ mid ++ trailing) = trailing := by
  rw [trailingWS, List.reverse_append, List.reverse_append,
    takeWhile_append_all _ (fun c hc => ht c (List.mem_reverse.mp hc))]
  cases hb : mid.reverse with
  | nil =>
    rw [List.reverse_eq_nil_iff] at hb
    exact (hm_ne hb).elim
  | cons d t =>
    have hd : mid.getLast? = some d := by
      rw [← List.head?_reverse, hb, List.head?_cons]
    rw [List.cons_append, takeWhile_cons_neg _ (hm_gl d hd),
      List.append_nil, List.reverse_reverse]

theorem humaniseLine_v2 (opts : OptsV2) (lang : EffLang) (line : Str)
    (st : Nat) (hn : '\n' ∉ line) (hcr : '\r' ∉ line) :
    ((trimJS line).isEmpty = true →
      (humaniseLine (processSentenceV2 opts lang) line st).1 =
        leadingWS line ++ trailingWS line) ∧
    ((trimJS line).isEmpty = false →
      leadingWS (humaniseLine (processSentenceV2 opts lang) line st).1 =
        leadingWS line ∧
      trailingWS (humaniseLine (processSentenceV2 opts lang) line st).1 =
        trailingWS line) ∧
    '\n' ∉ (humaniseLine (processSentenceV2 opts lang) line st).1 ∧
    (humaniseLine (processSentenceV2 opts lang) line st).1.getLast? ≠
      some '\r' := by
  simp only [humaniseLine]
  split
  · rename_i hempty
    refine ⟨fun _ => rfl, fun hfe => ?_, ?_, ?_⟩
    · rw [hempty] at hfe
      cases hfe
    · exact noNL_append (fun hx => hn (mem_leadingWS hx))
        (fun hx => hn (mem_trailingWS hx))
    · intro hgl
      have hmem := List.mem_of_getLast?_eq_some hgl
      rcases List.mem_append.mp hmem with h2 | h2
      · exact hcr (mem_leadingWS h2)
      · exact hcr (mem_trailingWS h2)
  · rename_i hempty
    have hcore_ne : trimJS line ≠ [] := by
      simpa [List.isEmpty_iff] using hempty
    have hcore_nl : '\n' ∉ trimJS line := noNL_trimJS hn
    have hsents_ne : splitSentences (trimJS line) ≠ [] :=
      splitSentences_ne_nil hcore_ne (fun x hx => goodLast_trimJS line x hx)
    have houts : ∀ y ∈ (mapState (processSentenceV2 opts lang)
        (splitSentences (trimJS line)) st).1,
        y ≠ [] ∧ goodHeadB y = true ∧ '\n' ∉ y ∧
        ∀ x, y.getLast? = some x → jsIsSpace x = false := by
      intro y hy
      obtain ⟨x, hx, st', rfl⟩ := mapState_mem hy
      obtain ⟨x1, x2, x3⟩ :=
        splitSentences_spec hcore_ne (goodHead_trimJS line) x hx
      exact processSentenceV2_good opts lang x st'
        (fun hc => hcore_nl (x3 '\n' hc))
    have houts_ne : (mapState (processSentenceV2 opts lang)
        (splitSentences (trimJS line)) st).1 ≠ [] := by
      intro he
      have hlen := mapState_length (processSentenceV2 opts lang)
        (splitSentences (trimJS line)) st
      rw [he] at hlen
      have := List.length_pos.mpr hsents_ne
      simp only [List.length_nil] at hlen
      omega
    have hmid_ne : joinSp (mapState (processSentenceV2 opts lang)
        (splitSentences (trimJS line)) st).1 ≠ [] :=
      joinSp_ne_nil houts_ne (fun l hl => (houts l hl).1)
    have hmid_gh := goodHead_joinSp
      (fun l hl => ⟨(houts l hl).1, (houts l hl).2.1⟩)
    have hmid_nl := noNL_joinSp (fun l hl => (houts l hl).2.2.1)
    have hmid_gl := goodLast_joinSp
      (fun l hl => ⟨(houts l hl).1, (houts l hl).2.2.2⟩)
    refine ⟨fun hfe => ?_, fun _ => ?_, ?_, ?_⟩
    · rw [List.isEmpty_iff] at hfe
      exact (hcore_ne hfe).elim
    · exact ⟨leadingWS_assemble (leadingWS_all line) hmid_ne hmid_gh,
        trailingWS_assemble (trailingWS_all line) hmid_ne hmid_gl⟩
    · exact noNL_append (noNL_append (fun hx => hn (mem_leadingWS hx))
        hmid_nl) (fun hx => hn (mem_trailingWS hx))
    · by_cases hte : trailingWS line = []
      · rw [hte, List.append_nil]
        rw [getLast?_append_right hmid_ne]
        intro hgl
        have := hmid_gl '\r' hgl
        rw [show jsIsSpace '\r' = true from rfl] at this
        cases this
      · rw [getLast?_append_right hte]
        intro hgl
        exact hcr (mem_trailingWS (List.mem_of_getLast?_eq_some hgl))

/- ===== C1: layout preservation ===== -/

/-- C1 (counterexample to the claim as stated): version 1's `smoothOutput`
trims the result and collapses whitespace, so on the two-line input
`"a\n "` the output `"A."` has a single line while the input has two —
the line count is not preserved. -/
theorem c1_layout_cex :
    (splitLinesJS (humaniseV1 1234567 "a\n ".data defaultsV1).1).length = 1 ∧
    (splitLinesJS "a\n ".data).length = 2 := by decide

/-- C1 (amended): in the part_000 revision, for every carriage-return-free
input, every generator state and every configuration, the output has
exactly as many lines as the input; a line whose trimmed core is empty is
emitted as its leading whitespace concatenated with its trailing
whitespace (which doubles the whitespace of blank lines), and every other
output line carries leading and trailing whitespace byte-identical to its
input line's. -/
theorem c1_layout_amended (st : Nat) (text : Str) (o : OptsV2)
    (hcr : '\r' ∉ text) :
    (splitLinesJS (humaniseV2 st text o).1).length =
      (splitLinesJS text).length ∧
    ∀ i, i < (splitLinesJS text).length →
      ((trimJS ((splitLinesJS text).getD i [])).isEmpty = true →
        (splitLinesJS (humaniseV2 st text o).1).getD i [] =
          leadingWS ((splitLinesJS text).getD i []) ++
          trailingWS ((splitLinesJS text).getD i [])) ∧
      ((trimJS ((splitLinesJS text).getD i [])).isEmpty = false →
        leadingWS ((splitLinesJS (humaniseV2 st text o).1).getD i []) =
          leadingWS ((splitLinesJS text).getD i []) ∧
        trailingWS ((splitLinesJS (humaniseV2 st text o).1).getD i []) =
          trailingWS ((splitLinesJS text).getD i [])) := by
  by_cases hte : text.isEmpty = true
  · rw [List.isEmpty_iff] at hte
    subst hte
    refine ⟨rfl, ?_⟩
    intro i hi
    have hi0 : i = 0 := by
      rw [show splitLinesJS ([] : Str) = [[]] from rfl] at hi
      simp only [List.length_cons, List.length_nil] at hi
      omega
    subst hi0
    exact ⟨fun _ => rfl, fun hfe => absurd hfe (by decide)⟩
  · have hout : (humaniseV2 st text o).1 = joinLines (mapState
        (humaniseLine (processSentenceV2 o (effLang o.lang text)))
        (splitLinesJS text) st).1 := by
      simp only [humaniseV2]
      rw [if_neg hte]
    have hlines : ∀ l ∈ splitLinesJS text, '\n' ∉ l ∧ '\r' ∉ l :=
      fun l hl => ⟨noNL_splitLinesJS hl,
        fun hx => hcr (mem_splitLinesJS hl '\r' hx)⟩
    have hRne : (mapState
        (humaniseLine (processSentenceV2 o (effLang o.lang text)))
        (splitLinesJS text) st).1 ≠ [] := by
      intro he
      have hlen := mapState_length
        (humaniseLine (processSentenceV2 o (effLang o.lang text)))
        (splitLinesJS text) st
      rw [he] at hlen
      have := List.length_pos.mpr (splitLinesJS_ne_nil text)
      simp only [List.length_nil] at hlen
      omega
    have hRgood : ∀ l ∈ (mapState
        (humaniseLine (processSentenceV2 o (effLang o.lang text)))
        (splitLinesJS text) st).1,
        '\n' ∉ l ∧ l.getLast? ≠ some '\r' := by
      intro l hl
      obtain ⟨x, hx, st', rfl⟩ := mapState_mem hl
      obtain ⟨hx1, hx2⟩ := hlines x hx
      have h4 := humaniseLine_v2 o (effLang o.lang text) x st' hx1 hx2
      exact ⟨h4.2.2.1, h4.2.2.2⟩
    have hsplit : splitLinesJS (humaniseV2 st text o).1 = (mapState
        (humaniseLine (processSentenceV2 o (effLang o.lang text)))
        (splitLinesJS text) st).1 := by
      rw [hout]
      exact splitLinesJS_joinLines hRne hRgood
    constructor
    · rw [hsplit, mapState_length]
    · intro i hi
      obtain ⟨st', hst⟩ := mapState_getD
        (humaniseLine (processSentenceV2 o (effLang o.lang text)))
        (splitLinesJS text) st i hi ([] : Str) ([] : Str)
      have hline_mem : (splitLinesJS text).getD i [] ∈ splitLinesJS text := by
        rw [List.getD_eq_getElem _ _ hi]
        exact List.getElem_mem hi
      obtain ⟨hl1, hl2⟩ := hlines _ hline_mem
      have h4 := humaniseLine_v2 o (effLang o.lang text)
        ((splitLinesJS text).getD i []) st' hl1 hl2
      rw [hsplit, hst]
      exact ⟨h4.1, h4.2.1⟩

/-- C1 (witness for the amended theorem): a concrete three-line mixed text
with leading and trailing whitespace, run from a concrete state with the
default configuration. -/
theorem c1_layout_amended_witness :
    '\r' ∉ "  Hello there world. \n\nright ".data ∧
    ((splitLinesJS (humaniseV2 1234567 "  Hello there world. \n\nright ".data
        defaultsV2).1).length =
      (splitLinesJS "  Hello there world. \n\nright ".data).length ∧
    ∀ i, i < (splitLinesJS "  Hello there world. \n\nright ".data).length →
      ((trimJS ((splitLinesJS "  Hello there world. \n\nright ".data).getD
          i [])).isEmpty = true →
        (splitLinesJS (humaniseV2 1234567
            "  Hello there world. \n\nright ".data defaultsV2).1).getD i [] =
          leadingWS ((splitLinesJS
            "  Hello there world. \n\nright ".data).getD i []) ++
          trailingWS ((splitLinesJS
            "  Hello there world. \n\nright ".data).getD i [])) ∧
      ((trimJS ((splitLinesJS "  Hello there world. \n\nright ".data).getD
          i [])).isEmpty = false →
        leadingWS ((splitLinesJS (humaniseV2 1234567
            "  Hello there world. \n\nright ".data defaultsV2).1).getD i []) =
          leadingWS ((splitLinesJS
            "  Hello there world. \n\nright ".data).getD i []) ∧
        trailingWS ((splitLinesJS (humaniseV2 1234567
            "  Hello there world. \n\nright ".data defaultsV2).1).getD i []) =
          trailingWS ((splitLinesJS
            "  Hello there world. \n\nright ".data).getD i []))) :=
  ⟨by decide, c1_layout_amended 1234567
    "  Hello there world. \n\nright ".data defaultsV2 (by decide)⟩

end Humaniser
